import Mathlib

set_option maxRecDepth 4000

/-
  Verification of the AllJoyn core ECC math layer (CryptoECCMath.cc) and the
  router rule table, against its natural-language specification.

  The C type bigval_t is a fixed array of BIGLEN = 9 unsigned 32-bit words,
  interpreted as a little-endian two's-complement integer (288 bits).  We embed
  it as a list of 9 natural numbers, each below 2^32.  All C arithmetic on
  64-bit signed accumulators is embedded as unbounded Int arithmetic; stores
  into 32-bit words truncate with an explicit mod 2^32, and the C arithmetic
  right shift of a signed accumulator by 32 is Euclidean division by 2^32
  (which is floor division, matching the C semantics for a positive divisor).
-/

def BIGLEN : Nat := 9

def MSW : Nat := 8

/-- A well-formed bigval: exactly 9 words, each a 32-bit value. -/
def bigWF (a : List Nat) : Prop := a.length = 9 ∧ ∀ x ∈ a, x < 2 ^ 32

instance (a : List Nat) : Decidable (bigWF a) := by
  unfold bigWF; infer_instance

/-- Unsigned value of a word list, little-endian base 2^32. -/
def uval : List Nat → Nat
  | [] => 0
  | x :: t => x + 2 ^ 32 * uval t

/-- Value of a list of integers, little-endian base 2^32. -/
def zval : List Int → Int
  | [] => 0
  | x :: t => x + 2 ^ 32 * zval t

/-- The most significant (9th) word. -/
def msw (a : List Nat) : Nat := a.getD MSW 0

/-- The C test `(int32_t)a->data[MSW] < 0` from the big_is_negative macro:
    the value is negative iff the top bit of the most significant word is set. -/
def big_is_negative (a : List Nat) : Bool := decide (2 ^ 31 ≤ msw a)

/-- Signed (two's-complement) value of a bigval. -/
def sval (a : List Nat) : Int :=
  (uval a : Int) - (if 2 ^ 31 ≤ msw a then (2 : Int) ^ 288 else 0)

/-- A 32-bit word reinterpreted as a signed int32 (the C cast `(int32_t)w`). -/
def toSigned32 (w : Nat) : Int := (w : Int) - (if 2 ^ 31 ≤ w then (2 : Int) ^ 32 else 0)

/-- Generic carry-propagation loop: the shared shape of big_add, big_sub,
    big_adjustP, big_1wd_mpy and the copy-out loop of big_mpyP.  Each step adds
    the next addend to the carry, stores the low 32 bits, and shifts the
    accumulator right by 32 (arithmetic shift = Euclidean division). -/
def carrySteps : Int → List Int → List Nat
  | _, [] => []
  | w, g :: gs =>
      let t : Int := w + g
      (t % 2 ^ 32).toNat :: carrySteps (t / 2 ^ 32) gs

/-- big_add: two's-complement addition with word-wise carry propagation. -/
def big_add (a b : List Nat) : List Nat :=
  carrySteps 0 (List.zipWith (fun (x y : Nat) => (x : Int) + (y : Int)) a b)

/-- big_sub: two's-complement subtraction, as one's complement plus an initial
    increment; `~b` on a 32-bit word is 2^32 - 1 - b. -/
def big_sub (a b : List Nat) : List Nat :=
  carrySteps 1 (List.zipWith (fun (x y : Nat) => (x : Int) + (2 ^ 32 - 1 - (y : Int))) a b)

/-- The adjustment word pattern of big_adjustP's unrolled RDCSTEP calls:
    tgt = a + k * modulusP via adding -k, 0, 0, k, 0, 0, k, -k, k at
    word positions 0..8. -/
def adjustPattern (k : Int) : List Int := [-k, 0, 0, k, 0, 0, k, -k, k]

/-- big_adjustP: adds k * modulusP to a (word-wise, with carry propagation).
    The k = 0 short-circuit returns a unchanged, as in the source. -/
def big_adjustP (a : List Nat) (k : Int) : List Nat :=
  if k = 0 then a
  else carrySteps 0 (List.zipWith (fun (x : Nat) (adj : Int) => (x : Int) + adj) a (adjustPattern k))

/-- big_1wd_mpy: multiplies a bigval by a signed one-word constant k. -/
def big_1wd_mpy (a : List Nat) (k : Int) : List Nat :=
  carrySteps 0 (a.map (fun (x : Nat) => k * (x : Int)))

/-- big_approx_reduceP: subtracts (signed most significant word) times the
    modulus, as in the macro. -/
def big_approx_reduceP (a : List Nat) : List Nat :=
  big_adjustP a (-(toSigned32 (msw a)))

/-- big_is_zero: all 9 words are zero. -/
def big_is_zero (a : List Nat) : Bool := a.all (fun x => x == 0)

/-- big_is_one: word 0 is 1 and all other words are zero. -/
def big_is_one (a : List Nat) : Bool :=
  (a.getD 0 0 == 1) && (a.drop 1).all (fun x => x == 0)

/-- big_is_odd: tests bit 0 of word 0. -/
def big_is_odd (a : List Nat) : Bool := a.getD 0 0 % 2 == 1

/-- Recursive word comparison from word i-1 down to word 0 (unsigned). -/
def cmpRest (a b : List Nat) : Nat → Int
  | 0 => 0
  | i + 1 =>
      if a.getD i 0 > b.getD i 0 then 1
      else if a.getD i 0 < b.getD i 0 then -1
      else cmpRest a b i

/-- big_cmp: the most significant word is compared as a signed int32, the
    remaining words as unsigned, most significant first. -/
def big_cmp (a b : List Nat) : Int :=
  if toSigned32 (msw a) > toSigned32 (msw b) then 1
  else if toSigned32 (msw a) < toSigned32 (msw b) then -1
  else cmpRest a b MSW

/-- The all-zero bigval (big_zero). -/
def big_zero : List Nat := [0, 0, 0, 0, 0, 0, 0, 0, 0]

/-- The bigval one (big_one). -/
def big_one : List Nat := [1, 0, 0, 0, 0, 0, 0, 0, 0]

/-- The NIST P-256 field modulus 2^256 - 2^224 + 2^192 + 2^96 - 1, as the
    9-word bigval constant modulusP.  (The constant itself lives in a header
    that is not part of the sources at hand; its word values are forced by the
    big_adjustP reduction pattern in the source, which adds k at word weights
    0:-1, 3:+1, 6:+1, 7:-1, 8:+1, i.e. k * (2^256 - 2^224 + 2^192 + 2^96 - 1).) -/
def modulusP : List Nat :=
  [0xffffffff, 0xffffffff, 0xffffffff, 0, 0, 0, 1, 0xffffffff, 0]

/-- The P-256 group order, as the 9-word bigval constant orderP.  Its words are
    forced by the orderDBL256 signed-digit table in the source. -/
def orderP : List Nat :=
  [0xfc632551, 0xf3b9cac2, 0xa7179e84, 0xbce6faad,
   0xffffffff, 0xffffffff, 0, 0xffffffff, 0]

/-- The numeric value of the P-256 modulus. -/
def pVal : Nat := 2 ^ 256 - 2 ^ 224 + 2 ^ 192 + 2 ^ 96 - 1

/-- The numeric value of the P-256 group order. -/
def nVal : Nat :=
  0xffffffff00000000ffffffffffffffffbce6faada7179e84f3b9cac2fc632551

example : uval modulusP = pVal := by decide
example : uval orderP = nVal := by decide

/- ------------------------------------------------------------------ -/
/- Basic lemmas about the word layer.                                  -/
/- ------------------------------------------------------------------ -/

theorem carrySteps_length (w : Int) (gs : List Int) :
    (carrySteps w gs).length = gs.length := by
  induction gs generalizing w with
  | nil => rfl
  | cons g gs ih => simp [carrySteps, ih]

theorem carrySteps_words_lt (w : Int) (gs : List Int) :
    ∀ x ∈ carrySteps w gs, x < 2 ^ 32 := by
  induction gs generalizing w with
  | nil => intro x hx; simp [carrySteps] at hx
  | cons g gs ih =>
      intro x hx
      simp only [carrySteps, List.mem_cons] at hx
      rcases hx with h | h
      · subst h
        have h1 : (0 : Int) ≤ (w + g) % 2 ^ 32 := Int.emod_nonneg _ (by norm_num)
        have h2 : (w + g) % 2 ^ 32 < 2 ^ 32 := Int.emod_lt_of_pos _ (by norm_num)
        omega
      · exact ih _ _ h

/-- Splitting a Euclidean remainder by a product of moduli: used to peel one
    32-bit word off the front of a carry chain. -/
theorem emod_chunk (r X L : Int) (hr0 : 0 ≤ r) (hr1 : r < 2 ^ 32) (hL : 0 < L) :
    (r + 2 ^ 32 * X) % (2 ^ 32 * L) = r + 2 ^ 32 * (X % L) := by
  conv_lhs => rw [show X = L * (X / L) + X % L from (Int.ediv_add_emod _ _).symm]
  have h1 : r + 2 ^ 32 * (L * (X / L) + X % L)
      = r + 2 ^ 32 * (X % L) + (2 ^ 32 * L) * (X / L) := by ring
  rw [h1, Int.add_mul_emod_self_left]
  have hx1 : (0:Int) ≤ X % L := Int.emod_nonneg _ (by positivity)
  have hx2 : X % L < L := Int.emod_lt_of_pos _ hL
  have hnn : (0:Int) ≤ r + 2 ^ 32 * (X % L) := by positivity
  refine Int.emod_eq_of_lt hnn ?_
  nlinarith

/-- The key algebraic fact about the carry loop: the value of the output
    words is the total input value, reduced modulo 2^(32 * length). -/
theorem carrySteps_uval (w : Int) (gs : List Int) :
    (uval (carrySteps w gs) : Int) = (w + zval gs) % 2 ^ (32 * gs.length) := by
  induction gs generalizing w with
  | nil => simp [carrySteps, zval, uval]
  | cons g gs ih =>
      simp only [carrySteps, uval, zval, List.length_cons]
      rw [Nat.cast_add, Nat.cast_mul, ih]
      have hmod : (0:Int) ≤ (w + g) % 2 ^ 32 ∧ (w + g) % 2 ^ 32 < 2 ^ 32 :=
        ⟨Int.emod_nonneg _ (by norm_num), Int.emod_lt_of_pos _ (by norm_num)⟩
      have htn : (((w + g) % 2 ^ 32).toNat : Int) = (w + g) % 2 ^ 32 :=
        Int.toNat_of_nonneg hmod.1
      rw [htn]
      have hexp : (2:Int) ^ (32 * (gs.length + 1)) = 2 ^ 32 * 2 ^ (32 * gs.length) := by
        rw [Nat.mul_succ, pow_add]; ring
      have hcast : (((2 ^ 32 : Nat)) : Int) = 2 ^ 32 := by norm_num
      rw [hcast, hexp]
      have hLpos : (0:Int) < 2 ^ (32 * gs.length) := by positivity
      have hrw : w + (g + 2 ^ 32 * zval gs)
          = (w + g) % 2 ^ 32 + 2 ^ 32 * ((w + g) / 2 ^ 32 + zval gs) := by
        have := Int.ediv_add_emod (w + g) (2 ^ 32)
        ring_nf
        ring_nf at this
        omega
      rw [hrw, emod_chunk _ _ _ hmod.1 hmod.2 hLpos]

/-- Value bound: a list of 32-bit words has value below 2^(32 * length). -/
theorem uval_lt_pow (a : List Nat) (h : ∀ x ∈ a, x < 2 ^ 32) :
    uval a < 2 ^ (32 * a.length) := by
  induction a with
  | nil => simp [uval]
  | cons x t ih =>
      have hx : x < 2 ^ 32 := h x (List.mem_cons_self _ _)
      have ht : uval t < 2 ^ (32 * t.length) :=
        ih (fun y hy => h y (List.mem_cons_of_mem _ hy))
      simp only [uval, List.length_cons, Nat.mul_succ]
      calc x + 2 ^ 32 * uval t
          < 2 ^ 32 + 2 ^ 32 * uval t := by omega
        _ ≤ 2 ^ 32 * 2 ^ (32 * t.length) := by nlinarith
        _ = 2 ^ (32 * t.length + 32) := by rw [pow_add]; ring

theorem uval_lt (a : List Nat) (h : bigWF a) : uval a < 2 ^ 288 := by
  have := uval_lt_pow a h.2
  rw [h.1] at this
  exact lt_of_lt_of_eq this (by norm_num)

/-- Destructor for length-9 lists. -/
theorem exists9 (a : List Nat) (h : a.length = 9) :
    ∃ x0 x1 x2 x3 x4 x5 x6 x7 x8,
      a = [x0, x1, x2, x3, x4, x5, x6, x7, x8] := by
  match a, h with
  | [x0, x1, x2, x3, x4, x5, x6, x7, x8], _ =>
      exact ⟨x0, x1, x2, x3, x4, x5, x6, x7, x8, rfl⟩

/-- zval of the word-wise sum pattern used in big_add. -/
theorem zval_zip_add (a b : List Nat) (h : a.length = b.length) :
    zval (List.zipWith (fun (x y : Nat) => (x : Int) + (y : Int)) a b)
      = (uval a : Int) + (uval b : Int) := by
  induction a generalizing b with
  | nil => cases b with
      | nil => simp [zval, uval]
      | cons y t => simp at h
  | cons x t ih =>
      cases b with
      | nil => simp at h
      | cons y s =>
          simp only [List.zipWith_cons_cons, zval, uval]
          rw [ih s (by simpa using h)]
          push_cast
          ring

/-- zval of the one's-complement subtraction pattern used in big_sub. -/
theorem zval_zip_sub (a b : List Nat) (h : a.length = b.length) :
    zval (List.zipWith (fun (x y : Nat) => (x : Int) + (2 ^ 32 - 1 - (y : Int))) a b)
      = (uval a : Int) + (2 ^ (32 * a.length) - 1) - (uval b : Int) := by
  induction a generalizing b with
  | nil => cases b with
      | nil => simp [zval, uval]
      | cons y t => simp at h
  | cons x t ih =>
      cases b with
      | nil => simp at h
      | cons y s =>
          simp only [List.zipWith_cons_cons, zval, uval, List.length_cons]
          rw [ih s (by simpa using h)]
          have : (2:Int) ^ (32 * (t.length + 1)) = 2 ^ 32 * 2 ^ (32 * t.length) := by
            rw [Nat.mul_succ, pow_add]; ring
          rw [this]
          push_cast
          ring

/-- zval of the scalar-multiple pattern used in big_1wd_mpy. -/
theorem zval_map_mul (k : Int) (a : List Nat) :
    zval (a.map (fun (x : Nat) => k * (x : Int))) = k * (uval a : Int) := by
  induction a with
  | nil => simp [zval, uval]
  | cons x t ih =>
      simp only [List.map_cons, zval, uval]
      rw [ih]
      push_cast
      ring

theorem big_add_wf (a b : List Nat) (ha : a.length = 9) (hb : b.length = 9) :
    bigWF (big_add a b) := by
  constructor
  · rw [big_add, carrySteps_length, List.length_zipWith, ha, hb]; rfl
  · exact carrySteps_words_lt _ _


theorem big_add_uval (a b : List Nat) (ha : a.length = 9) (hb : b.length = 9) :
    (uval (big_add a b) : Int) = ((uval a : Int) + (uval b : Int)) % 2 ^ 288 := by
  rw [big_add, carrySteps_uval, zval_zip_add a b (by omega),
    List.length_zipWith, ha, hb]
  norm_num

theorem big_sub_wf (a b : List Nat) (ha : a.length = 9) (hb : b.length = 9) :
    bigWF (big_sub a b) := by
  constructor
  · rw [big_sub, carrySteps_length, List.length_zipWith, ha, hb]; rfl
  · exact carrySteps_words_lt _ _

theorem big_sub_uval (a b : List Nat) (ha : a.length = 9) (hb : b.length = 9) :
    (uval (big_sub a b) : Int) = ((uval a : Int) - (uval b : Int)) % 2 ^ 288 := by
  rw [big_sub, carrySteps_uval, zval_zip_sub a b (by omega),
    List.length_zipWith, ha, hb]
  rw [show (1:Int) + ((uval a : Int) + (2 ^ (32 * 9) - 1) - (uval b : Int))
      = ((uval a : Int) - (uval b : Int)) + 2 ^ 288 * 1 by norm_num; ring]
  rw [show (32 * (9 ⊓ 9)) = 288 by norm_num]
  exact Int.add_mul_emod_self_left _ _ _

/-- zval of the adjustment pattern: adds exactly k times the P-256 modulus. -/
theorem zval_zip_adjust (a : List Nat) (k : Int) (h : a.length = 9) :
    zval (List.zipWith (fun (x : Nat) (adj : Int) => (x : Int) + adj) a (adjustPattern k))
      = (uval a : Int) + k * (pVal : Int) := by
  obtain ⟨x0, x1, x2, x3, x4, x5, x6, x7, x8, rfl⟩ := exists9 a h
  simp only [adjustPattern, List.zipWith, zval, uval, pVal]
  push_cast
  ring_nf

theorem big_adjustP_wf (a : List Nat) (k : Int) (h : bigWF a) :
    bigWF (big_adjustP a k) := by
  unfold big_adjustP
  split
  · exact h
  · constructor
    · rw [carrySteps_length, List.length_zipWith, h.1]; rfl
    · exact carrySteps_words_lt _ _

theorem big_adjustP_uval (a : List Nat) (k : Int) (h : bigWF a) :
    (uval (big_adjustP a k) : Int) = ((uval a : Int) + k * (pVal : Int)) % 2 ^ 288 := by
  unfold big_adjustP
  split
  · rename_i hk
    subst hk
    rw [zero_mul, add_zero]
    exact (Int.emod_eq_of_lt (by positivity) (by exact_mod_cast uval_lt a h)).symm
  · rw [carrySteps_uval, zval_zip_adjust a k h.1, List.length_zipWith, h.1,
      adjustPattern]
    norm_num

theorem big_1wd_mpy_wf (a : List Nat) (k : Int) (h : a.length = 9) :
    bigWF (big_1wd_mpy a k) := by
  constructor
  · rw [big_1wd_mpy, carrySteps_length, List.length_map, h]
  · exact carrySteps_words_lt _ _

theorem big_1wd_mpy_uval (a : List Nat) (k : Int) (h : a.length = 9) :
    (uval (big_1wd_mpy a k) : Int) = (k * (uval a : Int)) % 2 ^ 288 := by
  rw [big_1wd_mpy, carrySteps_uval, zval_map_mul, List.length_map, h]
  norm_num

/-- Decomposition of the signed value: the signed most significant word times
    2^256 plus the low 8 words. -/
theorem sval_decomp (a : List Nat) (h : bigWF a) :
    sval a = toSigned32 (msw a) * 2 ^ 256 + (uval (a.take 8) : Int) := by
  obtain ⟨x0, x1, x2, x3, x4, x5, x6, x7, x8, rfl⟩ := exists9 a h.1
  simp only [sval, toSigned32, msw, MSW, uval, List.take,
    List.getD_cons_succ, List.getD_cons_zero]
  split <;> push_cast <;> ring

theorem lowval_lt (a : List Nat) (h : bigWF a) : uval (a.take 8) < 2 ^ 256 := by
  have hlen : (a.take 8).length = 8 := by simp [List.length_take, h.1]
  have := uval_lt_pow (a.take 8) (fun x hx => h.2 x (List.mem_of_mem_take hx))
  rw [hlen] at this
  exact lt_of_lt_of_eq this (by norm_num)

theorem toSigned32_bounds (w : Nat) (h : w < 2 ^ 32) :
    -(2 ^ 31) ≤ toSigned32 w ∧ toSigned32 w < 2 ^ 31 := by
  unfold toSigned32
  split <;> omega

theorem msw_lt (a : List Nat) (h : bigWF a) : msw a < 2 ^ 32 := by
  obtain ⟨x0, x1, x2, x3, x4, x5, x6, x7, x8, rfl⟩ := exists9 a h.1
  have := h.2 x8 (by simp)
  simpa [msw, MSW] using this

theorem sval_bounds (a : List Nat) (h : bigWF a) :
    -(2 ^ 287) ≤ sval a ∧ sval a < 2 ^ 287 := by
  have hd := sval_decomp a h
  have hl := lowval_lt a h
  have hm := toSigned32_bounds (msw a) (msw_lt a h)
  constructor <;> [nlinarith [hd, hl, hm.1, hm.2]; nlinarith [hd, hl, hm.1, hm.2]]

theorem sval_emod (a : List Nat) (h : bigWF a) :
    sval a % 2 ^ 288 = (uval a : Int) := by
  unfold sval
  split
  · rename_i hm
    rw [show (uval a : Int) - 2 ^ 288 = (uval a : Int) + 2 ^ 288 * (-1) by ring,
      Int.add_mul_emod_self_left]
    exact Int.emod_eq_of_lt (by positivity) (by exact_mod_cast uval_lt a h)
  · rw [sub_zero]
    exact Int.emod_eq_of_lt (by positivity) (by exact_mod_cast uval_lt a h)

/-- Exactness transfer: if the unsigned result equals V mod 2^288 and V is in
    signed range, then the signed result is exactly V. -/
theorem sval_of_uval (r : List Nat) (V : Int) (h : bigWF r)
    (hu : (uval r : Int) = V % 2 ^ 288)
    (h1 : -(2 ^ 287) ≤ V) (h2 : V < 2 ^ 287) : sval r = V := by
  have hs := sval_emod r h
  have hb := sval_bounds r h
  have hv := Int.ediv_add_emod V (2 ^ 288)
  have hv1 : (0:Int) ≤ V % 2 ^ 288 := Int.emod_nonneg _ (by norm_num)
  have hv2 : V % 2 ^ 288 < 2 ^ 288 := Int.emod_lt_of_pos _ (by norm_num)
  have hs2 := Int.ediv_add_emod (sval r) (2 ^ 288)
  omega

theorem big_is_zero_iff (a : List Nat) : big_is_zero a = true ↔ uval a = 0 := by
  induction a with
  | nil => simp [big_is_zero, uval]
  | cons x t ih =>
      simp only [big_is_zero, List.all_cons, Bool.and_eq_true, beq_iff_eq, uval]
      rw [show (t.all fun x => x == 0) = big_is_zero t from rfl, ih]
      omega

theorem big_is_one_iff (a : List Nat) (h : a.length = 9) :
    big_is_one a = true ↔ uval a = 1 := by
  obtain ⟨x0, x1, x2, x3, x4, x5, x6, x7, x8, rfl⟩ := exists9 a h
  simp [big_is_one, uval]
  omega

theorem big_is_odd_iff (a : List Nat) (h : a.length = 9) :
    big_is_odd a = true ↔ uval a % 2 = 1 := by
  obtain ⟨x0, x1, x2, x3, x4, x5, x6, x7, x8, rfl⟩ := exists9 a h
  simp only [big_is_odd, List.getD_cons_zero, beq_iff_eq, uval]
  omega

theorem big_is_negative_iff (a : List Nat) (h : bigWF a) :
    big_is_negative a = true ↔ sval a < 0 := by
  have hu := uval_lt a h
  simp only [big_is_negative, decide_eq_true_eq, sval]
  split <;> rename_i hc
  · constructor <;> intro <;> [omega; exact hc]
  · constructor <;> intro <;> omega

/-- Take one more word: peel the word at index i. -/
theorem uval_take_succ (l : List Nat) (i : Nat) :
    uval (l.take (i + 1)) = uval (l.take i) + l.getD i 0 * 2 ^ (32 * i) := by
  induction i generalizing l with
  | zero =>
      cases l with
      | nil => simp [uval]
      | cons x t => simp [uval, List.take]
  | succ i ih =>
      cases l with
      | nil => simp [uval]
      | cons x t =>
          simp only [List.take, uval, List.getD_cons_succ, ih t]
          rw [show 32 * (i + 1) = 32 * i + 32 by ring, pow_add]
          ring

theorem uval_take_lt (l : List Nat) (i : Nat) (h : ∀ x ∈ l, x < 2 ^ 32) :
    uval (l.take i) < 2 ^ (32 * i) := by
  have hlen : (l.take i).length ≤ i := by simp [List.length_take]
  have := uval_lt_pow (l.take i) (fun x hx => h x (List.mem_of_mem_take hx))
  calc uval (l.take i) < 2 ^ (32 * (l.take i).length) := this
    _ ≤ 2 ^ (32 * i) := Nat.pow_le_pow_right (by norm_num) (by omega)

/-- Correctness of the downward word-comparison loop: it computes the sign of
    the difference of the low-i-word values. -/
theorem cmpRest_spec (a b : List Nat) (i : Nat)
    (ha : ∀ x ∈ a, x < 2 ^ 32) (hb : ∀ x ∈ b, x < 2 ^ 32) :
    cmpRest a b i =
      if uval (a.take i) > uval (b.take i) then 1
      else if uval (a.take i) < uval (b.take i) then -1 else 0 := by
  induction i with
  | zero => simp [cmpRest, uval]
  | succ i ih =>
      have hua := uval_take_succ a i
      have hub := uval_take_succ b i
      have hba := uval_take_lt a i ha
      have hbb := uval_take_lt b i hb
      simp only [cmpRest, ih]
      rcases Nat.lt_trichotomy (a.getD i 0) (b.getD i 0) with hlt | heq | hgt
      · have h5 : (1:Int) ≤ (b.getD i 0 : Int) - (a.getD i 0 : Int) := by
          omega
        have h6 : ((2:Int) ^ (32 * i))
            ≤ ((b.getD i 0 : Int) - (a.getD i 0 : Int)) * 2 ^ (32 * i) :=
          le_mul_of_one_le_left (by positivity) h5
        have hD : (uval (b.take (i+1)) : Int) - (uval (a.take (i+1)) : Int)
            = ((b.getD i 0 : Int) - (a.getD i 0 : Int)) * 2 ^ (32 * i)
              + ((uval (b.take i) : Int) - (uval (a.take i) : Int)) := by
          rw [hua, hub]; push_cast; ring
        have hui : (uval (a.take i) : Int) < 2 ^ (32 * i) := by exact_mod_cast hba
        have hlt1 : uval (a.take (i+1)) < uval (b.take (i+1)) := by
          have hz : (uval (a.take (i+1)) : Int) < (uval (b.take (i+1)) : Int) := by
            omega
          exact_mod_cast hz
        rw [if_neg (by omega), if_pos hlt, if_neg (by omega), if_pos hlt1]
      · rw [heq] at hua
        have h2 : uval (a.take (i+1)) > uval (b.take (i+1))
            ↔ uval (a.take i) > uval (b.take i) := by omega
        have h3 : uval (a.take (i+1)) < uval (b.take (i+1))
            ↔ uval (a.take i) < uval (b.take i) := by omega
        rw [if_neg (by omega : ¬a.getD i 0 > b.getD i 0),
          if_neg (by omega : ¬a.getD i 0 < b.getD i 0)]
        split_ifs <;> omega
      · have h5 : (1:Int) ≤ (a.getD i 0 : Int) - (b.getD i 0 : Int) := by
          omega
        have h6 : ((2:Int) ^ (32 * i))
            ≤ ((a.getD i 0 : Int) - (b.getD i 0 : Int)) * 2 ^ (32 * i) :=
          le_mul_of_one_le_left (by positivity) h5
        have hD : (uval (a.take (i+1)) : Int) - (uval (b.take (i+1)) : Int)
            = ((a.getD i 0 : Int) - (b.getD i 0 : Int)) * 2 ^ (32 * i)
              + ((uval (a.take i) : Int) - (uval (b.take i) : Int)) := by
          rw [hua, hub]; push_cast; ring
        have hui : (uval (b.take i) : Int) < 2 ^ (32 * i) := by exact_mod_cast hbb
        have hgt1 : uval (a.take (i+1)) > uval (b.take (i+1)) := by
          have hz : (uval (b.take (i+1)) : Int) < (uval (a.take (i+1)) : Int) := by
            omega
          exact_mod_cast hz
        rw [if_pos hgt, if_pos hgt1]

/-- big_cmp computes the sign of the difference of the signed values. -/
theorem big_cmp_spec (a b : List Nat) (ha : bigWF a) (hb : bigWF b) :
    big_cmp a b = if sval a > sval b then 1 else if sval a < sval b then -1 else 0 := by
  have hda := sval_decomp a ha
  have hdb := sval_decomp b hb
  have hla := lowval_lt a ha
  have hlb := lowval_lt b hb
  have hla2 : (uval (a.take 8) : Int) < 2 ^ 256 := by exact_mod_cast hla
  have hlb2 : (uval (b.take 8) : Int) < 2 ^ 256 := by exact_mod_cast hlb
  unfold big_cmp
  rw [cmpRest_spec a b MSW ha.2 hb.2]
  rw [show MSW = 8 from rfl]
  split_ifs <;> omega

/-- big_halve: two's-complement halving (arithmetic shift right by one).  Each
    word takes its own high 31 bits and the low bit of the next word; the most
    significant word is shifted arithmetically (sign-preserving). -/
def big_halve : List Nat → List Nat
  | [] => []
  | [x] => [if 2 ^ 31 ≤ x then x / 2 + 2 ^ 31 else x / 2]
  | x :: y :: t => (x / 2 + y % 2 * 2 ^ 31) :: big_halve (y :: t)

theorem big_halve_wf (a : List Nat) (h : bigWF a) : bigWF (big_halve a) := by
  obtain ⟨x0, x1, x2, x3, x4, x5, x6, x7, x8, rfl⟩ := exists9 a h.1
  have hb := h.2
  simp only [List.mem_cons, List.not_mem_nil, or_false, forall_eq_or_imp, forall_eq] at hb
  refine ⟨rfl, ?_⟩
  simp only [big_halve, List.mem_cons, List.not_mem_nil, or_false, forall_eq_or_imp,
    forall_eq]
  split <;> omega

theorem big_halve_sval (a : List Nat) (h : bigWF a) :
    sval (big_halve a) = sval a / 2 := by
  obtain ⟨x0, x1, x2, x3, x4, x5, x6, x7, x8, rfl⟩ := exists9 a h.1
  have hb := h.2
  simp only [List.mem_cons, List.not_mem_nil, or_false, forall_eq_or_imp, forall_eq] at hb
  simp only [big_halve, sval, uval, msw, MSW, List.getD_cons_succ, List.getD_cons_zero]
  by_cases h8 : 2 ^ 31 ≤ x8
  · simp only [if_pos h8]
    split_ifs <;> (push_cast; omega)
  · simp only [if_neg h8]
    split_ifs <;> (push_cast; omega)

/-- Exactness of big_adjustP on the signed value, when there is no overflow. -/
theorem big_adjustP_sval (a : List Nat) (k : Int) (h : bigWF a)
    (hb1 : -(2 ^ 287) ≤ sval a + k * (pVal : Int))
    (hb2 : sval a + k * (pVal : Int) < 2 ^ 287) :
    sval (big_adjustP a k) = sval a + k * (pVal : Int) := by
  refine sval_of_uval _ _ (big_adjustP_wf a k h) ?_ hb1 hb2
  rw [big_adjustP_uval a k h]
  have hs := sval_emod a h
  have hu : (uval a : Int) % 2 ^ 288 = (uval a : Int) :=
    Int.emod_eq_of_lt (by positivity) (by exact_mod_cast uval_lt a h)
  have hme : Int.ModEq (2 ^ 288) ((uval a : Int)) (sval a) := by
    unfold Int.ModEq
    rw [hs, hu]
  exact Int.ModEq.add_right _ hme

theorem toSigned32_eq_zero_iff (w : Nat) (h : w < 2 ^ 32) :
    toSigned32 w = 0 ↔ w = 0 := by
  unfold toSigned32
  split <;> omega

theorem toSigned32_ediv (a : List Nat) (h : bigWF a) :
    toSigned32 (msw a) = sval a / 2 ^ 256 := by
  have hd := sval_decomp a h
  have hl := lowval_lt a h
  have hl2 : (uval (a.take 8) : Int) < 2 ^ 256 := by exact_mod_cast hl
  omega

theorem msw_zero_sval (a : List Nat) (h : bigWF a) (hm : msw a = 0) :
    sval a = uval a ∧ uval a < 2 ^ 256 := by
  have hd := sval_decomp a h
  have hl := lowval_lt a h
  rw [hm] at hd
  constructor
  · unfold sval
    rw [hm, if_neg (by norm_num)]
    ring
  · have : toSigned32 0 = 0 := by unfold toSigned32; norm_num
    rw [this] at hd
    have h2 : sval a = (uval (a.take 8) : Int) := by omega
    unfold sval at h2
    rw [hm, if_neg (by norm_num)] at h2
    omega

theorem sval_neg_iff (a : List Nat) (h : bigWF a) :
    toSigned32 (msw a) < 0 ↔ sval a < 0 := by
  have hd := sval_decomp a h
  have hl := lowval_lt a h
  have hl2 : (uval (a.take 8) : Int) < 2 ^ 256 := by exact_mod_cast hl
  have hm := toSigned32_bounds (msw a) (msw_lt a h)
  omega

theorem sval_nonneg_uval (a : List Nat) (h : bigWF a) (hn : 0 ≤ sval a) :
    sval a = uval a := by
  unfold sval at hn ⊢
  split at hn
  · have := uval_lt a h
    omega
  · split
    · omega
    · ring

/-- Loop 1 of big_precise_reduce: subtract (signed most significant word)
    times the modulus until the most significant word is zero.  The source
    takes a fast path (big_adjustP) when the modulus is modulusP itself, and a
    general path (big_1wd_mpy then big_sub) otherwise; the C pointer test
    `modulus != &modulusP` is embedded as a value test. -/
def bprLoop1 (m : List Nat) : Nat → List Nat → Option (List Nat)
  | 0, _ => none
  | fuel + 1, src =>
      if toSigned32 (msw src) ≠ 0 then
        bprLoop1 m fuel
          (if m = modulusP then big_adjustP src (-(toSigned32 (msw src)))
           else big_sub src (big_1wd_mpy m (toSigned32 (msw src))))
      else some src

/-- Loop 2 of big_precise_reduce: subtract the modulus while src >= modulus. -/
def bprLoop2 (m : List Nat) : Nat → List Nat → Option (List Nat)
  | 0, _ => none
  | fuel + 1, src =>
      if big_cmp src m ≥ 0 then bprLoop2 m fuel (big_sub src m)
      else some src

/-- Loop 3 of big_precise_reduce: add the modulus while src is negative. -/
def bprLoop3 (m : List Nat) : Nat → List Nat → Option (List Nat)
  | 0, _ => none
  | fuel + 1, src =>
      if toSigned32 (msw src) < 0 then bprLoop3 m fuel (big_add src m)
      else some src

/-- Fuel for the reduction loops; it exceeds the iteration bound proven in
    bprLoop1_ok and bprLoop2_ok for every well-formed input, so the option is
    always some in the verified uses. -/
def BPR_FUEL : Nat := 2 ^ 300

/-- big_precise_reduce: reduce a to the canonical range of the modulus. -/
def big_precise_reduce (a m : List Nat) : Option (List Nat) :=
  (bprLoop1 m BPR_FUEL a).bind (fun s1 =>
    (bprLoop2 m BPR_FUEL s1).bind (fun s2 =>
      bprLoop3 m BPR_FUEL s2))

/-- Arithmetic facts about one step of reduction loop 1: subtracting
    (s div 2^256) times the modulus keeps the value in signed range, shrinks
    nonnegative values by at least M, and pushes negative values up by at
    least M without overshooting 2^256. -/
theorem bpr_step_facts (s M : Int) (hM1 : 1 ≤ M) (hM2 : M < 2 ^ 256)
    (hs1 : -(2 ^ 287) ≤ s) (hs2 : s < 2 ^ 287) (hk : s / 2 ^ 256 ≠ 0) :
    -(2 ^ 287) < s - s / 2 ^ 256 * M ∧ s - s / 2 ^ 256 * M < 2 ^ 287 ∧
    (0 ≤ s → 0 ≤ s - s / 2 ^ 256 * M ∧ s - s / 2 ^ 256 * M ≤ s - M) ∧
    (s < 0 → s + M ≤ s - s / 2 ^ 256 * M ∧ s - s / 2 ^ 256 * M < 2 ^ 256) := by
  have hdm := Int.ediv_add_emod s (2 ^ 256)
  have hr0 : 0 ≤ s % 2 ^ 256 := Int.emod_nonneg _ (by positivity)
  have hr1 : s % 2 ^ 256 < 2 ^ 256 := Int.emod_lt_of_pos _ (by positivity)
  set k := s / 2 ^ 256 with hkdef
  set r := s % 2 ^ 256 with hrdef
  have hsplit : s - k * M = k * (2 ^ 256 - M) + r := by rw [← hdm]; ring
  have hkb1 : -(2 ^ 31) ≤ k := by omega
  have hkb2 : k < 2 ^ 31 := by omega
  rcases lt_or_gt_of_ne hk with hkneg | hkpos
  · -- k ≤ -1, i.e. s < 0
    have hkm : k ≤ -1 := by omega
    have hsneg : s < 0 := by omega
    have h2 : k * (2 ^ 256 - M) ≤ -(2 ^ 256 - M) := by nlinarith
    have h4 : -(2 ^ 31) * (2 ^ 256 - M) ≤ k * (2 ^ 256 - M) := by nlinarith
    have h5 : -M * k ≤ 2 ^ 31 * M := by nlinarith
    have h6 : M ≤ -(k * M) := by nlinarith
    refine ⟨by omega, by omega, by omega, fun _ => ⟨by omega, by omega⟩⟩
  · -- k ≥ 1, i.e. s ≥ 2^256
    have hkm : 1 ≤ k := by omega
    have hspos : 0 ≤ s := by omega
    have h2 : 2 ^ 256 - M ≤ k * (2 ^ 256 - M) := by nlinarith
    have h3 : k * (2 ^ 256 - M) ≤ (2 ^ 31 - 1) * (2 ^ 256 - M) := by nlinarith
    have h6 : M ≤ k * M := by nlinarith
    refine ⟨by omega, by omega, fun _ => ⟨by omega, by omega⟩, by omega⟩

theorem uval_modulusP : uval modulusP = pVal := by decide

theorem uval_orderP : uval orderP = nVal := by decide

/-- One body step of reduction loop 1 computes src - k * modulus exactly on
    signed values (both the optimized modulusP path and the general path). -/
theorem bprStep_sval (m src : List Nat) (hm : bigWF m) (hmz : msw m = 0)
    (hm1 : 0 < uval m) (hs : bigWF src)
    (hV1 : -(2 ^ 287) ≤ sval src - toSigned32 (msw src) * (uval m : Int))
    (hV2 : sval src - toSigned32 (msw src) * (uval m : Int) < 2 ^ 287) :
    bigWF (if m = modulusP then big_adjustP src (-(toSigned32 (msw src)))
           else big_sub src (big_1wd_mpy m (toSigned32 (msw src)))) ∧
    sval (if m = modulusP then big_adjustP src (-(toSigned32 (msw src)))
          else big_sub src (big_1wd_mpy m (toSigned32 (msw src))))
      = sval src - toSigned32 (msw src) * (uval m : Int) := by
  set k := toSigned32 (msw src) with hkdef
  split
  · rename_i hmp
    subst hmp
    rw [uval_modulusP]
    constructor
    · exact big_adjustP_wf src _ hs
    · rw [show sval src - k * (pVal : Int) = sval src + (-k) * (pVal : Int) by ring]
      rw [uval_modulusP] at hV1 hV2
      refine big_adjustP_sval src (-k) hs ?_ ?_
      · rw [show sval src + (-k) * (pVal : Int) = sval src - k * (pVal : Int) by ring]
        exact hV1
      · rw [show sval src + (-k) * (pVal : Int) = sval src - k * (pVal : Int) by ring]
        exact hV2
  · have htmp_wf : bigWF (big_1wd_mpy m k) := big_1wd_mpy_wf m k hm.1
    have hnext_wf : bigWF (big_sub src (big_1wd_mpy m k)) :=
      big_sub_wf _ _ hs.1 htmp_wf.1
    refine ⟨hnext_wf, ?_⟩
    refine sval_of_uval _ _ hnext_wf ?_ hV1 hV2
    rw [big_sub_uval _ _ hs.1 htmp_wf.1]
    have h1 : Int.ModEq (2 ^ 288) (uval src) (sval src) := by
      unfold Int.ModEq
      rw [sval_emod src hs,
        Int.emod_eq_of_lt (by positivity) (by exact_mod_cast uval_lt src hs)]
    have h2 : Int.ModEq (2 ^ 288) (uval (big_1wd_mpy m k)) (k * (uval m : Int)) := by
      unfold Int.ModEq
      rw [big_1wd_mpy_uval m k hm.1, Int.emod_emod_of_dvd _ dvd_rfl]
    exact h1.sub h2

/-- Correctness and termination of reduction loop 1, by strong induction on
    the fuel with the measure natAbs(sval) (+ 2^256 while negative). -/
theorem bprLoop1_ok (m : List Nat) (hm : bigWF m) (hmz : msw m = 0)
    (hm1 : 0 < uval m) :
    ∀ fuel src, bigWF src →
      (sval src).natAbs + (if sval src < 0 then 2 ^ 256 else 0) < fuel →
      ∃ r, bprLoop1 m fuel src = some r ∧ bigWF r ∧ msw r = 0 ∧
        Int.ModEq (uval m) (sval r) (sval src) ∧ 0 ≤ sval r ∧ sval r < 2 ^ 256 := by
  intro fuel
  induction fuel with
  | zero =>
      intro src _ hmu
      omega
  | succ f ih =>
      intro src hs hmu
      unfold bprLoop1
      by_cases hz : toSigned32 (msw src) ≠ 0
      · rw [if_pos hz]
        have hM1 : (1:Int) ≤ (uval m : Int) := by exact_mod_cast hm1
        have hM2 : (uval m : Int) < 2 ^ 256 := by
          exact_mod_cast (msw_zero_sval m hm hmz).2
        have hb := sval_bounds src hs
        have hke : toSigned32 (msw src) = sval src / 2 ^ 256 := toSigned32_ediv src hs
        have hkz : sval src / 2 ^ 256 ≠ 0 := by rw [← hke]; exact hz
        have hfacts := bpr_step_facts (sval src) (uval m : Int) hM1 hM2 hb.1 hb.2 hkz
        rw [← hke] at hfacts
        have hstep := bprStep_sval m src hm hmz hm1 hs (by omega) (by omega)
        obtain ⟨hwf2, hsv2⟩ := hstep
        have hmu2 : (sval (if m = modulusP then big_adjustP src (-(toSigned32 (msw src)))
              else big_sub src (big_1wd_mpy m (toSigned32 (msw src))))).natAbs
            + (if sval (if m = modulusP then big_adjustP src (-(toSigned32 (msw src)))
                else big_sub src (big_1wd_mpy m (toSigned32 (msw src)))) < 0
               then 2 ^ 256 else 0) < f := by
          rw [hsv2]
          rcases le_or_lt 0 (sval src) with hpos | hneg
          · have hd := hfacts.2.2.1 hpos
            rw [if_neg (by omega : ¬sval src < 0)] at hmu
            rw [if_neg (by omega :
              ¬sval src - toSigned32 (msw src) * ((uval m : Nat) : Int) < 0)]
            omega
          · have hd := hfacts.2.2.2 hneg
            rw [if_pos hneg] at hmu
            rcases le_or_lt 0 (sval src - toSigned32 (msw src) * (uval m : Int))
              with hp2 | hn2
            · rw [if_neg (by omega)]
              omega
            · rw [if_pos hn2]
              omega
        obtain ⟨r, hr, hrwf, hrmsw, hrmod, hr0, hr1⟩ := ih _ hwf2 hmu2
        refine ⟨r, hr, hrwf, hrmsw, ?_, hr0, hr1⟩
        refine hrmod.trans ?_
        rw [hsv2]
        have : Int.ModEq (uval m)
            (sval src - toSigned32 (msw src) * (uval m : Int)) (sval src - 0) := by
          refine Int.ModEq.sub (Int.ModEq.refl _) ?_
          exact Int.modEq_zero_iff_dvd.mpr ⟨toSigned32 (msw src), by ring⟩
        simpa using this
      · rw [if_neg hz]
        push_neg at hz
        have hmsw0 : msw src = 0 := (toSigned32_eq_zero_iff _ (msw_lt src hs)).mp hz
        have hx := msw_zero_sval src hs hmsw0
        exact ⟨src, rfl, hs, hmsw0, Int.ModEq.refl _, by omega, by omega⟩

/-- Correctness and termination of reduction loop 2. -/
theorem bprLoop2_ok (m : List Nat) (hm : bigWF m) (hmz : msw m = 0)
    (hm1 : 0 < uval m) :
    ∀ fuel src, bigWF src → 0 ≤ sval src → sval src < 2 ^ 256 →
      (sval src).natAbs < fuel →
      ∃ r, bprLoop2 m fuel src = some r ∧ bigWF r ∧
        Int.ModEq (uval m) (sval r) (sval src) ∧ 0 ≤ sval r ∧
        sval r < (uval m : Int) := by
  intro fuel
  induction fuel with
  | zero => intro src _ _ _ hmu; omega
  | succ f ih =>
      intro src hs h0 h1 hmu
      have hM := msw_zero_sval m hm hmz
      have hM2 : ((uval m : Nat) : Int) < 2 ^ 256 := by exact_mod_cast hM.2
      have hM1 : (1:Int) ≤ ((uval m : Nat) : Int) := by exact_mod_cast hm1
      have hsvm : sval m = uval m := hM.1
      have hcmp := big_cmp_spec src m hs hm
      unfold bprLoop2
      by_cases hge : big_cmp src m ≥ 0
      · rw [if_pos hge]
        have hcge : (uval m : Int) ≤ sval src := by
          rw [hcmp] at hge
          split_ifs at hge <;> omega
        have hwf2 : bigWF (big_sub src m) := big_sub_wf _ _ hs.1 hm.1
        have hsv2 : sval (big_sub src m) = sval src - (uval m : Int) := by
          refine sval_of_uval _ _ hwf2 ?_ (by omega) (by omega)
          rw [big_sub_uval _ _ hs.1 hm.1]
          have ha : Int.ModEq (2 ^ 288) (uval src) (sval src) := by
            unfold Int.ModEq
            rw [sval_emod src hs,
              Int.emod_eq_of_lt (by positivity) (by exact_mod_cast uval_lt src hs)]
          have hb : Int.ModEq (2 ^ 288) (uval m) (uval m) := Int.ModEq.refl _
          exact ha.sub hb
        obtain ⟨r, hr, hrwf, hrmod, hr0, hr1⟩ :=
          ih (big_sub src m) hwf2 (by omega) (by omega) (by omega)
        refine ⟨r, hr, hrwf, ?_, hr0, hr1⟩
        refine hrmod.trans ?_
        rw [hsv2]
        have : Int.ModEq (uval m) (sval src - (uval m : Int)) (sval src - 0) :=
          Int.ModEq.sub (Int.ModEq.refl _) (Int.modEq_zero_iff_dvd.mpr ⟨1, by ring⟩)
        simpa using this
      · rw [if_neg hge]
        have hclt : sval src < (uval m : Int) := by
          rw [hcmp] at hge
          split_ifs at hge <;> omega
        exact ⟨src, rfl, hs, Int.ModEq.refl _, h0, hclt⟩

/-- Loop 3 returns immediately on a nonnegative value. -/
theorem bprLoop3_done (m src : List Nat) (hs : bigWF src) (h0 : 0 ≤ sval src)
    (fuel : Nat) (hf : 0 < fuel) : bprLoop3 m fuel src = some src := by
  cases fuel with
  | zero => omega
  | succ f =>
      unfold bprLoop3
      rw [if_neg]
      rw [sval_neg_iff src hs]
      omega

/-- Main correctness and termination theorem for big_precise_reduce, for any
    well-formed modulus below 2^256: the loops terminate within the fuel, and
    the result is the canonical residue of the (signed) input value. -/
theorem big_precise_reduce_ok (a m : List Nat) (ha : bigWF a) (hm : bigWF m)
    (hmz : msw m = 0) (hm1 : 0 < uval m) :
    ∃ r, big_precise_reduce a m = some r ∧ bigWF r ∧ uval r < uval m ∧
      Int.ModEq (uval m) (uval r) (sval a) := by
  have hb := sval_bounds a ha
  have hmu1 : (sval a).natAbs + (if sval a < 0 then 2 ^ 256 else 0) < BPR_FUEL := by
    have : BPR_FUEL = 2 ^ 300 := rfl
    split <;> omega
  obtain ⟨s1, h1, h1wf, h1msw, h1mod, h1a, h1b⟩ :=
    bprLoop1_ok m hm hmz hm1 BPR_FUEL a ha hmu1
  have hmu2 : (sval s1).natAbs < BPR_FUEL := by
    have : BPR_FUEL = 2 ^ 300 := rfl
    omega
  obtain ⟨s2, h2, h2wf, h2mod, h2a, h2b⟩ :=
    bprLoop2_ok m hm hmz hm1 BPR_FUEL s1 h1wf h1a h1b hmu2
  have h3 : bprLoop3 m BPR_FUEL s2 = some s2 :=
    bprLoop3_done m s2 h2wf h2a BPR_FUEL (by norm_num [BPR_FUEL])
  refine ⟨s2, ?_, h2wf, ?_, ?_⟩
  · unfold big_precise_reduce
    rw [h1]
    simp only [Option.bind]
    rw [h2]
    simp only [Option.bind]
    exact h3
  · have := sval_nonneg_uval s2 h2wf h2a
    omega
  · have hu2 : (uval s2 : Int) = sval s2 := (sval_nonneg_uval s2 h2wf h2a).symm
    rw [hu2]
    exact (h2mod.trans h1mod)

/- ------------------------------------------------------------------ -/
/- big_mpyP: multiplication with approximate reduction.                -/
/- ------------------------------------------------------------------ -/

/-- The modselect flag of big_mpyP. -/
inductive ModselT where
  | mod_modulus : ModselT
  | mod_order : ModselT
deriving DecidableEq

/-- Number of significant words: start at 9 and drop trailing zero words,
    never below 1 (the a_words / b_words computation in big_mpyP). -/
def awordsFrom (a : List Nat) : Nat → Nat
  | 0 => 0
  | n + 1 => if n + 1 > 1 ∧ a.getD n 0 = 0 then awordsFrom a n else n + 1

def awords (a : List Nat) : Nat := awordsFrom a BIGLEN

/-- The 64-bit accumulator with its overflow counter (u_accum, cum_carry). -/
structure MulAcc where
  cc : Nat
  ua : Nat
deriving DecidableEq

/-- mpy_accum: (sum, carry) += a * b, with uint64 wraparound detection. -/
def mpy_accum (s : MulAcc) (x y : Nat) : MulAcc :=
  let product := x * y
  let lsum := (s.ua + product) % 2 ^ 64
  { cc := if lsum < product then s.cc + 1 else s.cc, ua := lsum }

/-- mpy_accum_dbl: (sum, carry) += 2 * a * b, as two accumulate passes. -/
def mpy_accum_dbl (s : MulAcc) (x y : Nat) : MulAcc :=
  mpy_accum (mpy_accum s x y) x y

/-- One column of the schoolbook multiply: accumulate
    a[i-j] * b[j] for j from minj+cnt-1 down to minj (the unrolled switch
    executes the ACCUM calls from j = maxj down to j = minj). -/
def accumCol (a b : List Nat) (i : Nat) (minj : Nat) : Nat → MulAcc → MulAcc
  | 0, s => s
  | cnt + 1, s =>
      accumCol a b i minj cnt (mpy_accum s (a.getD (i - (minj + cnt)) 0) (b.getD (minj + cnt) 0))

/-- One column of the squaring path: doubled products for j from maxj down to
    minj, then the middle square term a[maxj+1]^2 on even columns. -/
def accumColSq (a : List Nat) (i : Nat) (minj : Nat) : Nat → MulAcc → MulAcc
  | 0, s => s
  | cnt + 1, s =>
      accumColSq a i minj cnt
        (mpy_accum_dbl s (a.getD (i - (minj + cnt)) 0) (a.getD (minj + cnt) 0))

/-- End of a column: emit the low 32 bits of u_accum as w[i], then
    u_accum = (u_accum >> 32) + (cum_carry << 32), cum_carry = 0. -/
def columnEmit (s : MulAcc) : Nat × MulAcc :=
  (s.ua % 2 ^ 32, { cc := 0, ua := (s.ua / 2 ^ 32 + s.cc * 2 ^ 32) % 2 ^ 64 })

/-- The per-column work of the normal multiply path. -/
def colStepMul (a b : List Nat) (aw bw : Nat) (s : MulAcc) (i : Nat) : MulAcc :=
  let maxj := min (bw - 1) i
  let minj := i + 1 - aw
  accumCol a b i minj (maxj + 1 - minj) s

/-- The signed maxj bound of the squaring path: the C computes
    maxj = MIN(MIN(a_words-1, i), (i-1) >> 1) in signed arithmetic, where
    (i-1) >> 1 is -1 for i = 0. -/
def sqMaxjZ (aw i : Nat) : Int :=
  min (min ((aw : Int) - 1) (i : Int)) (((i : Int) - 1) / 2)

/-- The per-column work of the squaring path: doubled products for j from
    maxj down to minj = MAX(0, i-a_words+1), then the middle square term on
    even columns. -/
def colStepSq (a : List Nat) (aw : Nat) (s : MulAcc) (i : Nat) : MulAcc :=
  if i % 2 = 0 then
    mpy_accum
      (accumColSq a i (i + 1 - aw) ((sqMaxjZ aw i + 1 - (i + 1 - aw : Nat)).toNat) s)
      (a.getD ((sqMaxjZ aw i + 1).toNat) 0) (a.getD ((sqMaxjZ aw i + 1).toNat) 0)
  else
    accumColSq a i (i + 1 - aw) ((sqMaxjZ aw i + 1 - (i + 1 - aw : Nat)).toNat) s

/-- The main multiply loop: processes cnt columns starting at index i0,
    emitting one 32-bit word per column. -/
def mulLoop (step : MulAcc → Nat → MulAcc) : Nat → Nat → MulAcc → (List Nat × MulAcc)
  | _, 0, s => ([], s)
  | i0, cnt + 1, s =>
      let s1 := step s i0
      let we := columnEmit s1
      let rest := mulLoop step (i0 + 1) cnt we.2
      (we.1 :: rest.1, rest.2)

/-- The residual propagation loop: emit k more words from the accumulator,
    then store the entire remaining accumulator in the final word. -/
def residualWords (ua : Nat) : Nat → List Int
  | 0 => [(ua : Int)]
  | k + 1 => ((ua % 2 ^ 32 : Nat) : Int) :: residualWords (ua / 2 ^ 32) k

/-- The full 18-entry w array after the multiply phase (normal path). -/
def mulPhase (step : MulAcc → Nat → MulAcc) (cnt : Nat) : List Int :=
  let r := mulLoop step 0 cnt { cc := 0, ua := 0 }
  (r.1.map (fun (x : Nat) => (x : Int))) ++ residualWords r.2.ua (17 - cnt)

/-- Negative-argument corrections: if a is negative subtract b's words from
    w[9..17], if b is negative subtract a's words, and if both are negative
    add 2^32 to w[17] (the three correction loops of big_mpyP). -/
def negCorrect (a b : List Nat) (w : List Int) : List Int :=
  let w1 := if big_is_negative a then
      w.take 9 ++ List.zipWith (fun (wi : Int) (bi : Nat) => wi - (bi : Int)) (w.drop 9) b
    else w
  let w2 := if big_is_negative b then
      w1.take 9 ++ List.zipWith (fun (wi : Int) (ai : Nat) => wi - (ai : Int)) (w1.drop 9) a
    else w1
  if big_is_negative a ∧ big_is_negative b then
    w2.set 17 (w2.getD 17 0 + 2 ^ 32)
  else w2

/-- One step of the sparse modulus reduction: fold w[i] into the lower words
    using 2^256 = 2^224 - 2^192 - 2^96 + 1 (mod p), word-shifted. -/
def redStep (w : List Int) (i : Nat) : List Int :=
  let v := w.getD i 0
  if v = 0 then w
  else
    let w0 := w.set i 0
    let w1 := w0.set (i - 1) (w0.getD (i - 1) 0 + v)
    let w2 := w1.set (i - 2) (w1.getD (i - 2) 0 - v)
    let w3 := w2.set (i - 5) (w2.getD (i - 5) 0 - v)
    w3.set (i - 8) (w3.getD (i - 8) 0 + v)

/-- The sparse reduction loop, for i from 8 + k - 1 down to 8. -/
def redLoopAux (w : List Int) : Nat → List Int
  | 0 => w
  | k + 1 => redLoopAux (redStep w (8 + k)) k

/-- The orderDBL256 signed-digit table from the source. -/
def orderDBLdata : List Int :=
  [0xfc632551 - 0x100000000,
   0xf3b9cac2 - 0x100000000 + 1,
   0xa7179e84 - 0x100000000 + 1,
   0xbce6faad - 0x100000000 + 1,
   0xffffffff - 0x100000000 + 1,
   0xffffffff - 0x100000000 + 1,
   0x00000000 + 1,
   0xffffffff - 0x100000000,
   0x00000000 + 1]

/-- The 32-bit normalization pass at the start of the mod-order reduction:
    w[i] += carry; carry = w[i] >> 32; w[i] -= carry << 32, with the carry
    folded into the last word. -/
def normWords : List Int → Int → List Int
  | [], _ => []
  | [x], carry => [x + carry]
  | x :: y :: t, carry =>
      ((x + carry) % 2 ^ 32) :: normWords (y :: t) ((x + carry) / 2 ^ 32)

/-- The inner j loop of the mod-order reduction, knocking off word i. -/
def ordInner (v : Int) (i : Nat) : Nat → Nat → List Int → Int → List Int
  | 0, _, w, _ => w
  | cnt + 1, j, w, carry =>
      let tmp0 : Int :=
        if j ≤ i then w.getD j 0 - v * orderDBLdata.getD (j + 8 - i) 0 + carry
        else w.getD j 0 + carry
      if j < 17 then
        ordInner v i cnt (j + 1) (w.set j (tmp0 - tmp0 / 2 ^ 32 * 2 ^ 32)) (tmp0 / 2 ^ 32)
      else w.set j tmp0

/-- The k < 3 retry loop around the inner knock-off. -/
def ordK (i : Nat) (w : List Int) : Nat → List Int
  | 0 => w
  | k + 1 =>
      if w.getD i 0 ≠ 0 then
        ordK i (ordInner (w.getD i 0) i (26 - i) (i - 8) w 0) k
      else w

/-- The outer i loop of the mod-order reduction, i from 17 down to 8. -/
def ordLoop (w : List Int) : Nat → List Int
  | 0 => w
  | c + 1 => ordLoop (ordK (8 + c) w 3) c

/-- big_mpyP: computes a * b, approximately reduced mod modulusP or orderP
    according to modselect.  The C pointer test a != b (choosing the squaring
    path when both arguments are the same buffer) is embedded as a value
    test; both paths compute the same product, which the correctness proofs
    establish separately for each path. -/
def big_mpyP (a b : List Nat) (modselect : ModselT) : List Nat :=
  if big_is_zero a || big_is_zero b then big_zero
  else
    let aw := awords a
    let w :=
      if a ≠ b then
        mulPhase (colStepMul a b aw (awords b)) (aw + awords b - 1)
      else
        mulPhase (colStepSq a aw) (2 * aw - 1)
    let wc := negCorrect a b w
    let wr :=
      if modselect = ModselT.mod_modulus then redLoopAux wc 10
      else ordLoop (normWords wc 0) 10
    let tgt := carrySteps 0 (wr.take 9)
    if modselect = ModselT.mod_modulus then big_approx_reduceP tgt
    else
      if toSigned32 (msw tgt) ≠ 0 then
        big_sub tgt (big_1wd_mpy orderP (toSigned32 (msw tgt)))
      else tgt

/-- big_sqrP: squaring, always mod the modulus. -/
def big_sqrP (a : List Nat) : List Nat := big_mpyP a a ModselT.mod_modulus

theorem getD_lt (a : List Nat) (h : bigWF a) (k : Nat) : a.getD k 0 < 2 ^ 32 := by
  rcases lt_or_le k a.length with hk | hk
  · rw [List.getD_eq_getElem a 0 hk]
    exact h.2 _ (List.getElem_mem hk)
  · rw [List.getD_eq_default a 0 hk]
    norm_num

/-- Value tracked by the (u_accum, cum_carry) pair. -/
def maVal (s : MulAcc) : Nat := s.cc * 2 ^ 64 + s.ua

theorem mpy_accum_val (s : MulAcc) (x y : Nat) (hx : x < 2 ^ 32) (hy : y < 2 ^ 32)
    (hu : s.ua < 2 ^ 64) :
    maVal (mpy_accum s x y) = maVal s + x * y ∧
    (mpy_accum s x y).ua < 2 ^ 64 ∧ (mpy_accum s x y).cc ≤ s.cc + 1 := by
  have hp : x * y < 2 ^ 64 := by nlinarith
  unfold mpy_accum maVal
  simp only
  rcases lt_or_le (s.ua + x * y) (2 ^ 64) with hlt | hge
  · rw [Nat.mod_eq_of_lt hlt]
    have : ¬ s.ua + x * y < x * y := by omega
    rw [if_neg this]
    omega
  · have heq : (s.ua + x * y) % 2 ^ 64 = s.ua + x * y - 2 ^ 64 := by
      rw [Nat.mod_eq_sub_mod hge, Nat.mod_eq_of_lt (by omega)]
    rw [heq]
    have : s.ua + x * y - 2 ^ 64 < x * y := by omega
    rw [if_pos this]
    have h64 : (2:Nat) ^ 64 ≤ s.ua + x * y := hge
    constructor
    · ring_nf
      omega
    · omega

theorem mpy_accum_dbl_val (s : MulAcc) (x y : Nat) (hx : x < 2 ^ 32) (hy : y < 2 ^ 32)
    (hu : s.ua < 2 ^ 64) :
    maVal (mpy_accum_dbl s x y) = maVal s + 2 * (x * y) ∧
    (mpy_accum_dbl s x y).ua < 2 ^ 64 ∧ (mpy_accum_dbl s x y).cc ≤ s.cc + 2 := by
  obtain ⟨h1, h2, h3⟩ := mpy_accum_val s x y hx hy hu
  obtain ⟨h4, h5, h6⟩ := mpy_accum_val (mpy_accum s x y) x y hx hy h2
  unfold mpy_accum_dbl
  refine ⟨?_, h5, by omega⟩
  rw [h4, h1]
  ring

theorem accumCol_val (a b : List Nat) (ha : bigWF a) (hb : bigWF b)
    (i minj : Nat) :
    ∀ cnt s, s.ua < 2 ^ 64 →
    maVal (accumCol a b i minj cnt s)
        = maVal s + ∑ d ∈ Finset.range cnt,
            a.getD (i - (minj + d)) 0 * b.getD (minj + d) 0 ∧
    (accumCol a b i minj cnt s).ua < 2 ^ 64 ∧
    (accumCol a b i minj cnt s).cc ≤ s.cc + 2 * cnt := by
  intro cnt
  induction cnt with
  | zero => intro s hu; simp [accumCol]; omega
  | succ c ih =>
      intro s hu
      obtain ⟨h1, h2, h3⟩ := mpy_accum_val s (a.getD (i - (minj + c)) 0)
        (b.getD (minj + c) 0) (getD_lt a ha _) (getD_lt b hb _) hu
      obtain ⟨h4, h5, h6⟩ := ih (mpy_accum s (a.getD (i - (minj + c)) 0)
        (b.getD (minj + c) 0)) h2
      unfold accumCol
      refine ⟨?_, h5, by omega⟩
      rw [h4, h1, Finset.sum_range_succ]
      ring

theorem accumColSq_val (a : List Nat) (ha : bigWF a) (i minj : Nat) :
    ∀ cnt s, s.ua < 2 ^ 64 →
    maVal (accumColSq a i minj cnt s)
        = maVal s + ∑ d ∈ Finset.range cnt,
            2 * (a.getD (i - (minj + d)) 0 * a.getD (minj + d) 0) ∧
    (accumColSq a i minj cnt s).ua < 2 ^ 64 ∧
    (accumColSq a i minj cnt s).cc ≤ s.cc + 2 * cnt := by
  intro cnt
  induction cnt with
  | zero => intro s hu; simp [accumColSq]; omega
  | succ c ih =>
      intro s hu
      obtain ⟨h1, h2, h3⟩ := mpy_accum_dbl_val s (a.getD (i - (minj + c)) 0)
        (a.getD (minj + c) 0) (getD_lt a ha _) (getD_lt a ha _) hu
      obtain ⟨h4, h5, h6⟩ := ih (mpy_accum_dbl s (a.getD (i - (minj + c)) 0)
        (a.getD (minj + c) 0)) h2
      unfold accumColSq
      refine ⟨?_, h5, by omega⟩
      rw [h4, h1, Finset.sum_range_succ]
      ring

theorem columnEmit_val (s : MulAcc) (hu : s.ua < 2 ^ 64) (hc : s.cc < 2 ^ 31) :
    (columnEmit s).1 = maVal s % 2 ^ 32 ∧
    maVal (columnEmit s).2 = maVal s / 2 ^ 32 ∧
    (columnEmit s).2.ua < 2 ^ 64 ∧ (columnEmit s).2.cc = 0 := by
  unfold columnEmit maVal
  simp only
  have hsmall : s.ua / 2 ^ 32 + s.cc * 2 ^ 32 < 2 ^ 64 := by omega
  rw [Nat.mod_eq_of_lt hsmall]
  refine ⟨by omega, by omega, by omega, trivial⟩

theorem zval_append (l1 l2 : List Int) :
    zval (l1 ++ l2) = zval l1 + 2 ^ (32 * l1.length) * zval l2 := by
  induction l1 with
  | nil => simp [zval]
  | cons x t ih =>
      rw [List.cons_append]
      simp only [zval, List.length_cons]
      rw [ih, show 32 * (t.length + 1) = 32 * t.length + 32 by ring, pow_add]
      ring

theorem residualWords_zval (ua : Nat) (k : Nat) :
    zval (residualWords ua k) = (ua : Int) ∧ (residualWords ua k).length = k + 1 := by
  induction k generalizing ua with
  | zero => simp [residualWords, zval]
  | succ c ih =>
      obtain ⟨h1, h2⟩ := ih (ua / 2 ^ 32)
      simp only [residualWords, zval, h1, h2, List.length_cons]
      refine ⟨by push_cast; omega, by trivial⟩

/-- The main multiply loop: total value conservation, word bounds, and final
    state facts, given a column step with a uniform carry bound. -/
theorem mulLoop_val (step : MulAcc → Nat → MulAcc)
    (col : Nat → Nat)
    (hstep : ∀ s i, s.ua < 2 ^ 64 → s.cc = 0 →
      maVal (step s i) = maVal s + col i ∧ (step s i).ua < 2 ^ 64 ∧
      (step s i).cc < 2 ^ 31) :
    ∀ cnt i0 s, s.ua < 2 ^ 64 → s.cc = 0 →
      zval ((mulLoop step i0 cnt s).1.map (fun (x : Nat) => (x : Int)))
          + 2 ^ (32 * cnt) * ((mulLoop step i0 cnt s).2.ua : Int)
        = (maVal s : Int) + ∑ d ∈ Finset.range cnt, (col (i0 + d) : Int) * 2 ^ (32 * d) ∧
      (mulLoop step i0 cnt s).1.length = cnt ∧
      (∀ x ∈ (mulLoop step i0 cnt s).1, x < 2 ^ 32) ∧
      (mulLoop step i0 cnt s).2.ua < 2 ^ 64 ∧ (mulLoop step i0 cnt s).2.cc = 0 := by
  intro cnt
  induction cnt with
  | zero =>
      intro i0 s hu hc
      refine ⟨?_, rfl, ?_, hu, hc⟩
      · simp only [mulLoop, List.map_nil, zval, maVal, hc, List.length_nil,
          Finset.range_zero, Finset.sum_empty]
        push_cast
        ring
      · intro x hx
        simp only [mulLoop, List.not_mem_nil] at hx
  | succ c ih =>
      intro i0 s hu hc
      obtain ⟨hs1, hs2, hs3⟩ := hstep s i0 hu hc
      obtain ⟨he1, he2, he3, he4⟩ := columnEmit_val (step s i0) hs2 hs3
      obtain ⟨ih1, ih2, ih3, ih4, ih5⟩ := ih (i0 + 1) (columnEmit (step s i0)).2 he3 he4
      simp only [mulLoop]
      refine ⟨?_, by simp [ih2], ?_, ih4, ih5⟩
      · simp only [List.map_cons, zval, he1, ih2]
        have hstep2 : (maVal (columnEmit (step s i0)).2 : Int)
            = ((maVal (step s i0) / 2 ^ 32 : Nat) : Int) := by rw [he2]
        have hkey : (maVal (step s i0) : Int)
            = ((maVal (step s i0) % 2 ^ 32 : Nat) : Int)
              + 2 ^ 32 * ((maVal (step s i0) / 2 ^ 32 : Nat) : Int) := by
          push_cast
          omega
        have hsum : ∑ d ∈ Finset.range (c + 1), (col (i0 + d) : Int) * 2 ^ (32 * d)
            = (col i0 : Int) + 2 ^ 32 * ∑ d ∈ Finset.range c,
                (col (i0 + 1 + d) : Int) * 2 ^ (32 * d) := by
          rw [Finset.sum_range_succ', Finset.mul_sum]
          simp only [Nat.mul_zero, pow_zero, mul_one, Nat.add_zero]
          rw [add_comm]
          congr 1
          refine Finset.sum_congr rfl ?_
          intro d _
          rw [show i0 + (d + 1) = i0 + 1 + d by ring,
            show 32 * (d + 1) = 32 + 32 * d by ring, pow_add]
          ring
        have hc2 : (maVal (step s i0) : Int) = (maVal s : Int) + (col i0 : Int) := by
          exact_mod_cast hs1
        have he22 : (maVal (columnEmit (step s i0)).2 : Int)
            = ((maVal (step s i0) / 2 ^ 32 : Nat) : Int) := by exact_mod_cast he2
        rw [hsum, show 32 * (c + 1) = 32 + 32 * c by ring, pow_add]
        linear_combination ((2:Int) ^ 32) * ih1 - hkey + hc2 + ((2:Int) ^ 32) * he22
      · intro x hx
        simp only [List.mem_cons] at hx
        rcases hx with rfl | hx
        · exact Nat.mod_lt _ (by norm_num)
        · exact ih3 _ hx

/-- uval as an indexed sum over word positions. -/
theorem uval_eq_sum_len (l : List Nat) :
    uval l = ∑ k ∈ Finset.range l.length, l.getD k 0 * 2 ^ (32 * k) := by
  induction l with
  | nil => simp [uval]
  | cons x t ih =>
      have hshift : ∀ k : Nat, t.getD k 0 * 2 ^ (32 * (k + 1))
          = 2 ^ 32 * (t.getD k 0 * 2 ^ (32 * k)) := by
        intro k
        rw [show 32 * (k + 1) = 32 + 32 * k by ring, pow_add]
        ring
      simp only [uval, ih]
      rw [show (x :: t).length = t.length + 1 from rfl, Finset.sum_range_succ']
      simp only [List.getD_cons_succ, List.getD_cons_zero, Nat.mul_zero, pow_zero,
        mul_one]
      rw [Finset.sum_congr rfl (fun k _ => hshift k), ← Finset.mul_sum]
      ring

theorem uval_eq_sum (l : List Nat) (n : Nat) (hn : l.length ≤ n) :
    uval l = ∑ k ∈ Finset.range n, l.getD k 0 * 2 ^ (32 * k) := by
  rw [uval_eq_sum_len]
  refine Finset.sum_subset (Finset.range_subset.mpr hn) ?_
  intro k _ hk
  simp only [Finset.mem_range, not_lt] at hk
  rw [List.getD_eq_default _ _ (by omega)]
  ring

theorem awordsFrom_pos_le (a : List Nat) (n : Nat) (hn : 1 ≤ n) :
    1 ≤ awordsFrom a n ∧ awordsFrom a n ≤ n := by
  induction n with
  | zero => omega
  | succ c ih =>
      unfold awordsFrom
      split
      · rename_i hcond
        have := ih (by omega)
        omega
      · omega

theorem awordsFrom_zeros (a : List Nat) (n : Nat)
    (h : ∀ j, n ≤ j → a.getD j 0 = 0) :
    ∀ j, awordsFrom a n ≤ j → a.getD j 0 = 0 := by
  induction n with
  | zero => exact fun j hj => h j (by omega)
  | succ c ih =>
      unfold awordsFrom
      split
      · rename_i hcond
        refine ih ?_
        intro j hj
        rcases Nat.eq_or_lt_of_le hj with rfl | hlt
        · exact hcond.2
        · exact h j (by omega)
      · exact h

theorem awords_facts (a : List Nat) (ha : a.length = 9) :
    1 ≤ awords a ∧ awords a ≤ 9 ∧ ∀ j, awords a ≤ j → a.getD j 0 = 0 := by
  have h1 := awordsFrom_pos_le a 9 (by norm_num)
  have h2 := awordsFrom_zeros a 9 (fun j hj => List.getD_eq_default _ _ (by omega))
  exact ⟨h1.1, h1.2, h2⟩

theorem uval_lt_awords (a : List Nat) (ha : bigWF a) :
    uval a < 2 ^ (32 * awords a) := by
  obtain ⟨hw1, hw2, hw3⟩ := awords_facts a ha.1
  rw [uval_eq_sum a 9 (le_of_eq ha.1)]
  have hsub : ∑ k ∈ Finset.range 9, a.getD k 0 * 2 ^ (32 * k)
      = ∑ k ∈ Finset.range (awords a), a.getD k 0 * 2 ^ (32 * k) := by
    refine (Finset.sum_subset (Finset.range_subset.mpr (by omega)) ?_).symm
    intro k _ hk
    simp only [Finset.mem_range, not_lt] at hk
    rw [hw3 k hk]
    ring
  rw [hsub]
  calc ∑ k ∈ Finset.range (awords a), a.getD k 0 * 2 ^ (32 * k)
      ≤ ∑ k ∈ Finset.range (awords a), (2 ^ 32 - 1) * 2 ^ (32 * k) := by
        refine Finset.sum_le_sum ?_
        intro k _
        have := getD_lt a ha k
        exact Nat.mul_le_mul_right _ (by omega)
    _ < 2 ^ (32 * awords a) := by
        induction awords a with
        | zero => simp
        | succ c ihc =>
            rw [Finset.sum_range_succ, show 32 * (c + 1) = 32 * c + 32 by ring,
              pow_add]
            have h32 : (2:Nat) ^ 32 - 1 ≥ 1 := by norm_num
            omega

/-- The column sum of the normal multiply path. -/
def colN (a b : List Nat) (aw bw i : Nat) : Nat :=
  ∑ d ∈ Finset.range (min (bw - 1) i + 1 - (i + 1 - aw)),
    a.getD (i - (i + 1 - aw + d)) 0 * b.getD (i + 1 - aw + d) 0

theorem colStepMul_spec (a b : List Nat) (ha : bigWF a) (hb : bigWF b)
    (aw bw : Nat) (hbw : bw ≤ 9) (s : MulAcc) (i : Nat)
    (hu : s.ua < 2 ^ 64) (hc : s.cc = 0) :
    maVal (colStepMul a b aw bw s i) = maVal s + colN a b aw bw i ∧
    (colStepMul a b aw bw s i).ua < 2 ^ 64 ∧
    (colStepMul a b aw bw s i).cc < 2 ^ 31 := by
  obtain ⟨h1, h2, h3⟩ := accumCol_val a b ha hb i (i + 1 - aw)
    (min (bw - 1) i + 1 - (i + 1 - aw)) s hu
  refine ⟨h1, h2, ?_⟩
  have hmin : min (bw - 1) i ≤ bw - 1 := min_le_left _ _
  calc (colStepMul a b aw bw s i).cc
      ≤ s.cc + 2 * (min (bw - 1) i + 1 - (i + 1 - aw)) := h3
    _ < 2 ^ 31 := by omega

/-- Column sum over the full word range with an explicit diagonal guard. -/
def colFull (a b : List Nat) (i : Nat) : Nat :=
  ∑ j ∈ Finset.range 9, if j ≤ i then a.getD (i - j) 0 * b.getD j 0 else 0

theorem colN_eq_colFull (a b : List Nat) (ha : a.length = 9) (hb : b.length = 9)
    (i : Nat) :
    colN a b (awords a) (awords b) i = colFull a b i := by
  obtain ⟨ha1, ha2, ha3⟩ := awords_facts a ha
  obtain ⟨hb1, hb2, hb3⟩ := awords_facts b hb
  unfold colN colFull
  rw [show (∑ d ∈ Finset.range (min (awords b - 1) i + 1 - (i + 1 - awords a)),
      a.getD (i - (i + 1 - awords a + d)) 0 * b.getD (i + 1 - awords a + d) 0)
    = ∑ j ∈ Finset.Ico (i + 1 - awords a) (min (awords b - 1) i + 1),
        a.getD (i - j) 0 * b.getD j 0 from
    (Finset.sum_Ico_eq_sum_range (fun j => a.getD (i - j) 0 * b.getD j 0)
      (i + 1 - awords a) (min (awords b - 1) i + 1)).symm]
  rw [← Finset.sum_filter]
  refine Finset.sum_subset ?_ ?_
  · intro j hj
    simp only [Finset.mem_Ico, Finset.mem_filter, Finset.mem_range] at hj ⊢
    have h1 : min (awords b - 1) i ≤ awords b - 1 := min_le_left _ _
    have h2 : min (awords b - 1) i ≤ i := min_le_right _ _
    omega
  · intro j hj hnot
    simp only [Finset.mem_filter, Finset.mem_range] at hj
    simp only [Finset.mem_Ico, not_and, not_lt] at hnot
    rcases lt_or_le j (i + 1 - awords a) with hlow | hhigh
    · rw [ha3 (i - j) (by omega)]
      ring
    · have := hnot hhigh
      have h2 : min (awords b - 1) i = awords b - 1 ∨ min (awords b - 1) i = i :=
        min_choice _ _
      rw [hb3 j (by omega)]
      ring

theorem colFull_zero (a b : List Nat) (ha : a.length = 9) (hb : b.length = 9)
    (i : Nat) (hi : awords a + awords b - 1 ≤ i) : colFull a b i = 0 := by
  obtain ⟨ha1, ha2, ha3⟩ := awords_facts a ha
  obtain ⟨hb1, hb2, hb3⟩ := awords_facts b hb
  unfold colFull
  refine Finset.sum_eq_zero ?_
  intro j hj
  simp only [Finset.mem_range] at hj
  split
  · rename_i hji
    rcases lt_or_le j (awords b) with hjb | hjb
    · rw [ha3 (i - j) (by omega)]
      ring
    · rw [hb3 j hjb]
      ring
  · rfl

/-- The convolution identity for the normal multiply path: the weighted sum
    of the column sums is the full product. -/
theorem convolution_N (a b : List Nat) (ha : bigWF a) (hb : bigWF b) :
    ∑ i ∈ Finset.range (awords a + awords b - 1),
        colN a b (awords a) (awords b) i * 2 ^ (32 * i)
      = uval a * uval b := by
  obtain ⟨ha1, ha2, ha3⟩ := awords_facts a ha.1
  obtain ⟨hb1, hb2, hb3⟩ := awords_facts b hb.1
  have hstep1 : ∀ i ∈ Finset.range (awords a + awords b - 1),
      colN a b (awords a) (awords b) i * 2 ^ (32 * i)
        = colFull a b i * 2 ^ (32 * i) := by
    intro i _
    rw [colN_eq_colFull a b ha.1 hb.1]
  rw [Finset.sum_congr rfl hstep1]
  have hext : ∑ i ∈ Finset.range (awords a + awords b - 1), colFull a b i * 2 ^ (32 * i)
      = ∑ i ∈ Finset.range 17, colFull a b i * 2 ^ (32 * i) := by
    refine Finset.sum_subset (Finset.range_subset.mpr (by omega)) ?_
    intro i _ hi
    simp only [Finset.mem_range, not_lt] at hi
    rw [colFull_zero a b ha.1 hb.1 i (by omega)]
    ring
  rw [hext]
  unfold colFull
  rw [show ∑ i ∈ Finset.range 17,
        (∑ j ∈ Finset.range 9, if j ≤ i then a.getD (i - j) 0 * b.getD j 0 else 0)
          * 2 ^ (32 * i)
      = ∑ i ∈ Finset.range 17, ∑ j ∈ Finset.range 9,
          (if j ≤ i then a.getD (i - j) 0 * b.getD j 0 else 0) * 2 ^ (32 * i) from
    Finset.sum_congr rfl (fun i _ => Finset.sum_mul _ _ _)]
  rw [Finset.sum_comm]
  have hinner : ∀ j ∈ Finset.range 9,
      ∑ i ∈ Finset.range 17,
          (if j ≤ i then a.getD (i - j) 0 * b.getD j 0 else 0) * 2 ^ (32 * i)
        = uval a * (b.getD j 0 * 2 ^ (32 * j)) := by
    intro j hj
    simp only [Finset.mem_range] at hj
    have hite : ∀ i, (if j ≤ i then a.getD (i - j) 0 * b.getD j 0 else 0) * 2 ^ (32 * i)
        = if j ≤ i then a.getD (i - j) 0 * b.getD j 0 * 2 ^ (32 * i) else 0 := by
      intro i
      split <;> ring
    rw [Finset.sum_congr rfl (fun i _ => hite i), ← Finset.sum_filter]
    have hfilt : (Finset.range 17).filter (fun i => j ≤ i) = Finset.Ico j 17 := by
      ext x
      simp only [Finset.mem_filter, Finset.mem_range, Finset.mem_Ico]
      omega
    rw [hfilt, Finset.sum_Ico_eq_sum_range]
    have hterm : ∀ d, a.getD (j + d - j) 0 * b.getD j 0 * 2 ^ (32 * (j + d))
        = (a.getD d 0 * 2 ^ (32 * d)) * (b.getD j 0 * 2 ^ (32 * j)) := by
      intro d
      rw [show j + d - j = d by omega, show 32 * (j + d) = 32 * d + 32 * j by ring,
        pow_add]
      ring
    rw [Finset.sum_congr rfl (fun d _ => hterm d), ← Finset.sum_mul,
      ← uval_eq_sum a (17 - j) (by rw [ha.1]; omega)]
  rw [Finset.sum_congr rfl hinner, ← Finset.mul_sum,
    ← uval_eq_sum b 9 (le_of_eq hb.1)]

/-- The column sum of the squaring path. -/
def colSq (a : List Nat) (aw i : Nat) : Nat :=
  (∑ d ∈ Finset.range ((sqMaxjZ aw i + 1 - (i + 1 - aw : Nat)).toNat),
      2 * (a.getD (i - (i + 1 - aw + d)) 0 * a.getD (i + 1 - aw + d) 0))
  + (if i % 2 = 0 then
      a.getD ((sqMaxjZ aw i + 1).toNat) 0 * a.getD ((sqMaxjZ aw i + 1).toNat) 0
     else 0)

theorem colStepSq_spec (a : List Nat) (ha : bigWF a) (aw : Nat) (haw : aw ≤ 9)
    (s : MulAcc) (i : Nat) (hu : s.ua < 2 ^ 64) (hc : s.cc = 0) :
    maVal (colStepSq a aw s i) = maVal s + colSq a aw i ∧
    (colStepSq a aw s i).ua < 2 ^ 64 ∧
    (colStepSq a aw s i).cc < 2 ^ 31 := by
  have hmzb : sqMaxjZ aw i ≤ (aw : Int) - 1 :=
    le_trans (min_le_left _ _) (min_le_left _ _)
  have hcnt9 : (sqMaxjZ aw i + 1 - (i + 1 - aw : Nat)).toNat ≤ 9 := by omega
  obtain ⟨h1, h2, h3⟩ := accumColSq_val a ha i (i + 1 - aw)
    (sqMaxjZ aw i + 1 - (i + 1 - aw : Nat)).toNat s hu
  unfold colStepSq colSq
  split
  · rename_i heven
    obtain ⟨h4, h5, h6⟩ := mpy_accum_val
      (accumColSq a i (i + 1 - aw) (sqMaxjZ aw i + 1 - (i + 1 - aw : Nat)).toNat s)
      (a.getD ((sqMaxjZ aw i + 1).toNat) 0) (a.getD ((sqMaxjZ aw i + 1).toNat) 0)
      (getD_lt a ha _) (getD_lt a ha _) h2
    refine ⟨?_, h5, by omega⟩
    rw [h4, h1]
    ring
  · exact ⟨by rw [h1]; ring, h2, by omega⟩

/-- The squaring-path column sum equals the normal-path column sum with both
    arguments equal: symmetric products are collected in doubled pairs plus
    the diagonal term on even columns. -/
theorem colSq_eq_colN (a : List Nat) (aw : Nat) (haw1 : 1 ≤ aw) (haw2 : aw ≤ 9)
    (i : Nat) (hi : i < 2 * aw - 1) :
    colSq a aw i = colN a a aw aw i := by
  rcases Nat.eq_zero_or_pos i with rfl | hipos
  · have h0 : sqMaxjZ aw 0 = -1 := by
      unfold sqMaxjZ
      omega
    unfold colSq colN
    rw [h0]
    rw [show ((-1 : Int) + 1 - ((0 + 1 - aw : Nat) : Int)).toNat = 0 by omega]
    rw [show ((-1 : Int) + 1).toNat = 0 by omega]
    rw [show min (aw - 1) 0 + 1 - (0 + 1 - aw) = 1 by omega]
    rw [show 0 + 1 - aw = 0 from by omega]
    simp [Finset.sum_range_one]
  · set mN := min (aw - 1) i with hmN
    set mS := min (min (aw - 1) i) ((i - 1) / 2) with hmS
    set mj := i + 1 - aw with hmj
    have hmz : sqMaxjZ aw i = (mS : Int) := by
      unfold sqMaxjZ
      omega
    have hcnt : (sqMaxjZ aw i + 1 - (mj : Nat)).toNat = mS + 1 - mj := by
      rw [hmz]; omega
    have hreidx : ∀ (n m : Nat) (f : Nat → Nat),
        ∑ d ∈ Finset.range (n - m), f (m + d) = ∑ j ∈ Finset.Ico m n, f j :=
      fun n m f => (Finset.sum_Ico_eq_sum_range f m n).symm
    have hmain : ∑ j ∈ Finset.Ico mj (mN + 1), a.getD (i - j) 0 * a.getD j 0
        = 2 * ∑ j ∈ Finset.Ico mj (mS + 1), a.getD (i - j) 0 * a.getD j 0
          + (if i % 2 = 0 then a.getD (i / 2) 0 * a.getD (i / 2) 0 else 0) := by
      set t : Nat → Nat := fun j => a.getD (i - j) 0 * a.getD j 0 with ht
      set S := Finset.Ico mj (mN + 1) with hS
      rw [← Finset.sum_filter_add_sum_filter_not S (fun j => 2 * j < i) t]
      have hL : S.filter (fun j => 2 * j < i) = Finset.Ico mj (mS + 1) := by
        ext j
        simp only [Finset.mem_filter, Finset.mem_Ico, hS, hmN, hmS, hmj]
        omega
      rw [hL]
      rw [← Finset.sum_filter_add_sum_filter_not (S.filter (fun j => ¬2 * j < i))
        (fun j => 2 * j = i) t]
      have hU : ((S.filter (fun j => ¬2 * j < i)).filter (fun j => ¬2 * j = i)).sum t
          = (Finset.Ico mj (mS + 1)).sum t := by
        refine Finset.sum_nbij' (fun j => i - j) (fun j => i - j) ?_ ?_ ?_ ?_ ?_
        · intro j hj
          simp only [Finset.mem_filter, Finset.mem_Ico, hS, hmN, hmS, hmj] at hj ⊢
          omega
        · intro j hj
          simp only [Finset.mem_filter, Finset.mem_Ico, hS, hmN, hmS, hmj] at hj ⊢
          omega
        · intro j hj
          simp only [Finset.mem_filter, Finset.mem_Ico, hS, hmN, hmS, hmj] at hj
          show i - (i - j) = j
          omega
        · intro j hj
          simp only [Finset.mem_Ico, hmS, hmj] at hj
          show i - (i - j) = j
          omega
        · intro j hj
          simp only [Finset.mem_filter, Finset.mem_Ico, hS, hmN, hmS, hmj] at hj
          simp only [ht]
          rw [show i - (i - j) = j by omega]
          ring
      rw [hU]
      have hD : ((S.filter (fun j => ¬2 * j < i)).filter (fun j => 2 * j = i)).sum t
          = if i % 2 = 0 then t (i / 2) else 0 := by
        split
        · rename_i heven
          rw [show (S.filter (fun j => ¬2 * j < i)).filter (fun j => 2 * j = i)
              = {i / 2} from by
            ext j
            simp only [Finset.mem_filter, Finset.mem_Ico, Finset.mem_singleton,
              hS, hmN, hmS, hmj]
            omega]
          exact Finset.sum_singleton _ _
        · rename_i hodd
          rw [show (S.filter (fun j => ¬2 * j < i)).filter (fun j => 2 * j = i)
              = ∅ from by
            ext j
            simp only [Finset.mem_filter, Finset.mem_Ico, Finset.not_mem_empty,
              iff_false, not_and, hS, hmN, hmS, hmj]
            omega]
          exact Finset.sum_empty
      rw [hD]
      simp only [ht]
      by_cases hev : i % 2 = 0
      · rw [if_pos hev, if_pos hev, show i - i / 2 = i / 2 from by omega]
        ring
      · rw [if_neg hev, if_neg hev]
        ring
    unfold colSq colN
    rw [hcnt]
    rw [show (∑ d ∈ Finset.range (mS + 1 - mj),
          2 * (a.getD (i - (i + 1 - aw + d)) 0 * a.getD (i + 1 - aw + d) 0))
        = 2 * ∑ j ∈ Finset.Ico mj (mS + 1), a.getD (i - j) 0 * a.getD j 0 from by
      rw [← hreidx (mS + 1) mj (fun j => a.getD (i - j) 0 * a.getD j 0),
        Finset.mul_sum]]
    rw [show min (aw - 1) i + 1 - (i + 1 - aw) = mN + 1 - mj from rfl]
    rw [hreidx (mN + 1) mj (fun j => a.getD (i - j) 0 * a.getD j 0)]
    rw [hmain]
    have hmid : i % 2 = 0 → (sqMaxjZ aw i + 1).toNat = i / 2 := by
      intro heven
      rw [hmz]
      omega
    split
    · rename_i heven
      rw [hmid heven]
    · ring

theorem convolution_Sq (a : List Nat) (ha : bigWF a) :
    ∑ i ∈ Finset.range (2 * awords a - 1), colSq a (awords a) i * 2 ^ (32 * i)
      = uval a * uval a := by
  obtain ⟨h1, h2, h3⟩ := awords_facts a ha.1
  have hconv := convolution_N a a ha ha
  rw [show awords a + awords a - 1 = 2 * awords a - 1 by omega] at hconv
  rw [← hconv]
  refine Finset.sum_congr rfl ?_
  intro i hi
  simp only [Finset.mem_range] at hi
  rw [colSq_eq_colN a (awords a) h1 h2 i hi]

/- getD / set helper lemmas on integer lists. -/

theorem getD_set_self (l : List Int) (i : Nat) (x : Int) (h : i < l.length) :
    (l.set i x).getD i 0 = x := by
  rw [List.getD_eq_getElem _ _ (by simpa using h)]
  simp [List.getElem_set_self]

theorem getD_set_ne (l : List Int) (i j : Nat) (x : Int) (h : i ≠ j) :
    (l.set i x).getD j 0 = l.getD j 0 := by
  rcases lt_or_le j l.length with hj | hj
  · rw [List.getD_eq_getElem _ _ (by simpa using hj),
      List.getD_eq_getElem _ _ hj]
    exact List.getElem_set_ne h _
  · rw [List.getD_eq_default _ _ (by simpa using hj),
      List.getD_eq_default _ _ hj]

theorem zval_set (l : List Int) (i : Nat) (x : Int) (h : i < l.length) :
    zval (l.set i x) = zval l + (x - l.getD i 0) * 2 ^ (32 * i) := by
  induction l generalizing i with
  | nil => simp at h
  | cons y t ih =>
      cases i with
      | zero =>
          simp only [List.set_cons_zero, zval, List.getD_cons_zero, Nat.mul_zero,
            pow_zero]
          ring
      | succ k =>
          simp only [List.set_cons_succ, zval, List.getD_cons_succ]
          rw [ih k (by simpa using h)]
          rw [show 32 * (k + 1) = 32 + 32 * k by ring, pow_add]
          ring

theorem getD_abs_of_mem (l : List Int) (B : Int) (hB : 0 ≤ B)
    (h : ∀ x ∈ l, |x| ≤ B) : ∀ j, |l.getD j 0| ≤ B := by
  intro j
  rcases lt_or_le j l.length with hj | hj
  · rw [List.getD_eq_getElem _ _ hj]
    exact h _ (List.getElem_mem hj)
  · rw [List.getD_eq_default _ _ hj]
    simpa using hB

theorem mem_zipWith_decomp {f : Int → Nat → Int} {l1 : List Int} {l2 : List Nat}
    {x : Int} (h : x ∈ List.zipWith f l1 l2) :
    ∃ u ∈ l1, ∃ v ∈ l2, x = f u v := by
  induction l1 generalizing l2 with
  | nil => simp at h
  | cons a t ih =>
      cases l2 with
      | nil => simp at h
      | cons b s =>
          simp only [List.zipWith_cons_cons, List.mem_cons] at h
          rcases h with rfl | h
          · exact ⟨a, by simp, b, by simp, rfl⟩
          · obtain ⟨u, hu, v, hv, rfl⟩ := ih h
            exact ⟨u, by simp [hu], v, by simp [hv], rfl⟩

/-- zval of the correction zipWith: subtracts the unsigned value. -/
theorem zval_zip_corr (l : List Int) (b : List Nat) (h : l.length = b.length) :
    zval (List.zipWith (fun (wi : Int) (bi : Nat) => wi - (bi : Int)) l b)
      = zval l - (uval b : Int) := by
  induction l generalizing b with
  | nil => cases b with
      | nil => simp [zval, uval]
      | cons y t => simp at h
  | cons x t ih =>
      cases b with
      | nil => simp at h
      | cons y s =>
          simp only [List.zipWith_cons_cons, zval, uval]
          rw [ih s (by simpa using h)]
          push_cast
          ring

theorem negCorrect_zval (a b : List Nat) (ha : bigWF a) (hb : bigWF b)
    (w : List Int) (hw : w.length = 18) :
    zval (negCorrect a b w)
      = zval w
        - (if big_is_negative a then (2:Int) ^ 288 * (uval b : Int) else 0)
        - (if big_is_negative b then (2:Int) ^ 288 * (uval a : Int) else 0)
        + (if big_is_negative a ∧ big_is_negative b then (2:Int) ^ 576 else 0) ∧
    (negCorrect a b w).length = 18 := by
  unfold negCorrect
  have hsplit : ∀ (u : List Int) (c : List Nat), u.length = 18 → c.length = 9 →
      zval (u.take 9 ++ List.zipWith (fun (wi : Int) (ci : Nat) => wi - (ci : Int))
          (u.drop 9) c)
        = zval u - 2 ^ 288 * (uval c : Int) ∧
      (u.take 9 ++ List.zipWith (fun (wi : Int) (ci : Nat) => wi - (ci : Int))
          (u.drop 9) c).length = 18 := by
    intro u c hu hc
    have hlt : (u.take 9).length = 9 := by simp [List.length_take, hu]
    have hld : (u.drop 9).length = 9 := by simp [List.length_drop, hu]
    constructor
    · rw [zval_append, zval_zip_corr _ c (by omega), hlt]
      have hud := zval_append (u.take 9) (u.drop 9)
      rw [List.take_append_drop, hlt] at hud
      rw [show ((32 : Nat) * 9) = 288 by norm_num] at hud ⊢
      linarith [hud]
    · simp [List.length_append, List.length_zipWith, hlt, hld, hc]
  by_cases hna : big_is_negative a <;> by_cases hnb : big_is_negative b
  · obtain ⟨h1, h2⟩ := hsplit w b hw hb.1
    obtain ⟨h3, h4⟩ := hsplit _ a h2 ha.1
    rw [if_pos hna, if_pos hnb, if_pos (by simp [hna, hnb]), if_pos hna,
      if_pos hnb, if_pos ⟨hna, hnb⟩]
    constructor
    · rw [zval_set _ _ _ (by omega), h3, h1]
      ring
    · rw [List.length_set]
      exact h4
  · obtain ⟨h1, h2⟩ := hsplit w b hw hb.1
    rw [if_pos hna, if_neg hnb, if_neg (by simp [hnb]), if_pos hna, if_neg hnb]
    refine ⟨?_, h2⟩
    rw [h1, if_neg (show ¬(big_is_negative a = true ∧ big_is_negative b = true)
      from by simp [hnb])]
    ring
  · obtain ⟨h1, h2⟩ := hsplit w a hw ha.1
    rw [if_neg hna, if_pos hnb, if_neg (by simp [hna]), if_neg hna, if_pos hnb]
    refine ⟨?_, h2⟩
    rw [h1, if_neg (show ¬(big_is_negative a = true ∧ big_is_negative b = true)
      from by simp [hna])]
    ring
  · rw [if_neg hna, if_neg hnb, if_neg (by simp [hna]), if_neg hna, if_neg hnb]
    refine ⟨?_, hw⟩
    rw [if_neg (show ¬(big_is_negative a = true ∧ big_is_negative b = true)
      from by simp [hna])]
    ring

theorem redStep_length (w : List Int) (i : Nat) : (redStep w i).length = w.length := by
  simp only [redStep]
  split
  · rfl
  · simp [List.length_set]

theorem redStep_zval (w : List Int) (i : Nat) (hi : 8 ≤ i) (hi18 : i < 18)
    (hlen : w.length = 18) :
    Int.ModEq (pVal : Int) (zval (redStep w i)) (zval w) := by
  simp only [redStep]
  split
  · exact Int.ModEq.refl _
  · set v := w.getD i 0 with hv
    have hz0 := zval_set w i 0 (by omega)
    have hz1 := zval_set (w.set i 0) (i-1)
      ((w.set i 0).getD (i-1) 0 + v) (by simp [List.length_set]; omega)
    have hz2 := zval_set ((w.set i 0).set (i-1) ((w.set i 0).getD (i-1) 0 + v)) (i-2)
      (((w.set i 0).set (i-1) ((w.set i 0).getD (i-1) 0 + v)).getD (i-2) 0 - v)
      (by simp [List.length_set]; omega)
    set w2 := ((w.set i 0).set (i-1) ((w.set i 0).getD (i-1) 0 + v)).set (i-2)
      (((w.set i 0).set (i-1) ((w.set i 0).getD (i-1) 0 + v)).getD (i-2) 0 - v) with hw2
    have hz3 := zval_set w2 (i-5) (w2.getD (i-5) 0 - v) (by simp [hw2, List.length_set]; omega)
    set w3 := w2.set (i-5) (w2.getD (i-5) 0 - v) with hw3
    have hz4 := zval_set w3 (i-8) (w3.getD (i-8) 0 + v) (by simp [hw3, hw2, List.length_set]; omega)
    have hfinal : zval (w3.set (i - 8) (w3.getD (i - 8) 0 + v))
        = zval w - v * 2 ^ (32 * (i - 8)) * (pVal : Int) := by
      rw [hz4, hz3, hz2, hz1, hz0]
      rw [show (2:Int) ^ (32 * (i-1)) = 2 ^ (32 * (i-8)) * 2 ^ 224 from by
          rw [← pow_add]; congr 1; omega,
        show (2:Int) ^ (32 * (i-2)) = 2 ^ (32 * (i-8)) * 2 ^ 192 from by
          rw [← pow_add]; congr 1; omega,
        show (2:Int) ^ (32 * (i-5)) = 2 ^ (32 * (i-8)) * 2 ^ 96 from by
          rw [← pow_add]; congr 1; omega,
        show (2:Int) ^ (32 * i) = 2 ^ (32 * (i-8)) * 2 ^ 256 from by
          rw [← pow_add]; congr 1; omega]
      rw [show (pVal : Int) = 2 ^ 256 - 2 ^ 224 + 2 ^ 192 + 2 ^ 96 - 1 from by
        rw [pVal]; norm_num]
      rw [hv]
      ring
    rw [hfinal]
    unfold Int.ModEq
    rw [show zval w - v * 2 ^ (32 * (i - 8)) * (pVal : Int)
        = zval w + (pVal : Int) * (-(v * 2 ^ (32 * (i - 8)))) by ring,
      Int.add_mul_emod_self_left]

theorem redStep_getD (w : List Int) (i : Nat) (hi : 8 ≤ i) (hlen : w.length = 18)
    (hi18 : i < 18) (j : Nat) :
    (redStep w i).getD j 0 =
      if w.getD i 0 = 0 then w.getD j 0
      else if j = i then 0
      else if j = i - 1 then w.getD j 0 + w.getD i 0
      else if j = i - 2 then w.getD j 0 - w.getD i 0
      else if j = i - 5 then w.getD j 0 - w.getD i 0
      else if j = i - 8 then w.getD j 0 + w.getD i 0
      else w.getD j 0 := by
  simp only [redStep]
  split
  · rfl
  · rename_i h0
    by_cases hj1 : j = i
    · subst hj1
      rw [if_pos rfl]
      rw [getD_set_ne _ _ _ _ (by omega), getD_set_ne _ _ _ _ (by omega),
        getD_set_ne _ _ _ _ (by omega), getD_set_ne _ _ _ _ (by omega),
        getD_set_self _ _ _ (by simp [hlen]; omega)]
    · rw [if_neg hj1]
      by_cases hj2 : j = i - 1
      · subst hj2
        rw [if_pos rfl]
        rw [getD_set_ne _ _ _ _ (by omega), getD_set_ne _ _ _ _ (by omega),
          getD_set_ne _ _ _ _ (by omega),
          getD_set_self _ _ _ (by simp [List.length_set, hlen]; omega),
          getD_set_ne _ _ _ _ (by omega)]
      · rw [if_neg hj2]
        by_cases hj3 : j = i - 2
        · subst hj3
          rw [if_pos rfl]
          rw [getD_set_ne _ _ _ _ (by omega), getD_set_ne _ _ _ _ (by omega),
            getD_set_self _ _ _ (by simp [List.length_set, hlen]; omega),
            getD_set_ne _ _ _ _ (by omega), getD_set_ne _ _ _ _ (by omega)]
        · rw [if_neg hj3]
          by_cases hj4 : j = i - 5
          · subst hj4
            rw [if_pos rfl]
            rw [getD_set_ne _ _ _ _ (by omega),
              getD_set_self _ _ _ (by simp [List.length_set, hlen]; omega),
              getD_set_ne _ _ _ _ (by omega), getD_set_ne _ _ _ _ (by omega),
              getD_set_ne _ _ _ _ (by omega)]
          · rw [if_neg hj4]
            by_cases hj5 : j = i - 8
            · subst hj5
              rw [if_pos rfl]
              rw [getD_set_self _ _ _ (by simp [List.length_set, hlen]; omega),
                getD_set_ne _ _ _ _ (by omega), getD_set_ne _ _ _ _ (by omega),
                getD_set_ne _ _ _ _ (by omega), getD_set_ne _ _ _ _ (by omega)]
            · rw [if_neg hj5]
              rw [getD_set_ne _ _ _ _ (by omega), getD_set_ne _ _ _ _ (by omega),
                getD_set_ne _ _ _ _ (by omega), getD_set_ne _ _ _ _ (by omega),
                getD_set_ne _ _ _ _ (by omega)]

theorem redLoopAux_length (w : List Int) (k : Nat) :
    (redLoopAux w k).length = w.length := by
  induction k generalizing w with
  | zero => rfl
  | succ c ih => rw [redLoopAux, ih, redStep_length]

/-- Aggregate facts about the sparse reduction loop: it preserves the value
    mod p, keeps entries bounded (at most doubling per step), and zeroes all
    words from index 8 up. -/
theorem redLoopAux_facts (k : Nat) (hk : k ≤ 10) (w : List Int) (hlen : w.length = 18)
    (B : Int) (hB : ∀ j, |w.getD j 0| ≤ B)
    (hz : ∀ j, 8 + k ≤ j → w.getD j 0 = 0) :
    Int.ModEq (pVal : Int) (zval (redLoopAux w k)) (zval w) ∧
    (∀ j, |(redLoopAux w k).getD j 0| ≤ 2 ^ k * B) ∧
    (∀ j, 8 ≤ j → (redLoopAux w k).getD j 0 = 0) := by
  induction k generalizing w B with
  | zero =>
      refine ⟨Int.ModEq.refl _, ?_, ?_⟩
      · intro j
        simpa [redLoopAux] using hB j
      · intro j hj
        exact hz j (by omega)
  | succ c ih =>
      have hB0 : 0 ≤ B := le_trans (abs_nonneg _) (hB 0)
      have hstepD := redStep_getD w (8 + c) (by omega) hlen (by omega)
      have hlen2 : (redStep w (8 + c)).length = 18 := by rw [redStep_length, hlen]
      have hB2 : ∀ j, |(redStep w (8 + c)).getD j 0| ≤ 2 * B := by
        intro j
        rw [hstepD j]
        have h1 := hB j
        have h2 := hB (8 + c)
        split
        · omega
        · split
          · simp only [abs_zero]; omega
          · split
            · calc |w.getD j 0 + w.getD (8+c) 0| ≤ |w.getD j 0| + |w.getD (8+c) 0| :=
                    abs_add _ _
                _ ≤ 2 * B := by omega
            · split
              · calc |w.getD j 0 - w.getD (8+c) 0|
                      ≤ |w.getD j 0| + |w.getD (8+c) 0| := abs_sub _ _
                  _ ≤ 2 * B := by omega
              · split
                · calc |w.getD j 0 - w.getD (8+c) 0|
                        ≤ |w.getD j 0| + |w.getD (8+c) 0| := abs_sub _ _
                    _ ≤ 2 * B := by omega
                · split
                  · calc |w.getD j 0 + w.getD (8+c) 0|
                          ≤ |w.getD j 0| + |w.getD (8+c) 0| := abs_add _ _
                      _ ≤ 2 * B := by omega
                  · omega
      have hz2 : ∀ j, 8 + c ≤ j → (redStep w (8 + c)).getD j 0 = 0 := by
        intro j hj
        rw [hstepD j]
        split
        · rename_i hv
          rcases Nat.eq_or_lt_of_le hj with rfl | hlt
          · exact hv
          · exact hz j (by omega)
        · split
          · rfl
          · rename_i hv hne
            rw [if_neg (by omega), if_neg (by omega), if_neg (by omega),
              if_neg (by omega)]
            exact hz j (by omega)
      obtain ⟨ih1, ih2, ih3⟩ := ih (by omega) (redStep w (8 + c)) hlen2 (2 * B) hB2 hz2
      rw [redLoopAux]
      refine ⟨?_, ?_, ih3⟩
      · exact ih1.trans (redStep_zval w (8 + c) (by omega) (by omega) hlen)
      · intro j
        calc |(redLoopAux (redStep w (8+c)) c).getD j 0| ≤ 2 ^ c * (2 * B) := ih2 j
          _ = 2 ^ (c + 1) * B := by ring

theorem abs_le_of_getD (l : List Int) (B : Int)
    (h : ∀ j, |l.getD j 0| ≤ B) : ∀ x ∈ l, |x| ≤ B := by
  intro x hx
  obtain ⟨j, hj, rfl⟩ := List.mem_iff_getElem.mp hx
  have := h j
  rwa [List.getD_eq_getElem _ _ hj] at this

/-- Geometric bound on the value of a list of bounded words. -/
theorem zval_abs_le (l : List Int) (B : Int) (h : ∀ x ∈ l, |x| ≤ B) :
    |zval l| * (2 ^ 32 - 1) ≤ B * (2 ^ (32 * l.length) - 1) := by
  induction l with
  | nil => simp [zval]
  | cons x t ih =>
      have hx : |x| ≤ B := h x (List.mem_cons_self _ _)
      have ht := ih (fun y hy => h y (List.mem_cons_of_mem _ hy))
      have habs : |zval (x :: t)| ≤ |x| + 2 ^ 32 * |zval t| := by
        calc |zval (x :: t)| = |x + 2 ^ 32 * zval t| := rfl
          _ ≤ |x| + |2 ^ 32 * zval t| := abs_add _ _
          _ = |x| + 2 ^ 32 * |zval t| := by
              rw [abs_mul, abs_of_nonneg (show (0:Int) ≤ 2 ^ 32 by positivity)]
      have hexp : (2:Int) ^ (32 * (x :: t).length) = 2 ^ 32 * 2 ^ (32 * t.length) := by
        simp only [List.length_cons]
        rw [show 32 * (t.length + 1) = 32 + 32 * t.length by ring, pow_add]
      rw [hexp]
      have hzt : (0:Int) ≤ |zval t| := abs_nonneg _
      nlinarith [ht, hx, habs, hzt]

theorem zval_all_zero (l : List Int) (h : ∀ x ∈ l, x = 0) : zval l = 0 := by
  induction l with
  | nil => rfl
  | cons x t ih =>
      rw [show zval (x :: t) = x + 2 ^ 32 * zval t from rfl,
        h x (List.mem_cons_self _ _), ih (fun y hy => h y (List.mem_cons_of_mem _ hy))]
      ring

/-- Dropping all-zero high words does not change the value. -/
theorem zval_take_of_high_zero (l : List Int) (n : Nat) (hn : n ≤ l.length)
    (h : ∀ j, n ≤ j → l.getD j 0 = 0) : zval (l.take n) = zval l := by
  have hsplit := zval_append (l.take n) (l.drop n)
  rw [List.take_append_drop, List.length_take, min_eq_left hn] at hsplit
  have hdrop : zval (l.drop n) = 0 := by
    refine zval_all_zero _ ?_
    intro x hx
    obtain ⟨j, hj, hget⟩ := List.mem_iff_getElem.mp hx
    rw [List.getElem_drop] at hget
    have := h (n + j) (by omega)
    rw [List.getD_eq_getElem _ _ (by rw [List.length_drop] at hj; omega)] at this
    omega
  rw [hsplit, hdrop]
  ring

/-- zval of a list of natural casts is the unsigned value. -/
theorem zval_map_cast (l : List Nat) :
    zval (l.map (fun (x : Nat) => (x : Int))) = (uval l : Int) := by
  induction l with
  | nil => simp [zval, uval]
  | cons x t ih =>
      simp only [List.map_cons, zval, uval, ih]
      push_cast
      ring

theorem residualWords_mem (ua : Nat) (k : Nat) :
    ∀ x ∈ residualWords ua k,
      0 ≤ x ∧ (x < 2 ^ 32 ∨ x = ((ua / 2 ^ (32 * k) : Nat) : Int)) := by
  induction k generalizing ua with
  | zero =>
      intro x hx
      simp only [residualWords, List.mem_singleton] at hx
      subst hx
      refine ⟨by positivity, Or.inr ?_⟩
      norm_num
  | succ c ih =>
      intro x hx
      simp only [residualWords, List.mem_cons] at hx
      rcases hx with rfl | hx
      · refine ⟨by positivity, Or.inl ?_⟩
        exact_mod_cast Nat.mod_lt _ (show 0 < 2 ^ 32 by norm_num)
      · obtain ⟨h1, h2⟩ := ih (ua / 2 ^ 32) x hx
        refine ⟨h1, ?_⟩
        rcases h2 with h2 | h2
        · exact Or.inl h2
        · refine Or.inr ?_
          rw [h2]
          have hdd : ua / 2 ^ 32 / 2 ^ (32 * c) = ua / 2 ^ (32 * (c + 1)) := by
            rw [Nat.div_div_eq_div_mul, ← pow_add,
              show 32 + 32 * c = 32 * (c + 1) by ring]
          rw [hdd]

/-- Facts about the multiply phase output: its value is the weighted column
    sum, it has 18 words, and every word is an unsigned 32-bit value (the
    last word is small because the total product is). -/
theorem mulPhase_facts (step : MulAcc → Nat → MulAcc) (col : Nat → Nat)
    (hstep : ∀ s i, s.ua < 2 ^ 64 → s.cc = 0 →
      maVal (step s i) = maVal s + col i ∧ (step s i).ua < 2 ^ 64 ∧
      (step s i).cc < 2 ^ 31)
    (cnt : Nat) (hcnt1 : 1 ≤ cnt) (hcnt2 : cnt ≤ 17)
    (hlt : ∑ d ∈ Finset.range cnt, col d * 2 ^ (32 * d) < 2 ^ 576) :
    zval (mulPhase step cnt)
      = ((∑ d ∈ Finset.range cnt, col d * 2 ^ (32 * d) : Nat) : Int) ∧
    (mulPhase step cnt).length = 18 ∧
    (∀ x ∈ mulPhase step cnt, 0 ≤ x ∧ x < 2 ^ 32) := by
  obtain ⟨hv, hl, hw, hu, hc⟩ := mulLoop_val step col hstep cnt 0
    { cc := 0, ua := 0 } (by norm_num) rfl
  have hma0 : (maVal { cc := 0, ua := 0 } : Int) = 0 := by simp [maVal]
  rw [hma0, zero_add] at hv
  have hsum0 : ∑ d ∈ Finset.range cnt, ((col (0 + d) : Nat) : Int) * 2 ^ (32 * d)
      = ∑ d ∈ Finset.range cnt, ((col d : Nat) : Int) * 2 ^ (32 * d) := by
    refine Finset.sum_congr rfl ?_
    intro d _
    rw [Nat.zero_add]
  rw [hsum0] at hv
  have hcast : ((∑ d ∈ Finset.range cnt, col d * 2 ^ (32 * d) : Nat) : Int)
      = ∑ d ∈ Finset.range cnt, ((col d : Nat) : Int) * 2 ^ (32 * d) := by
    push_cast
    rfl
  have hmaplen : ((mulLoop step 0 cnt { cc := 0, ua := 0 }).1.map
      (fun (x : Nat) => (x : Int))).length = cnt := by
    rw [List.length_map, hl]
  have hreslen := (residualWords_zval (mulLoop step 0 cnt { cc := 0, ua := 0 }).2.ua
    (17 - cnt)).2
  have hresval := (residualWords_zval (mulLoop step 0 cnt { cc := 0, ua := 0 }).2.ua
    (17 - cnt)).1
  have hmapnn : 0 ≤ zval ((mulLoop step 0 cnt { cc := 0, ua := 0 }).1.map
      (fun (x : Nat) => (x : Int))) := by
    rw [zval_map_cast]
    exact Int.natCast_nonneg _
  have huabd : (mulLoop step 0 cnt { cc := 0, ua := 0 }).2.ua < 2 ^ (32 * (18 - cnt)) := by
    have h1 : ((mulLoop step 0 cnt { cc := 0, ua := 0 }).2.ua : Int) * 2 ^ (32 * cnt)
        ≤ ∑ d ∈ Finset.range cnt, ((col d : Nat) : Int) * 2 ^ (32 * d) := by
      linarith [hv, hmapnn]
    have h2 : ((mulLoop step 0 cnt { cc := 0, ua := 0 }).2.ua : Int) * 2 ^ (32 * cnt)
        < 2 ^ 576 := by
      calc ((mulLoop step 0 cnt { cc := 0, ua := 0 }).2.ua : Int) * 2 ^ (32 * cnt)
          ≤ ((∑ d ∈ Finset.range cnt, col d * 2 ^ (32 * d) : Nat) : Int) := by
            rw [hcast]; exact h1
        _ < 2 ^ 576 := by exact_mod_cast hlt
    have h3 : (mulLoop step 0 cnt { cc := 0, ua := 0 }).2.ua * 2 ^ (32 * cnt)
        < 2 ^ 576 := by exact_mod_cast h2
    have h4 : (2:Nat) ^ 576 = 2 ^ (32 * (18 - cnt)) * 2 ^ (32 * cnt) := by
      rw [← pow_add, show 32 * (18 - cnt) + 32 * cnt = 576 from by omega]
    rw [h4] at h3
    exact Nat.lt_of_mul_lt_mul_right h3
  refine ⟨?_, ?_, ?_⟩
  · simp only [mulPhase]
    rw [zval_append, hmaplen, hresval, hcast]
    linarith [hv]
  · simp only [mulPhase]
    rw [List.length_append, hmaplen, hreslen]
    omega
  · simp only [mulPhase]
    intro x hx
    rw [List.mem_append] at hx
    rcases hx with hx | hx
    · rw [List.mem_map] at hx
      obtain ⟨y, hy, rfl⟩ := hx
      have := hw y hy
      constructor
      · exact Int.natCast_nonneg _
      · exact_mod_cast this
    · obtain ⟨h1, h2⟩ := residualWords_mem _ _ x hx
      refine ⟨h1, ?_⟩
      rcases h2 with h2 | h2
      · exact h2
      · rw [h2]
        have hdiv : (mulLoop step 0 cnt { cc := 0, ua := 0 }).2.ua / 2 ^ (32 * (17 - cnt))
            < 2 ^ 32 := by
          rw [Nat.div_lt_iff_lt_mul (by positivity), ← pow_add,
            show 32 + 32 * (17 - cnt) = 32 * (18 - cnt) from by omega]
          exact huabd
        exact_mod_cast hdiv

/-- The multiply phase of the normal (a, b distinct) path computes the full
    unsigned product. -/
theorem mulPhaseN_facts (a b : List Nat) (ha : bigWF a) (hb : bigWF b) :
    zval (mulPhase (colStepMul a b (awords a) (awords b)) (awords a + awords b - 1))
      = (uval a : Int) * (uval b : Int) ∧
    (mulPhase (colStepMul a b (awords a) (awords b)) (awords a + awords b - 1)).length
      = 18 ∧
    ∀ x ∈ mulPhase (colStepMul a b (awords a) (awords b)) (awords a + awords b - 1),
      0 ≤ x ∧ x < 2 ^ 32 := by
  obtain ⟨ha1, ha2, ha3⟩ := awords_facts a ha.1
  obtain ⟨hb1, hb2, hb3⟩ := awords_facts b hb.1
  have hconv := convolution_N a b ha hb
  have hP : uval a * uval b < 2 ^ 576 := by
    calc uval a * uval b < 2 ^ 288 * 2 ^ 288 :=
          Nat.mul_lt_mul'' (uval_lt a ha) (uval_lt b hb)
      _ = 2 ^ 576 := by norm_num
  obtain ⟨h1, h2, h3⟩ := mulPhase_facts (colStepMul a b (awords a) (awords b))
    (colN a b (awords a) (awords b))
    (fun s i hu hc => colStepMul_spec a b ha hb (awords a) (awords b) hb2 s i hu hc)
    (awords a + awords b - 1) (by omega) (by omega) (by rw [hconv]; exact hP)
  refine ⟨?_, h2, h3⟩
  rw [h1, hconv]
  push_cast
  ring

/-- The multiply phase of the squaring path computes the full unsigned
    square. -/
theorem mulPhaseSq_facts (a : List Nat) (ha : bigWF a) :
    zval (mulPhase (colStepSq a (awords a)) (2 * awords a - 1))
      = (uval a : Int) * (uval a : Int) ∧
    (mulPhase (colStepSq a (awords a)) (2 * awords a - 1)).length = 18 ∧
    ∀ x ∈ mulPhase (colStepSq a (awords a)) (2 * awords a - 1),
      0 ≤ x ∧ x < 2 ^ 32 := by
  obtain ⟨ha1, ha2, ha3⟩ := awords_facts a ha.1
  have hconv := convolution_N a a ha ha
  have hsum : ∑ d ∈ Finset.range (2 * awords a - 1), colSq a (awords a) d * 2 ^ (32 * d)
      = ∑ d ∈ Finset.range (awords a + awords a - 1),
          colN a a (awords a) (awords a) d * 2 ^ (32 * d) := by
    rw [show awords a + awords a - 1 = 2 * awords a - 1 from by omega]
    refine Finset.sum_congr rfl ?_
    intro d hd
    simp only [Finset.mem_range] at hd
    rw [colSq_eq_colN a (awords a) ha1 ha2 d hd]
  have hP : uval a * uval a < 2 ^ 576 := by
    calc uval a * uval a < 2 ^ 288 * 2 ^ 288 :=
          Nat.mul_lt_mul'' (uval_lt a ha) (uval_lt a ha)
      _ = 2 ^ 576 := by norm_num
  obtain ⟨h1, h2, h3⟩ := mulPhase_facts (colStepSq a (awords a))
    (colSq a (awords a))
    (fun s i hu hc => colStepSq_spec a ha (awords a) ha2 s i hu hc)
    (2 * awords a - 1) (by omega) (by omega)
    (by rw [hsum, hconv]; exact hP)
  refine ⟨?_, h2, h3⟩
  rw [h1, hsum, hconv]
  push_cast
  ring

/-- Entry bound for the sign-corrected accumulator array. -/
theorem negCorrect_mem (a b : List Nat) (ha : bigWF a) (hb : bigWF b)
    (w : List Int) (hmem : ∀ x ∈ w, 0 ≤ x ∧ x < 2 ^ 32) :
    ∀ x ∈ negCorrect a b w, |x| ≤ 2 ^ 35 := by
  have hcorr : ∀ (u : List Int) (c : List Nat) (B : Int),
      (∀ x ∈ u, |x| ≤ B) → (∀ y ∈ c, y < 2 ^ 32) →
      ∀ x ∈ u.take 9 ++ List.zipWith (fun (wi : Int) (ci : Nat) => wi - (ci : Int))
          (u.drop 9) c, |x| ≤ B + 2 ^ 32 := by
    intro u c B hu hcw x hx
    rw [List.mem_append] at hx
    rcases hx with hx | hx
    · have := hu x (List.mem_of_mem_take hx)
      omega
    · obtain ⟨wi, hwi, ci, hci, rfl⟩ := mem_zipWith_decomp hx
      have h1 := hu wi (List.mem_of_mem_drop hwi)
      have h2 := hcw ci hci
      have h3 : |(ci : Int)| < 2 ^ 32 := by
        rw [abs_of_nonneg (Int.natCast_nonneg _)]
        exact_mod_cast h2
      calc |wi - (ci : Int)| ≤ |wi| + |(ci : Int)| := abs_sub _ _
        _ ≤ B + 2 ^ 32 := by omega
  have hw0 : ∀ x ∈ w, |x| ≤ 2 ^ 32 := by
    intro x hx
    have := hmem x hx
    rw [abs_of_nonneg this.1]
    omega
  simp only [negCorrect]
  have hw1 : ∀ x ∈ (if big_is_negative a then
      w.take 9 ++ List.zipWith (fun (wi : Int) (bi : Nat) => wi - (bi : Int))
        (w.drop 9) b else w), |x| ≤ 2 ^ 32 + 2 ^ 32 := by
    split
    · intro x hx
      have := hcorr w b (2 ^ 32) hw0 (fun y hy => hb.2 y hy) x hx
      omega
    · intro x hx
      have := hw0 x hx
      omega
  have hw2 : ∀ x ∈ (if big_is_negative b then
      (if big_is_negative a then
        w.take 9 ++ List.zipWith (fun (wi : Int) (bi : Nat) => wi - (bi : Int))
          (w.drop 9) b else w).take 9 ++
        List.zipWith (fun (wi : Int) (ai : Nat) => wi - (ai : Int))
          ((if big_is_negative a then
            w.take 9 ++ List.zipWith (fun (wi : Int) (bi : Nat) => wi - (bi : Int))
              (w.drop 9) b else w).drop 9) a
      else (if big_is_negative a then
        w.take 9 ++ List.zipWith (fun (wi : Int) (bi : Nat) => wi - (bi : Int))
          (w.drop 9) b else w)), |x| ≤ 2 ^ 32 + 2 ^ 32 + 2 ^ 32 := by
    split
    · intro x hx
      have := hcorr _ a (2 ^ 32 + 2 ^ 32) hw1 (fun y hy => ha.2 y hy) x hx
      omega
    · intro x hx
      have := hw1 x hx
      omega
  split
  · intro x hx
    rcases List.mem_or_eq_of_mem_set hx with hx2 | rfl
    · have := hw2 x hx2
      omega
    · have := getD_abs_of_mem _ _ (by norm_num) hw2 17
      calc |_| ≤ |_| + |(2:Int) ^ 32| := abs_add _ _
        _ ≤ 2 ^ 35 := by
            rw [show |(2:Int) ^ 32| = 2 ^ 32 from abs_of_nonneg (by norm_num)]
            omega
  · intro x hx
    have := hw2 x hx
    omega

/-- The signed product as the unsigned product with two's-complement
    corrections (the comment block before the correction loops). -/
theorem sval_mul_split (a b : List Nat) :
    sval a * sval b
      = (uval a : Int) * (uval b : Int)
        - (if big_is_negative a then (2:Int) ^ 288 * (uval b : Int) else 0)
        - (if big_is_negative b then (2:Int) ^ 288 * (uval a : Int) else 0)
        + (if big_is_negative a ∧ big_is_negative b then (2:Int) ^ 576 else 0) := by
  unfold sval big_is_negative
  simp only [decide_eq_true_eq]
  split_ifs <;> first | (exfalso; tauto) | ring

theorem uval_zero_mem (l : List Nat) (h : uval l = 0) : ∀ x ∈ l, x = 0 := by
  induction l with
  | nil => intro x hx; simp at hx
  | cons y t ih =>
      have hy : y = 0 ∧ uval t = 0 := by
        have : y + 2 ^ 32 * uval t = 0 := h
        omega
      intro x hx
      rcases List.mem_cons.mp hx with rfl | hx
      · exact hy.1
      · exact ih hy.2 x hx

theorem sval_zero_of_uval_zero (a : List Nat) (h : uval a = 0) : sval a = 0 := by
  have hm : msw a = 0 := by
    unfold msw
    rcases lt_or_le MSW a.length with hk | hk
    · rw [List.getD_eq_getElem a 0 hk]
      exact uval_zero_mem a h _ (List.getElem_mem hk)
    · exact List.getD_eq_default _ _ hk
  unfold sval
  rw [h, hm, if_neg (by norm_num)]
  norm_num

/-- The approximate reduction step: congruent mod p and brings any
    representable value into (-2^255, 2^257). -/
theorem big_approx_reduceP_facts (x : List Nat) (h : bigWF x) :
    bigWF (big_approx_reduceP x) ∧
    Int.ModEq (pVal : Int) (sval (big_approx_reduceP x)) (sval x) ∧
    -(2 ^ 255) ≤ sval (big_approx_reduceP x) ∧
    sval (big_approx_reduceP x) < 2 ^ 257 := by
  unfold big_approx_reduceP
  have hk := toSigned32_bounds (msw x) (msw_lt x h)
  have hdec := sval_decomp x h
  have hlow := lowval_lt x h
  have hlow2 : (uval (x.take 8) : Int) < 2 ^ 256 := by exact_mod_cast hlow
  have hlow0 : (0:Int) ≤ (uval (x.take 8) : Int) := Int.natCast_nonneg _
  have hpv : (pVal : Int) = 2 ^ 256 - 2 ^ 224 + 2 ^ 192 + 2 ^ 96 - 1 := by
    rw [pVal]; norm_num
  have hval : sval x + (-(toSigned32 (msw x))) * (pVal : Int)
      = (uval (x.take 8) : Int)
        + toSigned32 (msw x) * (2 ^ 224 - 2 ^ 192 - 2 ^ 96 + 1) := by
    rw [hdec, hpv]
    ring
  have hb1 : -(2 ^ 255) ≤ sval x + (-(toSigned32 (msw x))) * (pVal : Int) := by
    rw [hval]
    nlinarith [hk.1, hk.2, hlow0]
  have hb2 : sval x + (-(toSigned32 (msw x))) * (pVal : Int) < 2 ^ 257 := by
    rw [hval]
    nlinarith [hk.1, hk.2, hlow2, hlow0]
  have hadj := big_adjustP_sval x (-(toSigned32 (msw x))) h
    (by linarith) (by linarith)
  refine ⟨big_adjustP_wf x _ h, ?_, by omega, by omega⟩
  rw [hadj]
  unfold Int.ModEq
  rw [show sval x + (-(toSigned32 (msw x))) * (pVal : Int)
      = sval x + (pVal : Int) * (-(toSigned32 (msw x))) by ring,
    Int.add_mul_emod_self_left]

/-- The common tail of the mod-modulus path of big_mpyP: sign correction,
    sparse reduction, carry copy-out and approximate reduction, starting from
    any 18-word accumulator holding the unsigned product. -/
theorem mpy_core_mod (a b : List Nat) (ha : bigWF a) (hb : bigWF b)
    (w : List Int)
    (hwv : zval w = (uval a : Int) * (uval b : Int))
    (hwlen : w.length = 18)
    (hwmem : ∀ x ∈ w, 0 ≤ x ∧ x < 2 ^ 32) :
    bigWF (big_approx_reduceP
      (carrySteps 0 ((redLoopAux (negCorrect a b w) 10).take 9))) ∧
    Int.ModEq (pVal : Int)
      (sval (big_approx_reduceP
        (carrySteps 0 ((redLoopAux (negCorrect a b w) 10).take 9))))
      (sval a * sval b) ∧
    -(2 ^ 255) ≤ sval (big_approx_reduceP
      (carrySteps 0 ((redLoopAux (negCorrect a b w) 10).take 9))) ∧
    sval (big_approx_reduceP
      (carrySteps 0 ((redLoopAux (negCorrect a b w) 10).take 9))) < 2 ^ 257 := by
  obtain ⟨hnc1, hnc2⟩ := negCorrect_zval a b ha hb w hwlen
  have hncm := negCorrect_mem a b ha hb w hwmem
  have hncv : zval (negCorrect a b w) = sval a * sval b := by
    rw [hnc1, hwv, sval_mul_split a b]
  have hgetD := getD_abs_of_mem _ (2 ^ 35) (by norm_num) hncm
  obtain ⟨hr1, hr2, hr3⟩ := redLoopAux_facts 10 (le_refl _) (negCorrect a b w)
    hnc2 (2 ^ 35) hgetD
    (fun j hj => List.getD_eq_default _ _ (by omega))
  have hwrlen : (redLoopAux (negCorrect a b w) 10).length = 18 := by
    rw [redLoopAux_length, hnc2]
  have ht9 : zval ((redLoopAux (negCorrect a b w) 10).take 9)
      = zval (redLoopAux (negCorrect a b w) 10) :=
    zval_take_of_high_zero _ 9 (by omega) (fun j hj => hr3 j (by omega))
  have ht8 : zval ((redLoopAux (negCorrect a b w) 10).take 8)
      = zval (redLoopAux (negCorrect a b w) 10) :=
    zval_take_of_high_zero _ 8 (by omega) (fun j hj => hr3 j (by omega))
  have ht8len : ((redLoopAux (negCorrect a b w) 10).take 8).length = 8 := by
    rw [List.length_take, hwrlen]
    norm_num
  have ht8mem : ∀ x ∈ (redLoopAux (negCorrect a b w) 10).take 8,
      |x| ≤ 2 ^ 10 * 2 ^ 35 := by
    intro x hx
    exact abs_le_of_getD _ _ hr2 x (List.mem_of_mem_take hx)
  have hzb := zval_abs_le _ _ ht8mem
  rw [ht8len] at hzb
  have hzwr : |zval (redLoopAux (negCorrect a b w) 10)| < 2 ^ 287 := by
    rw [← ht8]
    by_contra hcon
    push_neg at hcon
    have h1 : (2:Int) ^ 287 * (2 ^ 32 - 1)
        ≤ |zval ((redLoopAux (negCorrect a b w) 10).take 8)| * (2 ^ 32 - 1) :=
      mul_le_mul_of_nonneg_right hcon (by norm_num)
    have h2 : ¬((2:Int) ^ 287 * (2 ^ 32 - 1) ≤ 2 ^ 10 * 2 ^ 35 * (2 ^ (32 * 8) - 1)) := by
      norm_num
    exact h2 (le_trans h1 hzb)
  have htlen : ((redLoopAux (negCorrect a b w) 10).take 9).length = 9 := by
    rw [List.length_take, hwrlen]
    norm_num
  have htgtWF : bigWF (carrySteps 0 ((redLoopAux (negCorrect a b w) 10).take 9)) := by
    constructor
    · rw [carrySteps_length, htlen]
    · exact carrySteps_words_lt _ _
  have htu := carrySteps_uval 0 ((redLoopAux (negCorrect a b w) 10).take 9)
  rw [htlen, zero_add, ht9] at htu
  obtain ⟨hzl, hzh⟩ := abs_lt.mp hzwr
  have hsv : sval (carrySteps 0 ((redLoopAux (negCorrect a b w) 10).take 9))
      = zval (redLoopAux (negCorrect a b w) 10) := by
    refine sval_of_uval _ _ htgtWF ?_ (by omega) (by omega)
    rw [htu]
  obtain ⟨hap1, hap2, hap3, hap4⟩ := big_approx_reduceP_facts _ htgtWF
  refine ⟨hap1, ?_, hap3, hap4⟩
  rw [hsv] at hap2
  exact hap2.trans (by rw [← hncv]; exact hr1)

/-- Correctness of big_mpyP in mod-modulus mode: the result is well formed and
    congruent to the signed product mod p, over both the normal and the
    squaring column paths, and including the zero short-circuit. -/
theorem big_mpyP_mod_modulus (a b : List Nat) (ha : bigWF a) (hb : bigWF b) :
    bigWF (big_mpyP a b ModselT.mod_modulus) ∧
    Int.ModEq (pVal : Int) (sval (big_mpyP a b ModselT.mod_modulus))
      (sval a * sval b) ∧
    -(2 ^ 255) ≤ sval (big_mpyP a b ModselT.mod_modulus) ∧
    sval (big_mpyP a b ModselT.mod_modulus) < 2 ^ 257 := by
  by_cases hz : (big_is_zero a || big_is_zero b) = true
  · have he : big_mpyP a b ModselT.mod_modulus = big_zero := by
      unfold big_mpyP
      rw [if_pos hz]
    rw [he]
    have hzero : sval a * sval b = 0 := by
      rcases Bool.or_eq_true_iff.mp hz with h | h
      · rw [sval_zero_of_uval_zero a ((big_is_zero_iff a).mp h)]
        ring
      · rw [sval_zero_of_uval_zero b ((big_is_zero_iff b).mp h)]
        ring
    refine ⟨by decide, ?_, by decide, by decide⟩
    rw [hzero, show sval big_zero = 0 from by decide]
  · rw [Bool.not_eq_true] at hz
    simp only [big_mpyP, hz, Bool.false_eq_true, if_false]
    by_cases hab : a = b
    · simp only [hab, ne_eq, eq_self_iff_true, not_true_eq_false, if_false, if_true]
      obtain ⟨h1, h2, h3⟩ := mulPhaseSq_facts b hb
      exact mpy_core_mod b b hb hb _ h1 h2 h3
    · simp only [ne_eq, hab, not_false_eq_true, eq_self_iff_true, if_true]
      obtain ⟨h1, h2, h3⟩ := mulPhaseN_facts a b ha hb
      exact mpy_core_mod a b ha hb _ h1 h2 h3

/-- C1: for all representable 9-word values a and b, multiplying with
    big_mpyP under the curve-modulus mode and then applying
    big_precise_reduce with the curve modulus yields exactly
    (a * b) mod p256 computed over the unbounded integers (the
    arbitrary-precision reference); and if a or b is zero the product
    short-circuits to zero. -/
theorem C1_mpy_then_reduce_exact (a b : List Nat) (ha : bigWF a) (hb : bigWF b) :
    (∃ r, big_precise_reduce (big_mpyP a b ModselT.mod_modulus) modulusP = some r ∧
      bigWF r ∧ (uval r : Int) = (sval a * sval b) % (pVal : Int)) ∧
    ((big_is_zero a || big_is_zero b) = true →
      big_mpyP a b ModselT.mod_modulus = big_zero) := by
  obtain ⟨hwf, hmod, hlo, hhi⟩ := big_mpyP_mod_modulus a b ha hb
  obtain ⟨r, hr1, hr2, hr3, hr4⟩ := big_precise_reduce_ok _ modulusP hwf
    (by decide) (by decide) (by decide)
  rw [uval_modulusP] at hr3 hr4
  refine ⟨⟨r, hr1, hr2, ?_⟩, ?_⟩
  · have h6 : (uval r : Int) % (pVal : Int) = (sval a * sval b) % (pVal : Int) :=
      hr4.trans hmod
    rw [← h6]
    refine (Int.emod_eq_of_lt (Int.natCast_nonneg _) ?_).symm
    exact_mod_cast hr3
  · intro hz
    unfold big_mpyP
    rw [if_pos hz]

theorem C1_witness :
    bigWF big_one ∧
    ((∃ r, big_precise_reduce (big_mpyP big_one big_one ModselT.mod_modulus) modulusP
        = some r ∧ bigWF r ∧
        (uval r : Int) = (sval big_one * sval big_one) % (pVal : Int)) ∧
     ((big_is_zero big_one || big_is_zero big_one) = true →
       big_mpyP big_one big_one ModselT.mod_modulus = big_zero)) :=
  ⟨by decide, C1_mpy_then_reduce_exact big_one big_one (by decide) (by decide)⟩

/-- C4: for every representable input value and each supported modulus (the
    curve modulus and the curve order), big_precise_reduce terminates (returns
    a result within the fuel bound) with a value congruent to the input in the
    canonical range [0, modulus). -/
theorem C4_precise_reduce_canonical (a : List Nat) (ha : bigWF a) (m : List Nat)
    (hm : m = modulusP ∨ m = orderP) :
    ∃ r, big_precise_reduce a m = some r ∧ bigWF r ∧ uval r < uval m ∧
      Int.ModEq (uval m) (uval r) (sval a) := by
  rcases hm with rfl | rfl
  · exact big_precise_reduce_ok a modulusP ha (by decide) (by decide) (by decide)
  · exact big_precise_reduce_ok a orderP ha (by decide) (by decide) (by decide)

theorem C4_witness :
    bigWF big_one ∧ (modulusP = modulusP ∨ modulusP = orderP) ∧
    (∃ r, big_precise_reduce big_one modulusP = some r ∧ bigWF r ∧
      uval r < uval modulusP ∧ Int.ModEq (uval modulusP) (uval r) (sval big_one)) :=
  ⟨by decide, Or.inl rfl,
    C4_precise_reduce_canonical big_one (by decide) modulusP (Or.inl rfl)⟩

/- ------------------------------------------------------------------ -/
/- Point operations.                                                   -/
/- ------------------------------------------------------------------ -/

/-- big_triple: computes 3 * a by adding each word three times into a 64-bit
    accumulator (the shift is equivalent to arithmetic shift here, as the
    source's comment notes). -/
def big_triple (a : List Nat) : List Nat :=
  carrySteps 0 (a.map (fun (x : Nat) => (x : Int) + (x : Int) + (x : Int)))

/-- big_addP: modular addition with approximate reduction. -/
def big_addP (a b : List Nat) : List Nat := big_approx_reduceP (big_add a b)

/-- big_subP: modular subtraction with approximate reduction. -/
def big_subP (a b : List Nat) : List Nat := big_approx_reduceP (big_sub a b)

/-- big_halveP: tgt such that 2 * tgt === a (mod modulusP); requires a
    precisely reduced. -/
def big_halveP (a : List Nat) : List Nat :=
  if big_is_odd a then big_halve (big_adjustP a 1) else big_halve a

/-- A Jacobian point (X, Y, Z). -/
structure JacPt where
  X : List Nat
  Y : List Nat
  Z : List Nat
deriving DecidableEq

/-- An affine point (x, y) with an infinity flag. -/
structure AffPt where
  x : List Nat
  y : List Nat
  infinity : Bool
deriving DecidableEq

/-- The Jacobian representation (1, 1, 0) of the infinite point. -/
def jacobian_infinity : JacPt := ⟨big_one, big_one, big_zero⟩

/-- The affine infinite point. -/
def affine_infinity : AffPt := ⟨big_zero, big_zero, true⟩

/-- toJacobian: lift an affine point with Z = 1. -/
def toJacobian (q : AffPt) : JacPt := ⟨q.x, q.y, big_one⟩

/-- pointDouble: Jacobian doubling from [HMV] Algorithm 3.21, returning none
    only if the final precise reduction of Z runs out of fuel. -/
def pointDouble (P : JacPt) : Option JacPt :=
  if big_is_zero P.Z then some jacobian_infinity
  else
    let t1 := big_sqrP P.Z
    let t2 := big_triple (big_mpyP (big_subP P.X t1) (big_addP P.X t1)
      ModselT.mod_modulus)
    let y3 := big_addP P.Y P.Y
    let z3 := big_mpyP y3 P.Z ModselT.mod_modulus
    let y3b := big_sqrP y3
    let t3 := big_mpyP y3b P.X ModselT.mod_modulus
    let y3d := big_halveP (big_sqrP y3b)
    let X3 := big_subP (big_sqrP t2) (big_addP t3 t3)
    let Y3 := big_subP (big_mpyP (big_subP t3 X3) t2 ModselT.mod_modulus) y3d
    (big_precise_reduce z3 modulusP).map (fun Z3 => ⟨X3, Y3, Z3⟩)

/-- The general (distinct points) branch of pointAdd: t1 is the reduced
    difference of x parts, t2 the unreduced difference of y parts. -/
def pointAddGen (P : JacPt) (t1 t2 : List Nat) : Option JacPt :=
  (big_precise_reduce (big_mpyP P.Z t1 ModselT.mod_modulus) modulusP).map
    (fun z3 =>
      let t3 := big_sqrP t1
      let t4 := big_mpyP t3 t1 ModselT.mod_modulus
      let t3b := big_mpyP t3 P.X ModselT.mod_modulus
      let X3 := big_subP (big_subP (big_sqrP t2) (big_addP t3b t3b)) t4
      let Y3 := big_subP (big_mpyP (big_subP t3b X3) t2 ModselT.mod_modulus)
        (big_mpyP t4 P.Y ModselT.mod_modulus)
      ⟨X3, Y3, z3⟩)

/-- pointAdd: mixed-coordinate addition from [HMV] Algorithm 3.22, with the
    four special cases of the source. -/
def pointAdd (P : JacPt) (Q : AffPt) : Option JacPt :=
  if Q.infinity then some P
  else if big_is_zero P.Z then some (toJacobian Q)
  else
    let zz := big_sqrP P.Z
    let zzz := big_mpyP zz P.Z ModselT.mod_modulus
    let t1 := big_subP (big_mpyP zz Q.x ModselT.mod_modulus) P.X
    let t2 := big_subP (big_mpyP zzz Q.y ModselT.mod_modulus) P.Y
    (big_precise_reduce t1 modulusP).bind (fun t1r =>
      if big_is_zero t1r then
        (big_precise_reduce t2 modulusP).bind (fun t2r =>
          if big_is_zero t2r then pointDouble (toJacobian Q)
          else some jacobian_infinity)
      else pointAddGen P t1r t2)

theorem sval_msw_zero_of_lt (a : List Nat) (h : bigWF a) (hlt : uval a < 2 ^ 256) :
    sval a = (uval a : Int) := by
  have hsum := uval_eq_sum a 9 (le_of_eq h.1)
  have hterm : a.getD 8 0 * 2 ^ (32 * 8) ≤ uval a := by
    rw [hsum]
    exact Finset.single_le_sum (f := fun k => a.getD k 0 * 2 ^ (32 * k))
      (fun k _ => Nat.zero_le _) (by norm_num)
  have hmsw : msw a = 0 := by
    unfold msw MSW
    by_contra hne
    have : 2 ^ (32 * 8) ≤ a.getD 8 0 * 2 ^ (32 * 8) :=
      Nat.le_mul_of_pos_left _ (by omega)
    norm_num at this
    omega
  exact (msw_zero_sval a h hmsw).1

/-- The value of a big_add as a signed quantity, exact when in range. -/
theorem big_add_sval (a b : List Nat) (ha : bigWF a) (hb : bigWF b)
    (h1 : -(2 ^ 287) ≤ sval a + sval b) (h2 : sval a + sval b < 2 ^ 287) :
    sval (big_add a b) = sval a + sval b := by
  refine sval_of_uval _ _ (big_add_wf a b ha.1 hb.1) ?_ h1 h2
  rw [big_add_uval a b ha.1 hb.1]
  have hme : Int.ModEq (2 ^ 288) ((uval a : Int) + (uval b : Int)) (sval a + sval b) := by
    refine Int.ModEq.add ?_ ?_ <;> unfold Int.ModEq
    · rw [sval_emod a ha,
        Int.emod_eq_of_lt (Int.natCast_nonneg _) (by exact_mod_cast uval_lt a ha)]
    · rw [sval_emod b hb,
        Int.emod_eq_of_lt (Int.natCast_nonneg _) (by exact_mod_cast uval_lt b hb)]
  exact hme

/-- The value of a big_sub as a signed quantity, exact when in range. -/
theorem big_sub_sval (a b : List Nat) (ha : bigWF a) (hb : bigWF b)
    (h1 : -(2 ^ 287) ≤ sval a - sval b) (h2 : sval a - sval b < 2 ^ 287) :
    sval (big_sub a b) = sval a - sval b := by
  refine sval_of_uval _ _ (big_sub_wf a b ha.1 hb.1) ?_ h1 h2
  rw [big_sub_uval a b ha.1 hb.1]
  have hme : Int.ModEq (2 ^ 288) ((uval a : Int) - (uval b : Int)) (sval a - sval b) := by
    refine Int.ModEq.sub ?_ ?_ <;> unfold Int.ModEq
    · rw [sval_emod a ha,
        Int.emod_eq_of_lt (Int.natCast_nonneg _) (by exact_mod_cast uval_lt a ha)]
    · rw [sval_emod b hb,
        Int.emod_eq_of_lt (Int.natCast_nonneg _) (by exact_mod_cast uval_lt b hb)]
  exact hme

/-- big_addP: well-formed, congruent to the exact sum mod p, magnitude
    bounded, for operands of moderate magnitude. -/
theorem big_addP_facts (a b : List Nat) (ha : bigWF a) (hb : bigWF b)
    (hsa : |sval a| ≤ 2 ^ 260) (hsb : |sval b| ≤ 2 ^ 260) :
    bigWF (big_addP a b) ∧
    Int.ModEq (pVal : Int) (sval (big_addP a b)) (sval a + sval b) ∧
    -(2 ^ 255) ≤ sval (big_addP a b) ∧ sval (big_addP a b) < 2 ^ 257 := by
  obtain ⟨ha1, ha2⟩ := abs_le.mp hsa
  obtain ⟨hb1, hb2⟩ := abs_le.mp hsb
  have hex := big_add_sval a b ha hb (by omega) (by omega)
  obtain ⟨h1, h2, h3, h4⟩ := big_approx_reduceP_facts (big_add a b)
    (big_add_wf a b ha.1 hb.1)
  rw [hex] at h2
  exact ⟨h1, h2, h3, h4⟩

/-- big_subP: well-formed, congruent to the exact difference mod p, magnitude
    bounded, for operands of moderate magnitude. -/
theorem big_subP_facts (a b : List Nat) (ha : bigWF a) (hb : bigWF b)
    (hsa : |sval a| ≤ 2 ^ 260) (hsb : |sval b| ≤ 2 ^ 260) :
    bigWF (big_subP a b) ∧
    Int.ModEq (pVal : Int) (sval (big_subP a b)) (sval a - sval b) ∧
    -(2 ^ 255) ≤ sval (big_subP a b) ∧ sval (big_subP a b) < 2 ^ 257 := by
  obtain ⟨ha1, ha2⟩ := abs_le.mp hsa
  obtain ⟨hb1, hb2⟩ := abs_le.mp hsb
  have hex := big_sub_sval a b ha hb (by omega) (by omega)
  obtain ⟨h1, h2, h3, h4⟩ := big_approx_reduceP_facts (big_sub a b)
    (big_sub_wf a b ha.1 hb.1)
  rw [hex] at h2
  exact ⟨h1, h2, h3, h4⟩

theorem zval_map_triple (a : List Nat) :
    zval (a.map (fun (x : Nat) => (x : Int) + (x : Int) + (x : Int)))
      = 3 * (uval a : Int) := by
  induction a with
  | nil => simp [zval, uval]
  | cons x t ih =>
      simp only [List.map_cons, zval, uval, ih]
      push_cast
      ring

/-- big_triple: exact tripling as a signed value when in range. -/
theorem big_triple_sval (a : List Nat) (ha : bigWF a)
    (h1 : -(2 ^ 287) ≤ 3 * sval a) (h2 : 3 * sval a < 2 ^ 287) :
    bigWF (big_triple a) ∧ sval (big_triple a) = 3 * sval a := by
  have hwf : bigWF (big_triple a) := by
    constructor
    · rw [big_triple, carrySteps_length, List.length_map, ha.1]
    · exact carrySteps_words_lt _ _
  refine ⟨hwf, sval_of_uval _ _ hwf ?_ h1 h2⟩
  rw [big_triple, carrySteps_uval, zval_map_triple, List.length_map, ha.1, zero_add]
  have hme : Int.ModEq (2 ^ 288) (3 * (uval a : Int)) (3 * sval a) := by
    refine Int.ModEq.mul_left 3 ?_
    unfold Int.ModEq
    rw [sval_emod a ha,
      Int.emod_eq_of_lt (Int.natCast_nonneg _) (by exact_mod_cast uval_lt a ha)]
  rw [show (32 * 9) = 288 from by norm_num]
  exact hme

/-- big_halveP: for a precisely reduced argument, an exact modular halving
    into the canonical range. -/
theorem big_halveP_facts (a : List Nat) (ha : bigWF a) (hlt : uval a < pVal) :
    bigWF (big_halveP a) ∧
    Int.ModEq (pVal : Int) (2 * sval (big_halveP a)) (sval a) ∧
    0 ≤ sval (big_halveP a) ∧ sval (big_halveP a) < (pVal : Int) := by
  have hp : uval a < 2 ^ 256 := lt_trans hlt (by norm_num [pVal])
  have hsa := sval_msw_zero_of_lt a ha hp
  have hpint : (pVal : Int) = 2 ^ 256 - 2 ^ 224 + 2 ^ 192 + 2 ^ 96 - 1 := by
    rw [pVal]; norm_num
  have hltI : (uval a : Int) < (pVal : Int) := by exact_mod_cast hlt
  unfold big_halveP
  split
  · rename_i hodd
    have hoddv := (big_is_odd_iff a ha.1).mp hodd
    have hadj := big_adjustP_sval a 1 ha (by omega) (by omega)
    have hwf1 := big_adjustP_wf a 1 ha
    have hhv := big_halve_sval (big_adjustP a 1) hwf1
    rw [hadj, hsa] at hhv
    have heven : ((uval a : Int) + 1 * (pVal : Int)) % 2 = 0 := by
      omega
    have hdiv : 2 * (((uval a : Int) + 1 * (pVal : Int)) / 2)
        = (uval a : Int) + 1 * (pVal : Int) := by
      omega
    refine ⟨big_halve_wf _ hwf1, ?_, ?_, ?_⟩
    · rw [hhv, hdiv]
      rw [show (uval a : Int) + 1 * (pVal : Int)
          = (uval a : Int) + (pVal : Int) * 1 by ring]
      unfold Int.ModEq
      rw [Int.add_mul_emod_self_left, hsa]
    · rw [hhv]
      positivity
    · rw [hhv]
      omega
  · rename_i hodd
    have hoddv : uval a % 2 = 0 := by
      have := big_is_odd_iff a ha.1
      rcases Nat.mod_two_eq_zero_or_one (uval a) with h | h
      · exact h
      · exact absurd (this.mpr h) hodd
    have hhv := big_halve_sval a ha
    rw [hsa] at hhv
    have hdiv : 2 * ((uval a : Int) / 2) = (uval a : Int) := by
      omega
    refine ⟨big_halve_wf _ ha, ?_, ?_, ?_⟩
    · rw [hhv, hdiv, hsa]
    · rw [hhv]
      positivity
    · rw [hhv]
      omega

/-- The canonical residue produced by big_precise_reduce mod p is zero exactly
    when the input is divisible by p. -/
theorem precise_reduce_zero_iff (a r : List Nat) (ha : bigWF a)
    (h : big_precise_reduce a modulusP = some r) :
    bigWF r ∧ uval r < pVal ∧ Int.ModEq (pVal : Int) (uval r) (sval a) ∧
    (big_is_zero r = true ↔ Int.ModEq (pVal : Int) (sval a) 0) := by
  obtain ⟨r2, h2, hwf, hlt, hmod⟩ := big_precise_reduce_ok a modulusP ha
    (by decide) (by decide) (by decide)
  rw [uval_modulusP] at hlt hmod
  rw [h] at h2
  obtain rfl := Option.some.inj h2
  refine ⟨hwf, hlt, hmod, ?_⟩
  rw [big_is_zero_iff]
  constructor
  · intro hz
    have : (uval r : Int) = 0 := by exact_mod_cast hz
    rw [← this]
    exact hmod.symm
  · intro hm
    have h0 : Int.ModEq (pVal : Int) (uval r) 0 := hmod.trans hm
    unfold Int.ModEq at h0
    rw [Int.zero_emod,
      Int.emod_eq_of_lt (Int.natCast_nonneg _) (by exact_mod_cast hlt)] at h0
    exact_mod_cast h0

theorem big_addP_wf (a b : List Nat) (ha : a.length = 9) (hb : b.length = 9) :
    bigWF (big_addP a b) :=
  big_adjustP_wf _ _ (big_add_wf a b ha hb)

theorem big_subP_wf (a b : List Nat) (ha : a.length = 9) (hb : b.length = 9) :
    bigWF (big_subP a b) :=
  big_adjustP_wf _ _ (big_sub_wf a b ha hb)

/-- The Z coordinate returned by pointDouble is precisely reduced. -/
theorem pointDouble_Z_facts (P : JacPt) (hPY : bigWF P.Y) (hPZ : bigWF P.Z) :
    ∀ R, pointDouble P = some R → bigWF R.Z ∧ uval R.Z < pVal := by
  intro R hR
  simp only [pointDouble] at hR
  split at hR
  · obtain rfl := Option.some.inj hR
    exact ⟨by decide, by decide⟩
  · obtain ⟨Z3, hz, hR2⟩ := Option.map_eq_some'.mp hR
    have hwfy3 : bigWF (big_addP P.Y P.Y) := big_addP_wf _ _ hPY.1 hPY.1
    have hwfz3 : bigWF (big_mpyP (big_addP P.Y P.Y) P.Z ModselT.mod_modulus) :=
      (big_mpyP_mod_modulus _ _ hwfy3 hPZ).1
    obtain ⟨h1, h2, h3, h4⟩ := precise_reduce_zero_iff _ _ hwfz3 hz
    rw [← hR2]
    exact ⟨h1, h2⟩

/-- C6: every Jacobian point produced by pointDouble, and every Jacobian
    point produced by pointAdd other than the pass-through case of an
    infinite affine operand, has a precisely reduced Z coordinate
    (0 ≤ Z < curve modulus), re-establishing the precise-Z precondition of
    pointDouble and toAffine along any chain of point operations. -/
theorem C6_point_ops_reduce_Z (P : JacPt) (Q : AffPt)
    (hPX : bigWF P.X) (hPY : bigWF P.Y) (hPZ : bigWF P.Z)
    (hQx : bigWF Q.x) (hQy : bigWF Q.y) :
    (∀ R, pointDouble P = some R → bigWF R.Z ∧ uval R.Z < pVal) ∧
    (∀ R, Q.infinity = false → pointAdd P Q = some R →
      bigWF R.Z ∧ uval R.Z < pVal) := by
  refine ⟨pointDouble_Z_facts P hPY hPZ, ?_⟩
  intro R hQi hR
  simp only [pointAdd, hQi, Bool.false_eq_true, if_false] at hR
  split at hR
  · obtain rfl := Option.some.inj hR
    exact ⟨(by decide : bigWF big_one), (by decide : uval big_one < pVal)⟩
  · obtain ⟨t1r, ht1, hrest⟩ := Option.bind_eq_some.mp hR
    split at hrest
    · obtain ⟨t2r, ht2, hrest2⟩ := Option.bind_eq_some.mp hrest
      split at hrest2
      · exact pointDouble_Z_facts (toJacobian Q) hQy
          ((by decide : bigWF big_one)) R hrest2
      · obtain rfl := Option.some.inj hrest2
        exact ⟨by decide, by decide⟩
    · unfold pointAddGen at hrest
      obtain ⟨z3, hz3, hR2⟩ := Option.map_eq_some'.mp hrest
      have hwft1 : bigWF (big_subP
          (big_mpyP (big_sqrP P.Z) Q.x ModselT.mod_modulus) P.X) :=
        big_subP_wf _ _
          (big_mpyP_mod_modulus _ _
            (big_mpyP_mod_modulus P.Z P.Z hPZ hPZ).1 hQx).1.1 hPX.1
      have hwft1r : bigWF t1r := (precise_reduce_zero_iff _ _ hwft1 ht1).1
      have hwfm : bigWF (big_mpyP P.Z t1r ModselT.mod_modulus) :=
        (big_mpyP_mod_modulus _ _ hPZ hwft1r).1
      obtain ⟨h1, h2, h3, h4⟩ := precise_reduce_zero_iff _ _ hwfm hz3
      rw [← hR2]
      exact ⟨h1, h2⟩

theorem big_sqrP_facts (a : List Nat) (ha : bigWF a) :
    bigWF (big_sqrP a) ∧
    Int.ModEq (pVal : Int) (sval (big_sqrP a)) (sval a ^ 2) ∧
    -(2 ^ 255) ≤ sval (big_sqrP a) ∧ sval (big_sqrP a) < 2 ^ 257 := by
  obtain ⟨h1, h2, h3, h4⟩ := big_mpyP_mod_modulus a a ha ha
  refine ⟨h1, ?_, h3, h4⟩
  rw [pow_two]
  exact h2

theorem window_abs (s : Int) (h1 : -(2 ^ 255) ≤ s) (h2 : s < 2 ^ 257) :
    |s| ≤ 2 ^ 260 :=
  abs_le.mpr ⟨by omega, by omega⟩

set_option maxHeartbeats 1600000 in
/-- The general branch of pointAdd: it succeeds and its output satisfies the
    standard mixed-addition formulas as congruences mod p, in terms of the
    reduced x-difference t1r and the unreduced y-difference t2. -/
theorem pointAddGen_facts (P : JacPt) (t1r t2 : List Nat)
    (hPX : bigWF P.X) (hPY : bigWF P.Y) (hPZ : bigWF P.Z)
    (hXb : |sval P.X| ≤ 2 ^ 260) (hYb : |sval P.Y| ≤ 2 ^ 260)
    (ht1wf : bigWF t1r) (ht1lt : uval t1r < pVal)
    (ht2wf : bigWF t2) (ht2b : |sval t2| ≤ 2 ^ 260) :
    ∃ R, pointAddGen P t1r t2 = some R ∧
      Int.ModEq (pVal : Int) (sval R.X)
        (sval t2 ^ 2 - 2 * sval P.X * (uval t1r : Int) ^ 2
          - (uval t1r : Int) ^ 3) ∧
      Int.ModEq (pVal : Int) (sval R.Y)
        (sval t2 * ((uval t1r : Int) ^ 2 * sval P.X - sval R.X)
          - (uval t1r : Int) ^ 3 * sval P.Y) ∧
      Int.ModEq (pVal : Int) (uval R.Z) (sval P.Z * (uval t1r : Int)) ∧
      bigWF R.X ∧ bigWF R.Y ∧ bigWF R.Z ∧ uval R.Z < pVal ∧
      |sval R.X| ≤ 2 ^ 260 ∧ |sval R.Y| ≤ 2 ^ 260 := by
  have hsvt1r : sval t1r = (uval t1r : Int) :=
    sval_msw_zero_of_lt t1r ht1wf (lt_trans ht1lt (by norm_num [pVal]))
  obtain ⟨hzwf, hzc, hzlo, hzhi⟩ := big_mpyP_mod_modulus P.Z t1r hPZ ht1wf
  obtain ⟨z3r, hz3, hz3wf, hz3lt, hz3mod⟩ :=
    big_precise_reduce_ok _ modulusP hzwf (by decide) (by decide) (by decide)
  rw [uval_modulusP] at hz3lt hz3mod
  obtain ⟨h3wf, h3c, h3lo, h3hi⟩ := big_sqrP_facts t1r ht1wf
  rw [hsvt1r] at h3c
  obtain ⟨h4wf, h4c, h4lo, h4hi⟩ :=
    big_mpyP_mod_modulus (big_sqrP t1r) t1r h3wf ht1wf
  have h4c2 : Int.ModEq (pVal : Int)
      (sval (big_mpyP (big_sqrP t1r) t1r ModselT.mod_modulus))
      ((uval t1r : Int) ^ 3) := by
    have := h4c.trans (h3c.mul (Int.ModEq.refl (sval t1r)))
    rw [hsvt1r, show (uval t1r : Int) ^ 2 * (uval t1r : Int)
      = (uval t1r : Int) ^ 3 by ring] at this
    exact this
  obtain ⟨h3bwf, h3bc, h3blo, h3bhi⟩ :=
    big_mpyP_mod_modulus (big_sqrP t1r) P.X h3wf hPX
  have h3bc2 : Int.ModEq (pVal : Int)
      (sval (big_mpyP (big_sqrP t1r) P.X ModselT.mod_modulus))
      ((uval t1r : Int) ^ 2 * sval P.X) :=
    h3bc.trans (h3c.mul (Int.ModEq.refl (sval P.X)))
  obtain ⟨hx1wf, hx1c, hx1lo, hx1hi⟩ := big_sqrP_facts t2 ht2wf
  obtain ⟨hadwf, hadc, hadlo, hadhi⟩ :=
    big_addP_facts _ _ h3bwf h3bwf (window_abs _ h3blo h3bhi)
      (window_abs _ h3blo h3bhi)
  obtain ⟨hs1wf, hs1c, hs1lo, hs1hi⟩ :=
    big_subP_facts _ _ hx1wf hadwf (window_abs _ hx1lo hx1hi)
      (window_abs _ hadlo hadhi)
  obtain ⟨hX3wf, hX3c, hX3lo, hX3hi⟩ :=
    big_subP_facts _ _ hs1wf h4wf (window_abs _ hs1lo hs1hi)
      (window_abs _ h4lo h4hi)
  have hX3c2 : Int.ModEq (pVal : Int)
      (sval (big_subP (big_subP (big_sqrP t2)
          (big_addP (big_mpyP (big_sqrP t1r) P.X ModselT.mod_modulus)
            (big_mpyP (big_sqrP t1r) P.X ModselT.mod_modulus)))
        (big_mpyP (big_sqrP t1r) t1r ModselT.mod_modulus)))
      (sval t2 ^ 2 - 2 * sval P.X * (uval t1r : Int) ^ 2
        - (uval t1r : Int) ^ 3) := by
    have hmid := (hs1c.trans (hx1c.sub (hadc.trans (h3bc2.add h3bc2)))).sub h4c2
    refine (hX3c.trans hmid).trans ?_
    rw [show sval t2 ^ 2 - ((uval t1r : Int) ^ 2 * sval P.X
        + (uval t1r : Int) ^ 2 * sval P.X) - (uval t1r : Int) ^ 3
      = sval t2 ^ 2 - 2 * sval P.X * (uval t1r : Int) ^ 2
        - (uval t1r : Int) ^ 3 by ring]
  obtain ⟨hs3wf, hs3c, hs3lo, hs3hi⟩ :=
    big_subP_facts _ _ h3bwf hX3wf (window_abs _ h3blo h3bhi)
      (window_abs _ hX3lo hX3hi)
  obtain ⟨hm3wf, hm3c, hm3lo, hm3hi⟩ :=
    big_mpyP_mod_modulus _ t2 hs3wf ht2wf
  obtain ⟨hm4wf, hm4c, hm4lo, hm4hi⟩ :=
    big_mpyP_mod_modulus _ P.Y h4wf hPY
  obtain ⟨hY3wf, hY3c, hY3lo, hY3hi⟩ :=
    big_subP_facts _ _ hm3wf hm4wf (window_abs _ hm3lo hm3hi)
      (window_abs _ hm4lo hm4hi)
  refine ⟨⟨big_subP (big_subP (big_sqrP t2)
      (big_addP (big_mpyP (big_sqrP t1r) P.X ModselT.mod_modulus)
        (big_mpyP (big_sqrP t1r) P.X ModselT.mod_modulus)))
      (big_mpyP (big_sqrP t1r) t1r ModselT.mod_modulus),
    big_subP (big_mpyP (big_subP (big_mpyP (big_sqrP t1r) P.X ModselT.mod_modulus)
        (big_subP (big_subP (big_sqrP t2)
          (big_addP (big_mpyP (big_sqrP t1r) P.X ModselT.mod_modulus)
            (big_mpyP (big_sqrP t1r) P.X ModselT.mod_modulus)))
          (big_mpyP (big_sqrP t1r) t1r ModselT.mod_modulus))) t2
        ModselT.mod_modulus)
      (big_mpyP (big_mpyP (big_sqrP t1r) t1r ModselT.mod_modulus) P.Y
        ModselT.mod_modulus),
    z3r⟩, ?_, hX3c2, ?_, ?_, hX3wf, hY3wf, hz3wf, hz3lt,
    window_abs _ hX3lo hX3hi, window_abs _ hY3lo hY3hi⟩
  · simp only [pointAddGen]
    rw [hz3]
    rfl
  · have hmid := hm3c.trans ((hs3c.trans (h3bc2.sub (Int.ModEq.refl _))).mul
      (Int.ModEq.refl (sval t2)))
    have hmid4 := hm4c.trans (h4c2.mul (Int.ModEq.refl (sval P.Y)))
    refine (hY3c.trans (hmid.sub hmid4)).trans ?_
    rw [show ((uval t1r : Int) ^ 2 * sval P.X
          - sval (big_subP (big_subP (big_sqrP t2)
              (big_addP (big_mpyP (big_sqrP t1r) P.X ModselT.mod_modulus)
                (big_mpyP (big_sqrP t1r) P.X ModselT.mod_modulus)))
            (big_mpyP (big_sqrP t1r) t1r ModselT.mod_modulus))) * sval t2
        - (uval t1r : Int) ^ 3 * sval P.Y
      = sval t2 * ((uval t1r : Int) ^ 2 * sval P.X
          - sval (big_subP (big_subP (big_sqrP t2)
              (big_addP (big_mpyP (big_sqrP t1r) P.X ModselT.mod_modulus)
                (big_mpyP (big_sqrP t1r) P.X ModselT.mod_modulus)))
            (big_mpyP (big_sqrP t1r) t1r ModselT.mod_modulus)))
        - (uval t1r : Int) ^ 3 * sval P.Y by ring]
  · refine hz3mod.trans (hzc.trans ?_)
    rw [hsvt1r]

theorem modeq_sub_zero_iff (n x y : Int) :
    Int.ModEq n (x - y) 0 ↔ Int.ModEq n x y := by
  rw [Int.modEq_iff_dvd, Int.modEq_iff_dvd]
  constructor <;> intro h
  · have : (0 : Int) - (x - y) = y - x := by ring
    rwa [this] at h
  · have : y - x = 0 - (x - y) := by ring
    rwa [this] at h

set_option maxHeartbeats 3200000 in
/-- Case analysis of pointAdd: the four special cases and the general
    mixed-addition formulas, for a Jacobian P with precisely reduced Z and
    coordinates within the library's approximate-reduction window. -/
theorem pointAdd_cases_aux (P : JacPt) (Q : AffPt)
    (hPX : bigWF P.X) (hPY : bigWF P.Y) (hPZ : bigWF P.Z)
    (hQx : bigWF Q.x) (hQy : bigWF Q.y)
    (hZred : uval P.Z < pVal)
    (hXb : |sval P.X| ≤ 2 ^ 260) (hYb : |sval P.Y| ≤ 2 ^ 260) :
    (Q.infinity = true → pointAdd P Q = some P) ∧
    (Q.infinity = false → big_is_zero P.Z = true →
      pointAdd P Q = some (toJacobian Q)) ∧
    (Q.infinity = false → big_is_zero P.Z = false →
      Int.ModEq (pVal : Int) (sval Q.x * sval P.Z ^ 2) (sval P.X) →
      Int.ModEq (pVal : Int) (sval Q.y * sval P.Z ^ 3) (sval P.Y) →
      pointAdd P Q = pointDouble (toJacobian Q)) ∧
    (Q.infinity = false → big_is_zero P.Z = false →
      Int.ModEq (pVal : Int) (sval Q.x * sval P.Z ^ 2) (sval P.X) →
      ¬Int.ModEq (pVal : Int) (sval Q.y * sval P.Z ^ 3) (sval P.Y) →
      pointAdd P Q = some jacobian_infinity) ∧
    (Q.infinity = false → big_is_zero P.Z = false →
      ¬Int.ModEq (pVal : Int) (sval Q.x * sval P.Z ^ 2) (sval P.X) →
      ∃ R, pointAdd P Q = some R ∧
        Int.ModEq (pVal : Int) (sval R.X)
          ((sval Q.y * sval P.Z ^ 3 - sval P.Y) ^ 2
            - 2 * sval P.X * (sval Q.x * sval P.Z ^ 2 - sval P.X) ^ 2
            - (sval Q.x * sval P.Z ^ 2 - sval P.X) ^ 3) ∧
        Int.ModEq (pVal : Int) (sval R.Y)
          ((sval Q.y * sval P.Z ^ 3 - sval P.Y)
              * ((sval Q.x * sval P.Z ^ 2 - sval P.X) ^ 2 * sval P.X - sval R.X)
            - (sval Q.x * sval P.Z ^ 2 - sval P.X) ^ 3 * sval P.Y) ∧
        Int.ModEq (pVal : Int) (uval R.Z)
          (sval P.Z * (sval Q.x * sval P.Z ^ 2 - sval P.X)) ∧
        bigWF R.X ∧ bigWF R.Y ∧ bigWF R.Z ∧ uval R.Z < pVal) := by
  by_cases hQi : Q.infinity = true
  · refine ⟨fun _ => ?_, by simp [hQi], by simp [hQi], by simp [hQi], by simp [hQi]⟩
    simp only [pointAdd, hQi, if_true]
  · rw [Bool.not_eq_true] at hQi
    refine ⟨by simp [hQi], ?_, ?_⟩
    · intro _ hz
      simp only [pointAdd, hQi, Bool.false_eq_true, if_false, hz, if_true]
    · by_cases hz : big_is_zero P.Z = true
      · refine ⟨?_, ?_, ?_⟩ <;> intro h1 h2
        · exact absurd hz (by rw [h2]; simp)
        · exact absurd hz (by rw [h2]; simp)
        · exact absurd hz (by rw [h2]; simp)
      · rw [Bool.not_eq_true] at hz
        -- common setup for the three remaining cases
        obtain ⟨hzzwf, hzzc, hzzlo, hzzhi⟩ := big_sqrP_facts P.Z hPZ
        obtain ⟨hzzzwf, hzzzc, hzzzlo, hzzzhi⟩ :=
          big_mpyP_mod_modulus (big_sqrP P.Z) P.Z hzzwf hPZ
        have hzzzc3 : Int.ModEq (pVal : Int)
            (sval (big_mpyP (big_sqrP P.Z) P.Z ModselT.mod_modulus))
            (sval P.Z ^ 3) := by
          refine (hzzzc.trans (hzzc.mul (Int.ModEq.refl (sval P.Z)))).trans ?_
          rw [show sval P.Z ^ 2 * sval P.Z = sval P.Z ^ 3 by ring]
        obtain ⟨hm1wf, hm1c, hm1lo, hm1hi⟩ :=
          big_mpyP_mod_modulus (big_sqrP P.Z) Q.x hzzwf hQx
        have hm1c2 : Int.ModEq (pVal : Int)
            (sval (big_mpyP (big_sqrP P.Z) Q.x ModselT.mod_modulus))
            (sval Q.x * sval P.Z ^ 2) := by
          refine (hm1c.trans (hzzc.mul (Int.ModEq.refl (sval Q.x)))).trans ?_
          rw [show sval P.Z ^ 2 * sval Q.x = sval Q.x * sval P.Z ^ 2 by ring]
        obtain ⟨hm2wf, hm2c, hm2lo, hm2hi⟩ :=
          big_mpyP_mod_modulus (big_mpyP (big_sqrP P.Z) P.Z ModselT.mod_modulus)
            Q.y hzzzwf hQy
        have hm2c2 : Int.ModEq (pVal : Int)
            (sval (big_mpyP (big_mpyP (big_sqrP P.Z) P.Z ModselT.mod_modulus)
              Q.y ModselT.mod_modulus))
            (sval Q.y * sval P.Z ^ 3) := by
          refine (hm2c.trans (hzzzc3.mul (Int.ModEq.refl (sval Q.y)))).trans ?_
          rw [show sval P.Z ^ 3 * sval Q.y = sval Q.y * sval P.Z ^ 3 by ring]
        obtain ⟨ht1wf, ht1c, ht1lo, ht1hi⟩ :=
          big_subP_facts _ P.X hm1wf hPX (window_abs _ hm1lo hm1hi) hXb
        have ht1c2 : Int.ModEq (pVal : Int)
            (sval (big_subP (big_mpyP (big_sqrP P.Z) Q.x ModselT.mod_modulus) P.X))
            (sval Q.x * sval P.Z ^ 2 - sval P.X) :=
          ht1c.trans (hm1c2.sub (Int.ModEq.refl (sval P.X)))
        obtain ⟨ht2wf, ht2c, ht2lo, ht2hi⟩ :=
          big_subP_facts _ P.Y hm2wf hPY (window_abs _ hm2lo hm2hi) hYb
        have ht2c2 : Int.ModEq (pVal : Int)
            (sval (big_subP (big_mpyP (big_mpyP (big_sqrP P.Z) P.Z
              ModselT.mod_modulus) Q.y ModselT.mod_modulus) P.Y))
            (sval Q.y * sval P.Z ^ 3 - sval P.Y) :=
          ht2c.trans (hm2c2.sub (Int.ModEq.refl (sval P.Y)))
        obtain ⟨t1r, ht1red, ht1rwf, ht1rlt, ht1rmod⟩ :=
          big_precise_reduce_ok _ modulusP ht1wf (by decide) (by decide) (by decide)
        rw [uval_modulusP] at ht1rlt ht1rmod
        obtain ⟨hq1, hq2, hq3, hq4⟩ := precise_reduce_zero_iff _ _ ht1wf ht1red
        have hz1iff : big_is_zero t1r = true
            ↔ Int.ModEq (pVal : Int) (sval Q.x * sval P.Z ^ 2) (sval P.X) := by
          rw [hq4]
          constructor
          · intro h
            exact (modeq_sub_zero_iff _ _ _).mp (ht1c2.symm.trans h)
          · intro h
            exact ht1c2.trans ((modeq_sub_zero_iff _ _ _).mpr h)
        obtain ⟨t2r, ht2red, ht2rwf, ht2rlt, ht2rmod⟩ :=
          big_precise_reduce_ok _ modulusP ht2wf (by decide) (by decide) (by decide)
        rw [uval_modulusP] at ht2rlt ht2rmod
        obtain ⟨hw1, hw2, hw3, hw4⟩ := precise_reduce_zero_iff _ _ ht2wf ht2red
        have hz2iff : big_is_zero t2r = true
            ↔ Int.ModEq (pVal : Int) (sval Q.y * sval P.Z ^ 3) (sval P.Y) := by
          rw [hw4]
          constructor
          · intro h
            exact (modeq_sub_zero_iff _ _ _).mp (ht2c2.symm.trans h)
          · intro h
            exact ht2c2.trans ((modeq_sub_zero_iff _ _ _).mpr h)
        refine ⟨?_, ?_, ?_⟩
        · intro _ _ hcx hcy
          simp only [pointAdd, hQi, Bool.false_eq_true, if_false, hz]
          rw [ht1red]
          simp only [Option.bind]
          rw [if_pos (hz1iff.mpr hcx), ht2red]
          simp only [Option.bind]
          rw [if_pos (hz2iff.mpr hcy)]
        · intro _ _ hcx hcy
          simp only [pointAdd, hQi, Bool.false_eq_true, if_false, hz]
          rw [ht1red]
          simp only [Option.bind]
          rw [if_pos (hz1iff.mpr hcx), ht2red]
          simp only [Option.bind]
          rw [if_neg (fun hc => hcy (hz2iff.mp hc))]
        · intro _ _ hcx
          obtain ⟨R, hRgen, hRX, hRY, hRZ, hwfX, hwfY, hwfZ, hZlt, hbX, hbY⟩ :=
            pointAddGen_facts P t1r _ hPX hPY hPZ hXb hYb ht1rwf ht1rlt ht2wf
              (window_abs _ ht2lo ht2hi)
          have hA : Int.ModEq (pVal : Int) ((uval t1r : Int))
              (sval Q.x * sval P.Z ^ 2 - sval P.X) := ht1rmod.trans ht1c2
          have hB : Int.ModEq (pVal : Int)
              (sval (big_subP (big_mpyP (big_mpyP (big_sqrP P.Z) P.Z
                ModselT.mod_modulus) Q.y ModselT.mod_modulus) P.Y))
              (sval Q.y * sval P.Z ^ 3 - sval P.Y) := ht2c2
          refine ⟨R, ?_, ?_, ?_, ?_, hwfX, hwfY, hwfZ, hZlt⟩
          · simp only [pointAdd, hQi, Bool.false_eq_true, if_false, hz]
            rw [ht1red]
            simp only [Option.bind]
            rw [if_neg (fun hc => hcx (hz1iff.mp hc))]
            exact hRgen
          · exact hRX.trans ((hB.pow 2).sub
              (((Int.ModEq.refl (2 * sval P.X)).mul (hA.pow 2))) |>.sub (hA.pow 3))
          · exact hRY.trans ((hB.mul (((hA.pow 2).mul
              (Int.ModEq.refl (sval P.X))).sub (Int.ModEq.refl (sval R.X)))).sub
              ((hA.pow 3).mul (Int.ModEq.refl (sval P.Y))))
          · exact hRZ.trans ((Int.ModEq.refl (sval P.Z)).mul hA)

/-- C3: pointAdd on a Jacobian P (precisely reduced Z, coordinates within the
    library's window) and an affine Q (canonical coordinates) handles the four
    special cases — Q infinite (P returned unchanged), P infinite (Jacobian
    lift of Q), same point (delegates to pointDouble of the lifted point,
    whence pointAdd(lift Q, Q) = pointDouble(lift Q)), inverse points
    (infinity) — and otherwise computes the standard mixed-coordinate sum. -/
theorem C3_pointAdd_cases (P : JacPt) (Q : AffPt)
    (hPX : bigWF P.X) (hPY : bigWF P.Y) (hPZ : bigWF P.Z)
    (hQx : bigWF Q.x) (hQy : bigWF Q.y)
    (hZred : uval P.Z < pVal)
    (hXb : |sval P.X| ≤ 2 ^ 260) (hYb : |sval P.Y| ≤ 2 ^ 260)
    (hQxr : uval Q.x < pVal) (hQyr : uval Q.y < pVal) :
    (Q.infinity = true → pointAdd P Q = some P) ∧
    (Q.infinity = false → big_is_zero P.Z = true →
      pointAdd P Q = some (toJacobian Q)) ∧
    (Q.infinity = false → big_is_zero P.Z = false →
      Int.ModEq (pVal : Int) (sval Q.x * sval P.Z ^ 2) (sval P.X) →
      Int.ModEq (pVal : Int) (sval Q.y * sval P.Z ^ 3) (sval P.Y) →
      pointAdd P Q = pointDouble (toJacobian Q)) ∧
    (Q.infinity = false → big_is_zero P.Z = false →
      Int.ModEq (pVal : Int) (sval Q.x * sval P.Z ^ 2) (sval P.X) →
      ¬Int.ModEq (pVal : Int) (sval Q.y * sval P.Z ^ 3) (sval P.Y) →
      pointAdd P Q = some jacobian_infinity) ∧
    (Q.infinity = false → big_is_zero P.Z = false →
      ¬Int.ModEq (pVal : Int) (sval Q.x * sval P.Z ^ 2) (sval P.X) →
      ∃ R, pointAdd P Q = some R ∧
        Int.ModEq (pVal : Int) (sval R.X)
          ((sval Q.y * sval P.Z ^ 3 - sval P.Y) ^ 2
            - 2 * sval P.X * (sval Q.x * sval P.Z ^ 2 - sval P.X) ^ 2
            - (sval Q.x * sval P.Z ^ 2 - sval P.X) ^ 3) ∧
        Int.ModEq (pVal : Int) (sval R.Y)
          ((sval Q.y * sval P.Z ^ 3 - sval P.Y)
              * ((sval Q.x * sval P.Z ^ 2 - sval P.X) ^ 2 * sval P.X - sval R.X)
            - (sval Q.x * sval P.Z ^ 2 - sval P.X) ^ 3 * sval P.Y) ∧
        Int.ModEq (pVal : Int) (uval R.Z)
          (sval P.Z * (sval Q.x * sval P.Z ^ 2 - sval P.X)) ∧
        bigWF R.X ∧ bigWF R.Y ∧ bigWF R.Z ∧ uval R.Z < pVal) ∧
    (Q.infinity = false → pointAdd (toJacobian Q) Q = pointDouble (toJacobian Q)) := by
  obtain ⟨c1, c2, c3, c4, c5⟩ :=
    pointAdd_cases_aux P Q hPX hPY hPZ hQx hQy hZred hXb hYb
  refine ⟨c1, c2, c3, c4, c5, ?_⟩
  intro hQi
  have hpc : (pVal : Int) < 2 ^ 260 := by
    rw [show (pVal : Int) = 2 ^ 256 - 2 ^ 224 + 2 ^ 192 + 2 ^ 96 - 1 from by
      rw [pVal]; norm_num]
    norm_num
  have hsx : sval Q.x = (uval Q.x : Int) :=
    sval_msw_zero_of_lt Q.x hQx (lt_trans hQxr (by norm_num [pVal]))
  have hsy : sval Q.y = (uval Q.y : Int) :=
    sval_msw_zero_of_lt Q.y hQy (lt_trans hQyr (by norm_num [pVal]))
  have hxb2 : |sval Q.x| ≤ 2 ^ 260 := by
    rw [hsx, abs_of_nonneg (Int.natCast_nonneg _)]
    have : (uval Q.x : Int) < (pVal : Int) := by exact_mod_cast hQxr
    omega
  have hyb2 : |sval Q.y| ≤ 2 ^ 260 := by
    rw [hsy, abs_of_nonneg (Int.natCast_nonneg _)]
    have : (uval Q.y : Int) < (pVal : Int) := by exact_mod_cast hQyr
    omega
  obtain ⟨d1, d2, d3, d4, d5⟩ :=
    pointAdd_cases_aux (toJacobian Q) Q hQx hQy
      ((by decide : bigWF big_one)) hQx hQy
      ((by decide : uval big_one < pVal)) hxb2 hyb2
  refine d3 hQi ((by decide : big_is_zero big_one = false)) ?_ ?_
  · have h1 : sval (toJacobian Q).Z = 1 := (by decide : sval big_one = 1)
    rw [h1]
    show Int.ModEq (pVal : Int) (sval Q.x * 1 ^ 2) (sval Q.x)
    simpa using Int.ModEq.refl (sval Q.x)
  · have h1 : sval (toJacobian Q).Z = 1 := (by decide : sval big_one = 1)
    rw [h1]
    show Int.ModEq (pVal : Int) (sval Q.y * 1 ^ 3) (sval Q.y)
    simpa using Int.ModEq.refl (sval Q.y)

theorem C3_witness :
    bigWF big_one ∧ bigWF big_zero ∧ uval big_zero < pVal ∧
    |sval big_one| ≤ 2 ^ 260 ∧
    pointAdd jacobian_infinity affine_infinity = some jacobian_infinity :=
  ⟨by decide, by decide, by decide, by decide,
    (C3_pointAdd_cases jacobian_infinity affine_infinity
      (by decide) (by decide) (by decide) (by decide) (by decide) (by decide)
      (by decide) (by decide) (by decide) (by decide)).1 rfl⟩

theorem C6_witness :
    bigWF big_one ∧ bigWF big_zero ∧
    (∀ R, pointDouble jacobian_infinity = some R → bigWF R.Z ∧ uval R.Z < pVal) :=
  ⟨by decide, by decide,
    (C6_point_ops_reduce_Z jacobian_infinity affine_infinity
      (by decide) (by decide) (by decide) (by decide) (by decide)).1⟩

/- ------------------------------------------------------------------ -/
/- Representation conversions.                                         -/
/- ------------------------------------------------------------------ -/

/-- digit256_to_bigval: a digit256_t is four little-endian 64-bit digits;
    memcpy into the first eight 32-bit words and zero the ninth. -/
def digit256_to_bigval (src : List Nat) : List Nat :=
  (List.range 8).map (fun w => src.getD (w / 2) 0 / 2 ^ (32 * (w % 2)) % 2 ^ 32)
    ++ [0]

/-- bigval_to_digit256: reject negative inputs, otherwise memcpy the first
    eight 32-bit words into four 64-bit digits. -/
def bigval_to_digit256 (src : List Nat) : Option (List Nat) :=
  if big_is_negative src then none
  else some ((List.range 4).map (fun w =>
    src.getD (2 * w) 0 + 2 ^ 32 * src.getD (2 * w + 1) 0))

theorem list_eq_map_range_getD (d : List Nat) (n : Nat) (hd : d.length = n) :
    (List.range n).map (fun w => d.getD w 0) = d := by
  refine List.ext_getElem (by simp [hd]) ?_
  intro i h1 h2
  simp only [List.getElem_map, List.getElem_range]
  rw [List.getD_eq_getElem d 0 h2]

/-- C10: converting a 256-bit field element with digit256_to_bigval and back
    with bigval_to_digit256 succeeds and reproduces it exactly, because the
    zeroed ninth word makes the intermediate bigval non-negative; conversely
    bigval_to_digit256 rejects (returns none for) every negative bigval. -/
theorem C10_digit256_roundtrip (d : List Nat) (hd : d.length = 4)
    (hw : ∀ x ∈ d, x < 2 ^ 64) :
    big_is_negative (digit256_to_bigval d) = false ∧
    bigval_to_digit256 (digit256_to_bigval d) = some d ∧
    (∀ s : List Nat, big_is_negative s = true → bigval_to_digit256 s = none) := by
  have hneg : big_is_negative (digit256_to_bigval d) = false := by
    unfold big_is_negative msw digit256_to_bigval MSW
    rw [List.getD_eq_getElem _ 0 (by simp)]
    simp
  refine ⟨hneg, ?_, ?_⟩
  · unfold bigval_to_digit256
    rw [hneg]
    simp only [Bool.false_eq_true, if_false, Option.some.injEq]
    have hgetD : ∀ w, w < 8 → (digit256_to_bigval d).getD w 0
        = d.getD (w / 2) 0 / 2 ^ (32 * (w % 2)) % 2 ^ 32 := by
      intro w hw8
      unfold digit256_to_bigval
      rw [List.getD_eq_getElem _ 0 (by simp; omega)]
      rw [List.getElem_append_left (by simp [hw8])]
      simp
    have hword : ∀ w, w < 4 →
        (digit256_to_bigval d).getD (2 * w) 0
          + 2 ^ 32 * (digit256_to_bigval d).getD (2 * w + 1) 0 = d.getD w 0 := by
      intro w hw4
      rw [hgetD (2 * w) (by omega), hgetD (2 * w + 1) (by omega)]
      have h1 : 2 * w / 2 = w := by omega
      have h2 : (2 * w + 1) / 2 = w := by omega
      have h3 : 2 * w % 2 = 0 := by omega
      have h4 : (2 * w + 1) % 2 = 1 := by omega
      rw [h1, h2, h3, h4]
      have h5 : d.getD w 0 < 2 ^ 64 := by
        rcases lt_or_le w d.length with hlt | hge
        · rw [List.getD_eq_getElem d 0 hlt]
          exact hw _ (List.getElem_mem hlt)
        · rw [List.getD_eq_default _ _ hge]
          norm_num
      simp only [Nat.mul_zero, pow_zero, Nat.mul_one, Nat.div_one]
      omega
    calc (List.range 4).map (fun w =>
          (digit256_to_bigval d).getD (2 * w) 0
            + 2 ^ 32 * (digit256_to_bigval d).getD (2 * w + 1) 0)
        = (List.range 4).map (fun w => d.getD w 0) := by
          refine List.map_congr_left ?_
          intro w hwm
          simp only [List.mem_range] at hwm
          exact hword w hwm
      _ = d := list_eq_map_range_getD d 4 hd
  · intro s hs
    unfold bigval_to_digit256
    rw [hs]
    rfl

theorem C10_witness :
    [1, 2, 3, 4].length = 4 ∧
    bigval_to_digit256 (digit256_to_bigval [1, 2, 3, 4]) = some [1, 2, 3, 4] :=
  ⟨rfl, (C10_digit256_roundtrip [1, 2, 3, 4] rfl (by decide)).2.1⟩

/-- bigval_to_binary: big-endian byte serialization of a bigval into n bytes,
    sign-extending with 0xff/0x00 beyond the 36 internal bytes and silently
    dropping high-order bytes when n is smaller. -/
def bigval_to_binary (src : List Nat) (n : Nat) : List Nat :=
  (List.range n).map (fun j =>
    if n - 1 - j < 4 * BIGLEN then
      src.getD ((n - 1 - j) / 4) 0 / 2 ^ (8 * ((n - 1 - j) % 4)) % 2 ^ 8
    else if big_is_negative src then 0xff else 0)

/-- binary_to_bigval: parse an n-byte big-endian byte array into a bigval,
    zero-filling and silently dropping bytes beyond the 36 internal ones. -/
def binary_to_bigval (src : List Nat) (n : Nat) : List Nat :=
  (List.range BIGLEN).map (fun w =>
    ∑ b ∈ Finset.range 4,
      if 4 * w + b < n then src.getD (n - 1 - (4 * w + b)) 0 * 2 ^ (8 * b) else 0)

theorem byte_recombine (v : Nat) (hv : v < 2 ^ 32) :
    ∑ b ∈ Finset.range 4, v / 2 ^ (8 * b) % 2 ^ 8 * 2 ^ (8 * b) = v := by
  rw [Finset.sum_range_succ, Finset.sum_range_succ, Finset.sum_range_succ,
    Finset.sum_range_succ, Finset.sum_range_zero]
  norm_num
  omega

theorem sum_quads (F : Nat → Nat) :
    ∑ w ∈ Finset.range 9, ∑ b ∈ Finset.range 4, F (4 * w + b)
      = ∑ i ∈ Finset.range 36, F i := by
  rw [← Finset.sum_product']
  refine Finset.sum_nbij' (fun p => 4 * p.1 + p.2) (fun i => (i / 4, i % 4))
    ?_ ?_ ?_ ?_ ?_
  · intro p hp
    simp only [Finset.mem_product, Finset.mem_range] at hp ⊢
    omega
  · intro i hi
    simp only [Finset.mem_product, Finset.mem_range] at hi ⊢
    omega
  · intro p hp
    simp only [Finset.mem_product, Finset.mem_range] at hp
    obtain ⟨h1, h2⟩ := hp
    show ((4 * p.1 + p.2) / 4, (4 * p.1 + p.2) % 4) = p
    have e1 : (4 * p.1 + p.2) / 4 = p.1 := by omega
    have e2 : (4 * p.1 + p.2) % 4 = p.2 := by omega
    rw [e1, e2]
  · intro i hi
    simp only [Finset.mem_range] at hi
    show 4 * (i / 4) + i % 4 = i
    omega
  · intro p hp
    rfl

theorem bytes_sum_lt (c : Nat → Nat) (n : Nat) (hc : ∀ i, i < n → c i < 2 ^ 8) :
    ∑ i ∈ Finset.range n, c i * 2 ^ (8 * i) < 2 ^ (8 * n) := by
  induction n with
  | zero => simp
  | succ m ih =>
      rw [Finset.sum_range_succ]
      have h1 := ih (fun i hi => hc i (by omega))
      have h3 : c m * 2 ^ (8 * m) ≤ (2 ^ 8 - 1) * 2 ^ (8 * m) :=
        Nat.mul_le_mul_right _ (by have := hc m (by omega); omega)
      have h4 : (2:Nat) ^ (8 * (m + 1)) = 2 ^ 8 * 2 ^ (8 * m) := by
        rw [← pow_add]
        congr 1
        omega
      have h5 : (0:Nat) < 2 ^ (8 * m) := by positivity
      rw [h4]
      omega

set_option maxHeartbeats 800000 in
/-- C9: serializing a bigval with bigval_to_binary into n big-endian bytes
    (sign-extending when n exceeds the 36 internal bytes, silently dropping
    high bytes when smaller) and parsing back with binary_to_bigval
    reproduces x exactly when n covers all 36 bytes, and reproduces x
    truncated to its low 8n bits when n is smaller. -/
theorem C9_binary_roundtrip (x : List Nat) (hx : bigWF x) (n : Nat) :
    bigWF (binary_to_bigval (bigval_to_binary x n) n) ∧
    (36 ≤ n → binary_to_bigval (bigval_to_binary x n) n = x) ∧
    (n ≤ 36 → uval (binary_to_bigval (bigval_to_binary x n) n)
      = uval x % 2 ^ (8 * n)) := by
  have hbyte : ∀ i, i < n → i < 36 →
      (bigval_to_binary x n).getD (n - 1 - i) 0
        = x.getD (i / 4) 0 / 2 ^ (8 * (i % 4)) % 2 ^ 8 := by
    intro i hin hi36
    unfold bigval_to_binary
    rw [List.getD_eq_getElem _ 0
      (by rw [List.length_map, List.length_range]; omega)]
    simp only [List.getElem_map, List.getElem_range]
    rw [show n - 1 - (n - 1 - i) = i from by omega]
    rw [if_pos (show i < 4 * BIGLEN from by rw [BIGLEN]; omega)]
  have hword : ∀ w, w < 9 →
      (binary_to_bigval (bigval_to_binary x n) n).getD w 0
        = ∑ b ∈ Finset.range 4,
            if 4 * w + b < n then
              x.getD ((4 * w + b) / 4) 0 / 2 ^ (8 * ((4 * w + b) % 4)) % 2 ^ 8
                * 2 ^ (8 * b)
            else 0 := by
    intro w hw9
    unfold binary_to_bigval
    rw [List.getD_eq_getElem _ 0
      (by rw [List.length_map, List.length_range, BIGLEN]; omega)]
    simp only [List.getElem_map, List.getElem_range]
    refine Finset.sum_congr rfl ?_
    intro b hb
    simp only [Finset.mem_range] at hb
    split
    · rename_i hlt
      rw [hbyte (4 * w + b) hlt (by omega)]
    · rfl
  have hlen : (binary_to_bigval (bigval_to_binary x n) n).length = 9 := by
    unfold binary_to_bigval
    rw [List.length_map, List.length_range, BIGLEN]
  have hwf : bigWF (binary_to_bigval (bigval_to_binary x n) n) := by
    refine ⟨hlen, ?_⟩
    intro y hy
    obtain ⟨w, hw, rfl⟩ := List.mem_iff_getElem.mp hy
    rw [hlen] at hw
    rw [← List.getD_eq_getElem _ 0 (by rw [hlen]; omega), hword w hw]
    calc (∑ b ∈ Finset.range 4,
          if 4 * w + b < n then
            x.getD ((4 * w + b) / 4) 0 / 2 ^ (8 * ((4 * w + b) % 4)) % 2 ^ 8
              * 2 ^ (8 * b)
          else 0)
        = ∑ b ∈ Finset.range 4,
            (if 4 * w + b < n then
              x.getD ((4 * w + b) / 4) 0 / 2 ^ (8 * ((4 * w + b) % 4)) % 2 ^ 8
             else 0) * 2 ^ (8 * b) := by
          refine Finset.sum_congr rfl ?_
          intro b _
          split <;> ring
      _ < 2 ^ (8 * 4) := by
          refine bytes_sum_lt _ 4 ?_
          intro b _
          split
          · exact Nat.mod_lt _ (by norm_num)
          · positivity
      _ = 2 ^ 32 := by norm_num
  refine ⟨hwf, ?_, ?_⟩
  · intro h36
    refine List.ext_getElem (by rw [hlen, hx.1]) ?_
    intro w h1 h2
    rw [hlen] at h1
    rw [← List.getD_eq_getElem _ 0 (by rw [hlen]; omega),
      ← List.getD_eq_getElem x 0 h2, hword w h1]
    have hguard : ∀ b ∈ Finset.range 4,
        (if 4 * w + b < n then
          x.getD ((4 * w + b) / 4) 0 / 2 ^ (8 * ((4 * w + b) % 4)) % 2 ^ 8
            * 2 ^ (8 * b)
         else 0)
        = x.getD w 0 / 2 ^ (8 * b) % 2 ^ 8 * 2 ^ (8 * b) := by
      intro b hb
      simp only [Finset.mem_range] at hb
      rw [if_pos (by omega), show (4 * w + b) / 4 = w from by omega,
        show (4 * w + b) % 4 = b from by omega]
    rw [Finset.sum_congr rfl hguard, byte_recombine _ (getD_lt x hx w)]
  · intro h36
    have hv := uval_eq_sum_len (binary_to_bigval (bigval_to_binary x n) n)
    rw [hlen] at hv
    have hstep : ∀ w ∈ Finset.range 9,
        (binary_to_bigval (bigval_to_binary x n) n).getD w 0 * 2 ^ (32 * w)
          = ∑ b ∈ Finset.range 4,
              (if 4 * w + b < n then
                x.getD ((4 * w + b) / 4) 0 / 2 ^ (8 * ((4 * w + b) % 4)) % 2 ^ 8
                  * 2 ^ (8 * (4 * w + b))
               else 0) := by
      intro w hw
      simp only [Finset.mem_range] at hw
      rw [hword w hw, Finset.sum_mul]
      refine Finset.sum_congr rfl ?_
      intro b hb
      simp only [Finset.mem_range] at hb
      split
      · rw [show 8 * (4 * w + b) = 8 * b + 32 * w from by ring, pow_add]
        ring
      · ring
    rw [hv, Finset.sum_congr rfl hstep,
      sum_quads (fun i => if i < n then
        x.getD (i / 4) 0 / 2 ^ (8 * (i % 4)) % 2 ^ 8 * 2 ^ (8 * i) else 0)]
    have hxv := uval_eq_sum_len x
    rw [hx.1] at hxv
    have hxstep : ∀ w ∈ Finset.range 9,
        x.getD w 0 * 2 ^ (32 * w)
          = ∑ b ∈ Finset.range 4,
              x.getD ((4 * w + b) / 4) 0 / 2 ^ (8 * ((4 * w + b) % 4)) % 2 ^ 8
                * 2 ^ (8 * (4 * w + b)) := by
      intro w hw
      conv_lhs => rw [← byte_recombine (x.getD w 0) (getD_lt x hx w)]
      rw [Finset.sum_mul]
      refine Finset.sum_congr rfl ?_
      intro b hb
      simp only [Finset.mem_range] at hb
      rw [show (4 * w + b) / 4 = w from by omega,
        show (4 * w + b) % 4 = b from by omega,
        show 8 * (4 * w + b) = 8 * b + 32 * w from by ring, pow_add]
      ring
    rw [hxv, Finset.sum_congr rfl hxstep,
      sum_quads (fun i => x.getD (i / 4) 0 / 2 ^ (8 * (i % 4)) % 2 ^ 8
        * 2 ^ (8 * i))]
    have hsplit : Finset.range 36 = Finset.range n ∪ Finset.Ico n 36 := by
      ext i
      simp only [Finset.mem_union, Finset.mem_Ico, Finset.mem_range]
      omega
    have hdisj : Disjoint (Finset.range n) (Finset.Ico n 36) := by
      rw [Finset.disjoint_left]
      intro i hi hj
      simp only [Finset.mem_Ico, Finset.mem_range] at hi hj
      omega
    rw [hsplit, Finset.sum_union hdisj, Finset.sum_union hdisj]
    have hlowg : ∀ i ∈ Finset.range n,
        (if i < n then
          x.getD (i / 4) 0 / 2 ^ (8 * (i % 4)) % 2 ^ 8 * 2 ^ (8 * i)
         else 0)
        = x.getD (i / 4) 0 / 2 ^ (8 * (i % 4)) % 2 ^ 8 * 2 ^ (8 * i) := by
      intro i hi
      simp only [Finset.mem_range] at hi
      rw [if_pos hi]
    have hhighg : ∀ i ∈ Finset.Ico n 36,
        (if i < n then
          x.getD (i / 4) 0 / 2 ^ (8 * (i % 4)) % 2 ^ 8 * 2 ^ (8 * i)
         else 0) = 0 := by
      intro i hi
      simp only [Finset.mem_Ico] at hi
      rw [if_neg (by omega)]
    rw [Finset.sum_congr rfl hlowg, Finset.sum_congr rfl hhighg,
      Finset.sum_const_zero, add_zero]
    have hhigh2 : ∀ i ∈ Finset.Ico n 36,
        x.getD (i / 4) 0 / 2 ^ (8 * (i % 4)) % 2 ^ 8 * 2 ^ (8 * i)
          = 2 ^ (8 * n) * (x.getD (i / 4) 0 / 2 ^ (8 * (i % 4)) % 2 ^ 8
              * 2 ^ (8 * (i - n))) := by
      intro i hi
      simp only [Finset.mem_Ico] at hi
      rw [show 8 * i = 8 * n + 8 * (i - n) from by omega, pow_add]
      ring
    rw [Finset.sum_congr rfl hhigh2, ← Finset.mul_sum]
    have hlow_lt : ∑ i ∈ Finset.range n,
        x.getD (i / 4) 0 / 2 ^ (8 * (i % 4)) % 2 ^ 8 * 2 ^ (8 * i)
          < 2 ^ (8 * n) := by
      refine bytes_sum_lt _ n ?_
      intro i _
      exact Nat.mod_lt _ (by norm_num)
    rw [show (∑ i ∈ Finset.range n,
        x.getD (i / 4) 0 / 2 ^ (8 * (i % 4)) % 2 ^ 8 * 2 ^ (8 * i))
        + 2 ^ (8 * n) * (∑ i ∈ Finset.Ico n 36,
            x.getD (i / 4) 0 / 2 ^ (8 * (i % 4)) % 2 ^ 8 * 2 ^ (8 * (i - n)))
      = (∑ i ∈ Finset.range n,
          x.getD (i / 4) 0 / 2 ^ (8 * (i % 4)) % 2 ^ 8 * 2 ^ (8 * i))
        + (∑ i ∈ Finset.Ico n 36,
            x.getD (i / 4) 0 / 2 ^ (8 * (i % 4)) % 2 ^ 8 * 2 ^ (8 * (i - n)))
          * 2 ^ (8 * n) from by ring]
    rw [Nat.add_mul_mod_self_right]
    exact (Nat.mod_eq_of_lt hlow_lt).symm

theorem C9_witness :
    bigWF big_one ∧ 36 ≤ 36 ∧
    binary_to_bigval (bigval_to_binary big_one 36) 36 = big_one :=
  ⟨by decide, le_refl 36,
    (C9_binary_roundtrip big_one (by decide) 36).2.1 (le_refl 36)⟩

/- ------------------------------------------------------------------ -/
/- big_divide: extended binary GCD division.                           -/
/- ------------------------------------------------------------------ -/

/-- The inner halving loop of big_divide: halve u while it is even, tracking
    the cofactor x (adding the modulus before halving when x is odd). -/
def bdHalve (m : List Nat) : Nat → List Nat → List Nat → Option (List Nat × List Nat)
  | 0, _, _ => none
  | f + 1, u, x =>
      if big_is_odd u then some (u, x)
      else
        bdHalve m f (big_halve u)
          (big_halve (if big_is_odd x then big_add x m else x))

/-- The outer loop of big_divide: run the two halving loops, then subtract
    the smaller working value (and its cofactor) from the larger. -/
def bdOuter (m : List Nat) :
    Nat → List Nat → List Nat → List Nat → List Nat →
    Option (List Nat × List Nat × List Nat × List Nat)
  | 0, _, _, _, _ => none
  | f + 1, u, v, x1, x2 =>
      if big_is_one u || big_is_one v then some (u, v, x1, x2)
      else
        (bdHalve m BPR_FUEL u x1).bind (fun p1 =>
          (bdHalve m BPR_FUEL v x2).bind (fun p2 =>
            if big_cmp p1.1 p2.1 ≥ 0 then
              bdOuter m f (big_sub p1.1 p2.1) p2.1 (big_sub p1.2 p2.2) p2.2
            else
              bdOuter m f p1.1 (big_sub p2.1 p1.1) p1.2 (big_sub p2.2 p1.2)))

/-- big_divide: extended binary GCD division num / den mod m, with the final
    precise reduction of whichever cofactor tracks the working value that
    reached one. -/
def big_divide (num den m : List Nat) : Option (List Nat) :=
  (bdOuter m BPR_FUEL den m num big_zero).bind (fun s =>
    if big_is_one s.1 then big_precise_reduce s.2.2.1 m
    else big_precise_reduce s.2.2.2 m)

/-- The bit-size measure of the outer loop: it strictly decreases with every
    outer iteration. -/
def bitsPhi (u v : Nat) : Nat :=
  Nat.log 2 u + Nat.log 2 v + (if u % 2 = 1 ∧ v % 2 = 1 then 1 else 0)

theorem bdHalve_zero (m : List Nat) : ∀ f x, bdHalve m f big_zero x = none := by
  intro f
  induction f with
  | zero => intro x; rfl
  | succ g ih =>
      intro x
      unfold bdHalve
      rw [if_neg (by decide : ¬big_is_odd big_zero = true),
        show big_halve big_zero = big_zero from by decide]
      exact ih _

theorem bdHalve_of_odd (m : List Nat) (u x : List Nat) (f : Nat)
    (hf : 0 < f) (h : big_is_odd u = true) :
    bdHalve m f u x = some (u, x) := by
  cases f with
  | zero => omega
  | succ g =>
      unfold bdHalve
      rw [if_pos h]

/-- C5 counterexample run: with modulus 9 and denominator 3 (odd modulus,
    non-zero positive denominator, positive numerator, but gcd(den, m) = 3),
    the extended binary GCD reaches the state u = 0 after two subtractions and
    the inner halving loop then never terminates: the outer loop returns none
    for every amount of fuel. -/
theorem bdOuter_diverges_3_9 :
    ∀ f, bdOuter [9, 0, 0, 0, 0, 0, 0, 0, 0] f
      [3, 0, 0, 0, 0, 0, 0, 0, 0] [9, 0, 0, 0, 0, 0, 0, 0, 0]
      big_one big_zero = none := by
  intro f
  match f with
  | 0 => rfl
  | 1 =>
      unfold bdOuter
      rw [if_neg (by decide)]
      rw [bdHalve_of_odd _ _ _ _ (by norm_num [BPR_FUEL]) (by decide)]
      simp only [Option.bind]
      rw [bdHalve_of_odd _ _ _ _ (by norm_num [BPR_FUEL]) (by decide)]
      simp only [Option.bind]
      rw [if_neg (by decide)]
      rfl
  | (g + 2) =>
      unfold bdOuter
      rw [if_neg (by decide)]
      rw [bdHalve_of_odd _ _ _ _ (by norm_num [BPR_FUEL]) (by decide)]
      simp only [Option.bind]
      rw [bdHalve_of_odd _ _ _ _ (by norm_num [BPR_FUEL]) (by decide)]
      simp only [Option.bind]
      rw [if_neg (by decide)]
      unfold bdOuter
      rw [if_neg (by decide)]
      rw [bdHalve_of_odd _ _ _ _ (by norm_num [BPR_FUEL]) (by decide)]
      simp only [Option.bind]
      have hb : BPR_FUEL = (BPR_FUEL - 1) + 1 := by norm_num [BPR_FUEL]
      rw [hb]
      unfold bdHalve
      rw [if_neg (by decide)]
      rw [show (BPR_FUEL - 1) = (BPR_FUEL - 2) + 1 from by norm_num [BPR_FUEL]]
      unfold bdHalve
      rw [if_pos (by decide)]
      simp only [Option.bind]
      rw [if_pos (by decide)]
      match g with
      | 0 => rfl
      | h + 1 =>
          unfold bdOuter
          rw [if_neg (by decide)]
          rw [show big_sub [3, 0, 0, 0, 0, 0, 0, 0, 0]
              (big_halve (big_sub [9, 0, 0, 0, 0, 0, 0, 0, 0]
                [3, 0, 0, 0, 0, 0, 0, 0, 0])) = big_zero from by decide]
          rw [bdHalve_zero]
          rfl

/-- C5 counterexample: modulus 9 is odd, denominator 3 is non-zero and
    positive, numerator 1 is positive, yet big_divide does not terminate
    (the embedding returns none at every fuel; bdOuter_diverges_3_9 shows the
    divergence is fuel-independent), because gcd(3, 9) = 3 > 1: the working
    value u reaches 0 and the inner halving loop never exits. -/
theorem C5_counterexample :
    big_divide big_one [3, 0, 0, 0, 0, 0, 0, 0, 0]
        [9, 0, 0, 0, 0, 0, 0, 0, 0] = none ∧
    uval [9, 0, 0, 0, 0, 0, 0, 0, 0] % 2 = 1 ∧
    0 < uval [3, 0, 0, 0, 0, 0, 0, 0, 0] ∧ 0 < uval big_one := by
  refine ⟨?_, by decide, by decide, by decide⟩
  unfold big_divide
  rw [bdOuter_diverges_3_9]
  rfl

theorem sval_odd_iff (x : List Nat) (h : bigWF x) :
    sval x % 2 = 1 ↔ uval x % 2 = 1 := by
  unfold sval
  split <;> omega

theorem big_halve_uval (u : List Nat) (hu : bigWF u) (h256 : uval u < 2 ^ 256) :
    uval (big_halve u) = uval u / 2 := by
  have hs := big_halve_sval u hu
  rw [sval_msw_zero_of_lt u hu h256] at hs
  have hnn : 0 ≤ sval (big_halve u) := by
    rw [hs]
    positivity
  have := sval_nonneg_uval (big_halve u) (big_halve_wf u hu) hnn
  omega

theorem bdHalve_ok (m : List Nat) (hm : bigWF m) (hmodd : uval m % 2 = 1)
    (hM2 : uval m < 2 ^ 256) :
    ∀ fuel u x, bigWF u → bigWF x →
      0 < uval u → uval u < 2 ^ 256 → uval u < 2 ^ fuel →
      |sval x| ≤ 2 ^ 282 →
      ∃ j u2 x2, bdHalve m fuel u x = some (u2, x2) ∧
        bigWF u2 ∧ bigWF x2 ∧
        uval u = 2 ^ j * uval u2 ∧ uval u2 % 2 = 1 ∧
        Int.ModEq (uval m) (2 ^ j * sval x2) (sval x) ∧
        (2 ^ j : Int) * |sval x2| ≤ |sval x| + ((2 ^ j : Int) - 1) * (uval m : Int) := by
  intro fuel
  induction fuel with
  | zero =>
      intro u x _ _ hu0 _ hfu _
      simp only [pow_zero] at hfu
      omega
  | succ f ih =>
      intro u x hu hx hu0 hu256 hfu hxb
      by_cases hodd : big_is_odd u = true
      · refine ⟨0, u, x, bdHalve_of_odd m u x (f+1) (by omega) hodd,
          hu, hx, by ring, (big_is_odd_iff u hu.1).mp hodd, ?_, ?_⟩
        · simpa using Int.ModEq.refl (sval x)
        · simp
      · have huev : uval u % 2 = 0 := by
          have hio := big_is_odd_iff u hu.1
          rcases Nat.mod_two_eq_zero_or_one (uval u) with h | h
          · exact h
          · exact absurd (hio.mpr h) hodd
        have hsm : sval m = (uval m : Int) := sval_msw_zero_of_lt m hm hM2
        have hhwf : bigWF (big_halve u) := big_halve_wf u hu
        have hhu : uval (big_halve u) = uval u / 2 := big_halve_uval u hu hu256
        have hx1wf : bigWF (if big_is_odd x then big_add x m else x) := by
          split
          · exact big_add_wf x m hx.1 hm.1
          · exact hx
        obtain ⟨hxlo, hxhi⟩ := abs_le.mp hxb
        have hMI : (0:Int) ≤ (uval m : Int) ∧ (uval m : Int) < 2 ^ 256 := by
          constructor
          · exact Int.natCast_nonneg _
          · exact_mod_cast hM2
        have hx1v : sval (if big_is_odd x then big_add x m else x)
            = sval x + (if big_is_odd x then (uval m : Int) else 0) := by
          split
          · rw [big_add_sval x m hx hm (by omega) (by omega), hsm]
          · ring
        have hx1even : sval (if big_is_odd x then big_add x m else x) % 2 = 0 := by
          rw [hx1v]
          have hpar := sval_odd_iff x hx
          by_cases hxo : big_is_odd x = true
          · rw [if_pos hxo]
            have h1 : uval x % 2 = 1 := (big_is_odd_iff x hx.1).mp hxo
            have h2 : sval x % 2 = 1 := hpar.mpr h1
            omega
          · rw [if_neg hxo]
            have h1 : uval x % 2 = 0 := by
              rcases Nat.mod_two_eq_zero_or_one (uval x) with h | h
              · exact h
              · exact absurd ((big_is_odd_iff x hx.1).mpr h) hxo
            have h2 : ¬sval x % 2 = 1 := fun hc => by
              have := hpar.mp hc
              omega
            omega
        have hx2v := big_halve_sval _ hx1wf
        have hdouble : 2 * sval (big_halve
            (if big_is_odd x then big_add x m else x))
            = sval (if big_is_odd x then big_add x m else x) := by
          rw [hx2v]
          omega
        have hx2b : |sval (big_halve (if big_is_odd x then big_add x m else x))|
            ≤ 2 ^ 282 := by
          have h1 : |sval (if big_is_odd x then big_add x m else x)|
              ≤ 2 ^ 282 + 2 ^ 256 := by
            rw [hx1v]
            split
            · rw [abs_le]
              constructor <;> omega
            · rw [abs_le]
              constructor <;> omega
          rw [abs_le] at h1 ⊢
          omega
        have hp2 : (2:Nat) ^ (f + 1) = 2 * 2 ^ f := by
          rw [pow_succ]
          ring
        obtain ⟨j, u2, x2, hret, hu2wf, hx2wf, hval, hodd2, hmod2, hmag2⟩ :=
          ih (big_halve u) (big_halve (if big_is_odd x then big_add x m else x))
            hhwf (big_halve_wf _ hx1wf) (by omega) (by omega) (by omega) hx2b
        refine ⟨j + 1, u2, x2, ?_, hu2wf, hx2wf, ?_, hodd2, ?_, ?_⟩
        · unfold bdHalve
          rw [if_neg hodd]
          exact hret
        · have ht : (2:Nat) ^ (j + 1) * uval u2 = 2 * (2 ^ j * uval u2) := by
            rw [pow_succ]
            ring
          rw [ht]
          omega
        · have h2m := hmod2.mul_left 2
          have heq : 2 * (2 ^ j * sval x2) = 2 ^ (j + 1) * sval x2 := by
            rw [pow_succ]
            ring
          rw [heq] at h2m
          refine h2m.trans ?_
          rw [hdouble, hx1v]
          split
          · rw [show sval x + (uval m : Int)
              = sval x + (uval m : Int) * 1 from by ring]
            unfold Int.ModEq
            rw [Int.add_mul_emod_self_left]
          · simpa using Int.ModEq.refl (sval x)
        · have h1 : (2:Int) * (2 ^ j * |sval x2|)
              ≤ 2 * (|sval (big_halve (if big_is_odd x then big_add x m else x))|
                + ((2 ^ j : Int) - 1) * (uval m : Int)) := by
            omega
          have h2 : (2:Int) * |sval (big_halve
              (if big_is_odd x then big_add x m else x))|
              = |sval (if big_is_odd x then big_add x m else x)| := by
            rw [← hdouble, abs_mul]
            simp
          have h3 : |sval (if big_is_odd x then big_add x m else x)|
              ≤ |sval x| + (uval m : Int) := by
            rw [hx1v]
            split
            · calc |sval x + (uval m : Int)| ≤ |sval x| + |(uval m : Int)| :=
                  abs_add _ _
                _ = |sval x| + (uval m : Int) := by
                    rw [abs_of_nonneg hMI.1]
            · simp only [add_zero]
              omega
          have h4 : (2:Int) ^ (j + 1) = 2 * 2 ^ j := by
            rw [pow_succ]
            ring
          rw [h4]
          calc (2:Int) * 2 ^ j * |sval x2| = 2 * (2 ^ j * |sval x2|) := by ring
            _ ≤ 2 * (|sval (big_halve (if big_is_odd x then big_add x m else x))|
                + ((2 ^ j : Int) - 1) * (uval m : Int)) := h1
            _ = 2 * |sval (big_halve (if big_is_odd x then big_add x m else x))|
                + (2 * (2 ^ j : Int) - 2) * (uval m : Int) := by ring
            _ ≤ |sval x| + (uval m : Int)
                + (2 * (2 ^ j : Int) - 2) * (uval m : Int) := by
                rw [h2]
                omega
            _ = |sval x| + (2 * (2 ^ j : Int) - 1) * (uval m : Int) := by ring

theorem log2_pow_mul (j u : Nat) (hu : 0 < u) :
    Nat.log 2 (2 ^ j * u) = j + Nat.log 2 u := by
  induction j with
  | zero => simp
  | succ c ih =>
      have h1 : (2:Nat) ^ (c + 1) * u = 2 ^ c * u * 2 := by
        rw [pow_succ]
        ring
      rw [h1, Nat.log_mul_base (by norm_num) (by positivity), ih]
      omega

theorem even_of_pow_factor (j u n : Nat) (hj : 0 < j) (h : n = 2 ^ j * u) :
    n % 2 = 0 := by
  have h2 : 2 ∣ 2 ^ j := dvd_pow_self 2 (by omega)
  have h3 : 2 ∣ n := h ▸ Dvd.dvd.mul_right h2 u
  omega

/-- The measure decrease for the u-branch subtraction. -/
theorem bitsPhi_dec_u (u v u1 v1 j1 j2 : Nat)
    (hu : u = 2 ^ j1 * u1) (hv : v = 2 ^ j2 * v1)
    (ho1 : u1 % 2 = 1) (ho2 : v1 % 2 = 1)
    (h1 : 0 < u1) (h2 : 0 < v1) (hlt : v1 < u1) :
    bitsPhi (u1 - v1) v1 < bitsPhi u v := by
  unfold bitsPhi
  rw [hu, hv, log2_pow_mul j1 u1 h1, log2_pow_mul j2 v1 h2]
  have hmono : Nat.log 2 (u1 - v1) ≤ Nat.log 2 u1 :=
    Nat.log_mono_right (by omega)
  rw [if_neg (by omega : ¬((u1 - v1) % 2 = 1 ∧ v1 % 2 = 1))]
  by_cases hj : j1 = 0 ∧ j2 = 0
  · obtain ⟨hz1, hz2⟩ := hj
    subst hz1
    subst hz2
    rw [if_pos (by simpa using And.intro ho1 ho2)]
    omega
  · have hbr : ¬(2 ^ j1 * u1 % 2 = 1 ∧ 2 ^ j2 * v1 % 2 = 1) := by
      rcases Nat.eq_zero_or_pos j1 with hz1 | hp1
      · have hp2 : 0 < j2 := by omega
        have := even_of_pow_factor j2 v1 (2 ^ j2 * v1) hp2 rfl
        omega
      · have := even_of_pow_factor j1 u1 (2 ^ j1 * u1) hp1 rfl
        omega
    rw [if_neg hbr]
    omega

/-- The measure decrease for the v-branch subtraction. -/
theorem bitsPhi_dec_v (u v u1 v1 j1 j2 : Nat)
    (hu : u = 2 ^ j1 * u1) (hv : v = 2 ^ j2 * v1)
    (ho1 : u1 % 2 = 1) (ho2 : v1 % 2 = 1)
    (h1 : 0 < u1) (h2 : 0 < v1) (hlt : u1 < v1) :
    bitsPhi u1 (v1 - u1) < bitsPhi u v := by
  unfold bitsPhi
  rw [hu, hv, log2_pow_mul j1 u1 h1, log2_pow_mul j2 v1 h2]
  have hmono : Nat.log 2 (v1 - u1) ≤ Nat.log 2 v1 :=
    Nat.log_mono_right (by omega)
  rw [if_neg (by omega : ¬(u1 % 2 = 1 ∧ (v1 - u1) % 2 = 1))]
  by_cases hj : j1 = 0 ∧ j2 = 0
  · obtain ⟨hz1, hz2⟩ := hj
    subst hz1
    subst hz2
    rw [if_pos (by simpa using And.intro ho1 ho2)]
    omega
  · have hbr : ¬(2 ^ j1 * u1 % 2 = 1 ∧ 2 ^ j2 * v1 % 2 = 1) := by
      rcases Nat.eq_zero_or_pos j1 with hz1 | hp1
      · have hp2 : 0 < j2 := by omega
        have := even_of_pow_factor j2 v1 (2 ^ j2 * v1) hp2 rfl
        omega
      · have := even_of_pow_factor j1 u1 (2 ^ j1 * u1) hp1 rfl
        omega
    rw [if_neg hbr]
    omega

theorem gcd_descend (u v u1 v1 j1 j2 : Nat)
    (hu : u = 2 ^ j1 * u1) (hv : v = 2 ^ j2 * v1)
    (hg : Nat.gcd u v = 1) : Nat.gcd u1 v1 = 1 := by
  have h1 : u1 ∣ u := hu ▸ Dvd.intro_left _ rfl
  have h2 : v1 ∣ v := hv ▸ Dvd.intro_left _ rfl
  have h3 : Nat.gcd u1 v1 ∣ Nat.gcd u v :=
    Nat.dvd_gcd (dvd_trans (Nat.gcd_dvd_left _ _) h1)
      (dvd_trans (Nat.gcd_dvd_right _ _) h2)
  rw [hg] at h3
  exact Nat.dvd_one.mp h3

theorem modeq_cancel_pow_two (M : Nat) (j : Nat) (a b : Int) (hModd : M % 2 = 1)
    (hM : 0 < M)
    (h : Int.ModEq (M : Int) ((2:Int) ^ j * a) (2 ^ j * b)) :
    Int.ModEq (M : Int) a b := by
  have hg : Int.gcd (M : Int) ((2:Int) ^ j) = 1 := by
    have h2 : Nat.Coprime M 2 :=
      Nat.coprime_two_right.mpr (Nat.odd_iff.mpr hModd)
    have h3 : Nat.Coprime M (2 ^ j) := Nat.Coprime.pow_right j h2
    have h4 : Int.gcd (M : Int) ((2:Int) ^ j) = Nat.gcd M (2 ^ j) := by
      rw [show ((2:Int) ^ j) = ((2 ^ j : Nat) : Int) by push_cast; ring]
      exact Int.gcd_natCast_natCast _ _
    rw [h4]
    exact h3
  have hc := Int.ModEq.cancel_left_div_gcd
    (show (0:Int) < (M : Int) by exact_mod_cast hM) h
  rwa [hg, Nat.cast_one, Int.ediv_one] at hc

theorem big_sub_uval_of_le (a b : List Nat) (ha : bigWF a) (hb : bigWF b)
    (hle : uval b ≤ uval a) (h256 : uval a < 2 ^ 256) (h256b : uval b < 2 ^ 256) :
    uval (big_sub a b) = uval a - uval b := by
  have hsa : sval a = (uval a : Int) := sval_msw_zero_of_lt a ha h256
  have hsb : sval b = (uval b : Int) := sval_msw_zero_of_lt b hb h256b
  have hs := big_sub_sval a b ha hb (by rw [hsa, hsb]; omega)
    (by rw [hsa, hsb]; omega)
  rw [hsa, hsb] at hs
  have hnn : 0 ≤ sval (big_sub a b) := by
    rw [hs]
    omega
  have := sval_nonneg_uval (big_sub a b) (big_sub_wf a b ha.1 hb.1) hnn
  omega

/-- One halving phase of the outer loop, with invariant transfer: the working
    value loses its factor of two, the cofactor stays bounded by K + m, and
    the division invariant x * den === u * num (mod m) descends. -/
theorem bdHalve_post (m den num : List Nat) (hm : bigWF m)
    (hmodd : uval m % 2 = 1) (hM0 : 0 < uval m) (hM2 : uval m < 2 ^ 256)
    (u x : List Nat) (K : Int)
    (hu : bigWF u) (hx : bigWF x) (hu0 : 0 < uval u) (hu256 : uval u < 2 ^ 256)
    (hK : (uval m : Int) ≤ K) (hKcap : K ≤ 2 ^ 280)
    (hxb : |sval x| ≤ (if uval u % 2 = 0 then 2 else 1) * K)
    (hmodX : Int.ModEq (uval m) (sval x * (uval den : Int))
      ((uval u : Int) * (uval num : Int))) :
    ∃ j u1 y, bdHalve m BPR_FUEL u x = some (u1, y) ∧
      bigWF u1 ∧ bigWF y ∧ uval u = 2 ^ j * uval u1 ∧ uval u1 % 2 = 1 ∧
      0 < uval u1 ∧ uval u1 < 2 ^ 256 ∧
      |sval y| ≤ K + (uval m : Int) ∧
      Int.ModEq (uval m) (sval y * (uval den : Int))
        ((uval u1 : Int) * (uval num : Int)) := by
  have hMnn : (0:Int) ≤ (uval m : Int) := Int.natCast_nonneg _
  have hKnn : (0:Int) ≤ K := le_trans hMnn hK
  have hx282 : |sval x| ≤ 2 ^ 282 := by
    have h2K : |sval x| ≤ 2 * K := by
      split at hxb
      · exact hxb
      · omega
    omega
  have hfuel : uval u < 2 ^ BPR_FUEL := by
    calc uval u < 2 ^ 256 := hu256
      _ ≤ 2 ^ BPR_FUEL := Nat.pow_le_pow_right (by norm_num)
          (by norm_num [BPR_FUEL])
  obtain ⟨j, u1, y, hret, hu1wf, hywf, hval, hodd1, hmod1, hmag1⟩ :=
    bdHalve_ok m hm hmodd hM2 BPR_FUEL u x hu hx hu0 hu256 hfuel hx282
  have hu1pos : 0 < uval u1 := by
    rcases Nat.eq_zero_or_pos (uval u1) with h0 | hp
    · rw [h0, Nat.mul_zero] at hval
      omega
    · exact hp
  have hu1le : uval u1 ≤ uval u := by
    calc uval u1 ≤ 2 ^ j * uval u1 :=
        Nat.le_mul_of_pos_left _ (by positivity)
      _ = uval u := hval.symm
  have hmag : |sval y| ≤ K + (uval m : Int) := by
    rcases Nat.eq_zero_or_pos j with hj0 | hjp
    · subst hj0
      simp only [pow_zero, one_mul] at hval hmag1
      have hufac : uval u % 2 = 1 := by omega
      rw [if_neg (by omega), one_mul] at hxb
      omega
    · have hP2 : (2:Int) ≤ 2 ^ j := by
        calc (2:Int) = 2 ^ 1 := by ring
          _ ≤ 2 ^ j := pow_le_pow_right (by norm_num) (by omega)
      have h2K : |sval x| ≤ 2 * K := by
        split at hxb
        · exact hxb
        · omega
      have hyP : (2:Int) ^ j * |sval y| ≤ 2 ^ j * (K + (uval m : Int)) := by
        calc (2:Int) ^ j * |sval y|
            ≤ |sval x| + ((2 ^ j : Int) - 1) * (uval m : Int) := hmag1
          _ ≤ 2 * K + ((2 ^ j : Int) - 1) * (uval m : Int) := by omega
          _ ≤ 2 ^ j * (K + (uval m : Int)) := by nlinarith
      exact le_of_mul_le_mul_left hyP (by positivity)
  refine ⟨j, u1, y, hret, hu1wf, hywf, hval, hodd1, hu1pos, by omega, hmag, ?_⟩
  have hcast : (uval u : Int) = (2:Int) ^ j * (uval u1 : Int) := by
    have : ((uval u : Nat) : Int) = ((2 ^ j * uval u1 : Nat) : Int) := by
      exact_mod_cast hval
    push_cast at this
    exact this
  have e1 : Int.ModEq (uval m) ((2:Int) ^ j * (sval y * (uval den : Int)))
      ((2:Int) ^ j * ((uval u1 : Int) * (uval num : Int))) := by
    have h1 := hmod1.mul_right (uval den : Int)
    rw [show ((2:Int) ^ j * sval y) * (uval den : Int)
      = (2:Int) ^ j * (sval y * (uval den : Int)) by ring] at h1
    refine h1.trans (hmodX.trans ?_)
    rw [hcast, show ((2:Int) ^ j * (uval u1 : Int)) * (uval num : Int)
      = (2:Int) ^ j * ((uval u1 : Int) * (uval num : Int)) by ring]
  exact modeq_cancel_pow_two (uval m) j _ _ hmodd hM0 e1

set_option maxHeartbeats 1600000 in
/-- Main induction for the outer loop of big_divide: with coprime working
    values, the loop terminates in a state where one working value is one and
    the corresponding cofactor solves x * den === num (mod m), with all
    cofactors within the exact two's-complement range throughout. -/
theorem bdOuter_ok (m den num : List Nat) (hm : bigWF m)
    (hmodd : uval m % 2 = 1) (hM0 : 0 < uval m) (hM2 : uval m < 2 ^ 256) :
    ∀ fuel u v x1 x2 K, bigWF u → bigWF v → bigWF x1 → bigWF x2 →
      0 < uval u → 0 < uval v → uval u < 2 ^ 256 → uval v < 2 ^ 256 →
      Nat.gcd (uval u) (uval v) = 1 →
      Int.ModEq (uval m) (sval x1 * (uval den : Int))
        ((uval u : Int) * (uval num : Int)) →
      Int.ModEq (uval m) (sval x2 * (uval den : Int))
        ((uval v : Int) * (uval num : Int)) →
      (uval m : Int) ≤ K →
      |sval x1| ≤ (if uval u % 2 = 0 then 2 else 1) * K →
      |sval x2| ≤ (if uval v % 2 = 0 then 2 else 1) * K →
      K + (bitsPhi (uval u) (uval v) : Int) * (uval m : Int) ≤ 2 ^ 280 →
      bitsPhi (uval u) (uval v) < fuel →
      ∃ u2 v2 y1 y2, bdOuter m fuel u v x1 x2 = some (u2, v2, y1, y2) ∧
        bigWF y1 ∧ bigWF y2 ∧
        ((big_is_one u2 = true ∧
            Int.ModEq (uval m) (sval y1 * (uval den : Int)) (uval num : Int)) ∨
         (big_is_one u2 = false ∧ big_is_one v2 = true ∧
            Int.ModEq (uval m) (sval y2 * (uval den : Int)) (uval num : Int))) := by
  intro fuel
  induction fuel with
  | zero =>
      intro u v x1 x2 K _ _ _ _ _ _ _ _ _ _ _ _ _ _ _ hfu
      omega
  | succ f ih =>
      intro u v x1 x2 K hu hv hx1 hx2 hu0 hv0 hu256 hv256 hgcd hX1 hX2 hK
        hxb1 hxb2 hbudget hfuel
      have hMnn : (0:Int) ≤ (uval m : Int) := Int.natCast_nonneg _
      have hKnn : (0:Int) ≤ K := le_trans hMnn hK
      have hKcap : K ≤ 2 ^ 280 := by
        have h1 : (0:Int) ≤ (bitsPhi (uval u) (uval v) : Int) * (uval m : Int) :=
          mul_nonneg (Int.natCast_nonneg _) hMnn
        omega
      by_cases hone : (big_is_one u || big_is_one v) = true
      · refine ⟨u, v, x1, x2, ?_, hx1, hx2, ?_⟩
        · unfold bdOuter
          rw [if_pos hone]
        · rcases Bool.or_eq_true_iff.mp hone with h | h
          · refine Or.inl ⟨h, ?_⟩
            have h1 : uval u = 1 := (big_is_one_iff u hu.1).mp h
            rw [h1] at hX1
            simpa using hX1
          · by_cases hu1 : big_is_one u = true
            · refine Or.inl ⟨hu1, ?_⟩
              have h1 : uval u = 1 := (big_is_one_iff u hu.1).mp hu1
              rw [h1] at hX1
              simpa using hX1
            · refine Or.inr ⟨Bool.not_eq_true _ ▸ hu1, h, ?_⟩
              have h1 : uval v = 1 := (big_is_one_iff v hv.1).mp h
              rw [h1] at hX2
              simpa using hX2
      · have hu_ne1 : uval u ≠ 1 := by
          intro hc
          exact hone (by rw [(big_is_one_iff u hu.1).mpr hc]; simp)
        have hv_ne1 : uval v ≠ 1 := by
          intro hc
          exact hone (by rw [(big_is_one_iff v hv.1).mpr hc, Bool.or_true])
        obtain ⟨j1, u1, y1, hret1, hu1wf, hy1wf, hval1, hodd1, hu1pos, hu1lt,
          hmag1, hmod1⟩ :=
          bdHalve_post m den num hm hmodd hM0 hM2 u x1 K hu hx1 hu0 hu256 hK
            hKcap hxb1 hX1
        obtain ⟨j2, v1, z2, hret2, hv1wf, hz2wf, hval2, hodd2, hv1pos, hv1lt,
          hmag2, hmod2⟩ :=
          bdHalve_post m den num hm hmodd hM0 hM2 v x2 K hv hx2 hv0 hv256 hK
            hKcap hxb2 hX2
        have hg1 : Nat.gcd (uval u1) (uval v1) = 1 :=
          gcd_descend (uval u) (uval v) (uval u1) (uval v1) j1 j2 hval1 hval2 hgcd
        have hsu1 : sval u1 = (uval u1 : Int) := sval_msw_zero_of_lt u1 hu1wf hu1lt
        have hsv1 : sval v1 = (uval v1 : Int) := sval_msw_zero_of_lt v1 hv1wf hv1lt
        have hcmp := big_cmp_spec u1 v1 hu1wf hv1wf
        rw [hsu1, hsv1] at hcmp
        have hphi_pos : 0 < bitsPhi (uval u) (uval v) := by
          have h2u : 2 ≤ uval u := by omega
          have := Nat.log_pos (by norm_num : 1 < 2) (show 2 ≤ uval u from h2u)
          unfold bitsPhi
          omega
        have hmagy1 : -(2 ^ 282 : Int) ≤ sval y1 ∧ sval y1 < 2 ^ 282 := by
          rw [abs_le] at hmag1
          constructor <;> omega
        have hmagz2 : -(2 ^ 282 : Int) ≤ sval z2 ∧ sval z2 < 2 ^ 282 := by
          rw [abs_le] at hmag2
          constructor <;> omega
        have hsubx : sval (big_sub y1 z2) = sval y1 - sval z2 :=
          big_sub_sval y1 z2 hy1wf hz2wf (by omega) (by omega)
        have hsubz : sval (big_sub z2 y1) = sval z2 - sval y1 :=
          big_sub_sval z2 y1 hz2wf hy1wf (by omega) (by omega)
        unfold bdOuter
        rw [if_neg hone, hret1]
        simp only [Option.bind]
        rw [hret2]
        simp only [Option.bind]
        rcases lt_trichotomy (uval u1) (uval v1) with hlt | heq | hgt
        · -- v-branch
          have hcmpv : big_cmp u1 v1 = -1 := by
            rw [hcmp, if_neg (by exact_mod_cast by omega), if_pos (by exact_mod_cast hlt)]
          rw [if_neg (by rw [hcmpv]; norm_num)]
          have hvv : uval (big_sub v1 u1) = uval v1 - uval u1 :=
            big_sub_uval_of_le v1 u1 hv1wf hu1wf (by omega) hv1lt hu1lt
          have hphidec : bitsPhi (uval u1) (uval (big_sub v1 u1))
              < bitsPhi (uval u) (uval v) := by
            rw [hvv]
            exact bitsPhi_dec_v (uval u) (uval v) (uval u1) (uval v1) j1 j2
              hval1 hval2 hodd1 hodd2 hu1pos hv1pos hlt
          have hcastsub : ((uval (big_sub v1 u1) : Nat) : Int)
              = (uval v1 : Int) - (uval u1 : Int) := by
            rw [hvv]
            push_cast [Nat.cast_sub (le_of_lt hlt)]
            ring
          have hmodx2' : Int.ModEq (uval m)
              (sval (big_sub z2 y1) * (uval den : Int))
              ((uval (big_sub v1 u1) : Int) * (uval num : Int)) := by
            rw [hsubz, hcastsub]
            have := hmod2.sub hmod1
            rw [show sval z2 * (uval den : Int) - sval y1 * (uval den : Int)
              = (sval z2 - sval y1) * (uval den : Int) by ring,
              show (uval v1 : Int) * (uval num : Int)
                - (uval u1 : Int) * (uval num : Int)
              = ((uval v1 : Int) - (uval u1 : Int)) * (uval num : Int) by ring] at this
            exact this
          obtain ⟨u2, v2, w1, w2, hrec, hw1, hw2, hconc⟩ :=
            ih u1 (big_sub v1 u1) y1 (big_sub z2 y1) (K + (uval m : Int))
              hu1wf (big_sub_wf v1 u1 hv1wf.1 hu1wf.1) hy1wf
              (big_sub_wf z2 y1 hz2wf.1 hy1wf.1)
              hu1pos (by omega) hu1lt (by omega)
              (by rw [hvv, Nat.gcd_comm, Nat.gcd_sub_self_left (le_of_lt hlt),
                    Nat.gcd_comm]
                  exact hg1)
              hmod1 hmodx2' (by omega)
              (by rw [if_neg (by omega), one_mul]; omega)
              (by rw [if_pos (by rw [hvv]; omega)]
                  rw [hsubz]
                  have h1 := abs_sub (sval z2) (sval y1)
                  omega)
              (by have h0 : bitsPhi (uval u1) (uval (big_sub v1 u1)) + 1
                      ≤ bitsPhi (uval u) (uval v) := by omega
                  have h1a : (bitsPhi (uval u1) (uval (big_sub v1 u1)) : Int) + 1
                      ≤ (bitsPhi (uval u) (uval v) : Int) := by exact_mod_cast h0
                  have h4 := mul_le_mul_of_nonneg_right
                    (show (bitsPhi (uval u1) (uval (big_sub v1 u1)) : Int)
                      ≤ (bitsPhi (uval u) (uval v) : Int) - 1 from by omega) hMnn
                  rw [sub_mul, one_mul] at h4
                  omega)
              (by omega)
          exact ⟨u2, v2, w1, w2, hrec, hw1, hw2, hconc⟩
        · -- equal: both working values are the gcd, hence 1
          have hone1 : uval u1 = 1 := by
            rw [heq, Nat.gcd_self] at hg1
            omega
          have hcmp0 : big_cmp u1 v1 = 0 := by
            rw [hcmp, if_neg (by exact_mod_cast by omega),
              if_neg (by exact_mod_cast by omega)]
          rw [if_pos (by rw [hcmp0])]
          have hf0 : 0 < f := by omega
          rcases Nat.exists_eq_succ_of_ne_zero (by omega : f ≠ 0) with ⟨g, rfl⟩
          have hv1one : big_is_one v1 = true :=
            (big_is_one_iff v1 hv1wf.1).mpr (by omega)
          unfold bdOuter
          rw [if_pos (by rw [hv1one, Bool.or_true])]
          refine ⟨big_sub u1 v1, v1, big_sub y1 z2, z2, rfl,
            big_sub_wf y1 z2 hy1wf.1 hz2wf.1, hz2wf, Or.inr ⟨?_, hv1one, ?_⟩⟩
          · have hzz : uval (big_sub u1 v1) = uval u1 - uval v1 :=
              big_sub_uval_of_le u1 v1 hu1wf hv1wf (by omega) hu1lt hv1lt
            have : ¬(big_is_one (big_sub u1 v1) = true) := by
              rw [big_is_one_iff _ (big_sub_wf u1 v1 hu1wf.1 hv1wf.1).1]
              omega
            exact Bool.not_eq_true _ ▸ this
          · have h1 : uval v1 = 1 := by omega
            rw [h1] at hmod2
            simpa using hmod2
        · -- u-branch
          have hcmpu : big_cmp u1 v1 = 1 := by
            rw [hcmp, if_pos (by exact_mod_cast hgt)]
          rw [if_pos (by rw [hcmpu]; norm_num)]
          have huu : uval (big_sub u1 v1) = uval u1 - uval v1 :=
            big_sub_uval_of_le u1 v1 hu1wf hv1wf (by omega) hu1lt hv1lt
          have hphidec : bitsPhi (uval (big_sub u1 v1)) (uval v1)
              < bitsPhi (uval u) (uval v) := by
            rw [huu]
            exact bitsPhi_dec_u (uval u) (uval v) (uval u1) (uval v1) j1 j2
              hval1 hval2 hodd1 hodd2 hu1pos hv1pos hgt
          have hcastsub : ((uval (big_sub u1 v1) : Nat) : Int)
              = (uval u1 : Int) - (uval v1 : Int) := by
            rw [huu]
            push_cast [Nat.cast_sub (le_of_lt hgt)]
            ring
          have hmodx1' : Int.ModEq (uval m)
              (sval (big_sub y1 z2) * (uval den : Int))
              ((uval (big_sub u1 v1) : Int) * (uval num : Int)) := by
            rw [hsubx, hcastsub]
            have := hmod1.sub hmod2
            rw [show sval y1 * (uval den : Int) - sval z2 * (uval den : Int)
              = (sval y1 - sval z2) * (uval den : Int) by ring,
              show (uval u1 : Int) * (uval num : Int)
                - (uval v1 : Int) * (uval num : Int)
              = ((uval u1 : Int) - (uval v1 : Int)) * (uval num : Int) by ring] at this
            exact this
          obtain ⟨u2, v2, w1, w2, hrec, hw1, hw2, hconc⟩ :=
            ih (big_sub u1 v1) v1 (big_sub y1 z2) z2 (K + (uval m : Int))
              (big_sub_wf u1 v1 hu1wf.1 hv1wf.1) hv1wf
              (big_sub_wf y1 z2 hy1wf.1 hz2wf.1) hz2wf
              (by omega) hv1pos (by omega) hv1lt
              (by rw [huu, Nat.gcd_sub_self_left (le_of_lt hgt)]
                  exact hg1)
              hmodx1' hmod2 (by omega)
              (by rw [if_pos (by rw [huu]; omega)]
                  rw [hsubx]
                  have h1 := abs_sub (sval y1) (sval z2)
                  omega)
              (by rw [if_neg (by omega), one_mul]; omega)
              (by have h0 : bitsPhi (uval (big_sub u1 v1)) (uval v1) + 1
                      ≤ bitsPhi (uval u) (uval v) := by omega
                  have h1a : (bitsPhi (uval (big_sub u1 v1)) (uval v1) : Int) + 1
                      ≤ (bitsPhi (uval u) (uval v) : Int) := by exact_mod_cast h0
                  have h4 := mul_le_mul_of_nonneg_right
                    (show (bitsPhi (uval (big_sub u1 v1)) (uval v1) : Int)
                      ≤ (bitsPhi (uval u) (uval v) : Int) - 1 from by omega) hMnn
                  rw [sub_mul, one_mul] at h4
                  omega)
              (by omega)
          exact ⟨u2, v2, w1, w2, hrec, hw1, hw2, hconc⟩

theorem log2_le_255 (n : Nat) (h : n < 2 ^ 256) : Nat.log 2 n ≤ 255 := by
  rcases Nat.eq_zero_or_pos n with rfl | hp
  · simp
  · have := Nat.log_lt_of_lt_pow (by omega : n ≠ 0) h
    omega

/-- C5 (amended): big_divide terminates and computes the modular quotient for
    every odd modulus below 2^256 and canonical operands with the denominator
    invertible: the result r is the canonical residue with
    r * den === num (mod m). -/
theorem C5_big_divide_amended (num den m : List Nat)
    (hnum : bigWF num) (hden : bigWF den) (hm : bigWF m)
    (hmodd : uval m % 2 = 1) (hmsw : msw m = 0)
    (hdenpos : 0 < uval den) (hdenlt : uval den < uval m)
    (hnumlt : uval num < uval m)
    (hcop : Nat.gcd (uval den) (uval m) = 1) :
    ∃ r, big_divide num den m = some r ∧ bigWF r ∧ uval r < uval m ∧
      Int.ModEq (uval m) ((uval r : Int) * (uval den : Int)) (uval num : Int) := by
  have hM0 : 0 < uval m := by omega
  have hM2 : uval m < 2 ^ 256 := (msw_zero_sval m hm hmsw).2
  have hMI : (uval m : Int) < 2 ^ 256 := by exact_mod_cast hM2
  have hMnn : (0:Int) ≤ (uval m : Int) := Int.natCast_nonneg _
  have hsnum : sval num = (uval num : Int) :=
    sval_msw_zero_of_lt num hnum (by omega)
  have hNI : (uval num : Int) < (uval m : Int) := by exact_mod_cast hnumlt
  have hNnn : (0:Int) ≤ (uval num : Int) := Int.natCast_nonneg _
  have hphibd : bitsPhi (uval den) (uval m) ≤ 511 := by
    unfold bitsPhi
    have h1 := log2_le_255 (uval den) (by omega)
    have h2 := log2_le_255 (uval m) hM2
    split <;> omega
  obtain ⟨u2, v2, y1, y2, houter, hwy1, hwy2, hdisj⟩ :=
    bdOuter_ok m den num hm hmodd hM0 hM2 BPR_FUEL den m num big_zero
      (uval m : Int) hden hm hnum (by decide) hdenpos hM0 (by omega) hM2 hcop
      (by rw [hsnum, mul_comm])
      (by rw [show sval big_zero = 0 from by decide, zero_mul]
          exact (Int.modEq_zero_iff_dvd.mpr ⟨(uval num : Int), rfl⟩).symm)
      (le_refl _)
      (by rw [hsnum, abs_of_nonneg hNnn]
          split <;> omega)
      (by rw [show sval big_zero = 0 from by decide, abs_zero]
          split <;> omega)
      (by have h1 : (bitsPhi (uval den) (uval m) : Int) ≤ 511 := by
            exact_mod_cast hphibd
          have h2 := mul_le_mul_of_nonneg_right h1 hMnn
          omega)
      (by have : BPR_FUEL = 2 ^ 300 := rfl
          have h9 : (511:Nat) < 2 ^ 300 := by norm_num
          omega)
  unfold big_divide
  rw [houter]
  simp only [Option.bind]
  rcases hdisj with ⟨h1, hcong⟩ | ⟨h1f, h2, hcong⟩
  · rw [if_pos h1]
    obtain ⟨r, hred, hwfr, hlt, hmodr⟩ :=
      big_precise_reduce_ok y1 m hwy1 hm hmsw hM0
    refine ⟨r, hred, hwfr, hlt, ?_⟩
    exact (hmodr.mul_right (uval den : Int)).trans hcong
  · rw [if_neg (by rw [h1f]; simp)]
    obtain ⟨r, hred, hwfr, hlt, hmodr⟩ :=
      big_precise_reduce_ok y2 m hwy2 hm hmsw hM0
    refine ⟨r, hred, hwfr, hlt, ?_⟩
    exact (hmodr.mul_right (uval den : Int)).trans hcong

theorem C5_witness :
    bigWF big_one ∧ uval [3, 0, 0, 0, 0, 0, 0, 0, 0] % 2 = 1 ∧
    Nat.gcd (uval big_one) (uval [3, 0, 0, 0, 0, 0, 0, 0, 0]) = 1 ∧
    ∃ r, big_divide big_one big_one [3, 0, 0, 0, 0, 0, 0, 0, 0] = some r ∧
      bigWF r ∧ uval r < uval [3, 0, 0, 0, 0, 0, 0, 0, 0] ∧
      Int.ModEq (uval [3, 0, 0, 0, 0, 0, 0, 0, 0])
        ((uval r : Int) * (uval big_one : Int)) (uval big_one : Int) :=
  ⟨by decide, by decide, by decide,
    C5_big_divide_amended big_one big_one [3, 0, 0, 0, 0, 0, 0, 0, 0]
      (by decide) (by decide) (by decide) (by decide) (by decide)
      (by decide) (by decide) (by decide) (by decide)⟩
/- ------------------------------------------------------------------ -/

/- ECDH shared-secret derivation (ECDH_derive_pt).                     -/
/- ------------------------------------------------------------------ -/

/-- The curve coefficient b of NIST P-256 as stored in the b_P256 constant
    (nine little-endian 32-bit words). -/
def b_P256 : List Nat :=
  [0x27d2604b, 0x3bce3c3e, 0xcc53b0f6, 0x651d06b0,
   0x769886bc, 0xb3ebbd55, 0xaa3a93e7, 0x5ac635d8, 0x00000000]

/-- Modelled from the spec: the numeric value of a digit256 field element,
    four little-endian 64-bit digits. -/
def d256val (x : List Nat) : Nat :=
  x.getD 0 0 + 2 ^ 64 * x.getD 1 0 + 2 ^ 128 * x.getD 2 0 + 2 ^ 192 * x.getD 3 0

/-- Modelled from the spec: the internal curve module represents the group
    identity (the point at infinity) as the all-zero coordinate pair, and
    ec_is_infinity tests for that representative. -/
def ec_is_infinity (P : List Nat × List Nat) : Bool :=
  decide (d256val P.1 = 0 ∧ d256val P.2 = 0)

/-- Modelled from the spec: ec_oncurve tests the affine P-256 curve equation
    y^2 = x^3 - 3x + b (mod p); the all-zero identity representative fails
    the test because b is not 0 mod p. -/
def ec_oncurve (P : List Nat × List Nat) : Bool :=
  decide (d256val P.2 ^ 2 % pVal
    = (d256val P.1 ^ 3 + (pVal - 3) * d256val P.1 + uval b_P256) % pVal)

/-- ECDH_derive_pt, following the source's control flow. The callees that
    live outside this translation unit are abstracted: curveOk stands for
    ec_getcurve returning ER_OK, validation for ecpoint_validation, scalarmul
    for the point computed by ec_scalarmul and scalarOk for its ER_OK status.
    The result is the returned status together with the written target point
    (none when the early exits leave the target unwritten). -/
def ECDH_derive_pt (curveOk : Bool)
    (validation : List Nat × List Nat → Bool)
    (scalarmul : List Nat → List Nat × List Nat → List Nat × List Nat)
    (scalarOk : Bool) (k : List Nat) (Q : AffPt) : Bool × Option AffPt :=
  if curveOk then
    match bigval_to_digit256 k, bigval_to_digit256 Q.x, bigval_to_digit256 Q.y with
    | some ourPrivate, some qx, some qy =>
        if validation (qx, qy) then
          (ec_oncurve (scalarmul ourPrivate (qx, qy)) && scalarOk,
           some ⟨digit256_to_bigval (scalarmul ourPrivate (qx, qy)).1,
                 digit256_to_bigval (scalarmul ourPrivate (qx, qy)).2,
                 ec_is_infinity (scalarmul ourPrivate (qx, qy))⟩)
        else (false, none)
    | _, _, _ => (false, none)
  else (false, none)

theorem ec_oncurve_not_identity (P : List Nat × List Nat)
    (h : ec_oncurve P = true) : ec_is_infinity P = false := by
  cases hi : ec_is_infinity P with
  | false => rfl
  | true =>
    exfalso
    unfold ec_is_infinity at hi
    rw [decide_eq_true_eq] at hi
    unfold ec_oncurve at h
    rw [hi.1, hi.2] at h
    revert h
    decide

/-- C7: the shared-secret derivation never reports success on a degenerate
    shared secret: whatever the external curve setup, point validation and
    scalar multiplication return, whenever ECDH_derive_pt reports status true
    the shared point it wrote is not the identity (infinity) point, because
    the on-curve status check rejects the all-zero identity representative. -/
theorem C7_derive_rejects_identity
    (curveOk : Bool) (validation : List Nat × List Nat → Bool)
    (scalarmul : List Nat → List Nat × List Nat → List Nat × List Nat)
    (scalarOk : Bool) (k : List Nat) (Q : AffPt) (tgt : AffPt)
    (h : ECDH_derive_pt curveOk validation scalarmul scalarOk k Q
      = (true, some tgt)) :
    tgt.infinity = false := by
  unfold ECDH_derive_pt at h
  split at h
  · split at h
    · split at h
      · rw [Prod.mk.injEq, Option.some.injEq] at h
        obtain ⟨hstat, htgt⟩ := h
        rw [Bool.and_eq_true] at hstat
        subst htgt
        exact ec_oncurve_not_identity _ hstat.1
      · simp at h
    · simp at h
  · simp at h

theorem C7_witness :
    (AffPt.mk
      (digit256_to_bigval [0xf4a13945d898c296, 0x77037d812deb33a0,
        0xf8bce6e563a440f2, 0x6b17d1f2e12c4247])
      (digit256_to_bigval [0xcbb6406837bf51f5, 0x2bce33576b315ece,
        0x8ee7eb4a7c0f9e16, 0x4fe342e2fe1a7f9b])
      false).infinity = false :=
  C7_derive_rejects_identity true (fun _ => true)
    (fun _ _ =>
      ([0xf4a13945d898c296, 0x77037d812deb33a0,
        0xf8bce6e563a440f2, 0x6b17d1f2e12c4247],
       [0xcbb6406837bf51f5, 0x2bce33576b315ece,
        0x8ee7eb4a7c0f9e16, 0x4fe342e2fe1a7f9b]))
    true big_one ⟨big_one, big_one, false⟩
    ⟨digit256_to_bigval [0xf4a13945d898c296, 0x77037d812deb33a0,
        0xf8bce6e563a440f2, 0x6b17d1f2e12c4247],
     digit256_to_bigval [0xcbb6406837bf51f5, 0x2bce33576b315ece,
        0x8ee7eb4a7c0f9e16, 0x4fe342e2fe1a7f9b],
     false⟩
    (by decide)

/- ------------------------------------------------------------------ -/
/- The routing rule table (RuleTable).                                 -/
/- ------------------------------------------------------------------ -/

/-- Modelled from the spec: the message attributes rule matching reads. -/
structure MsgAttrs where
  iface : Nat
  member : Nat
  path : Nat
  sender : Nat
deriving DecidableEq

/-- Modelled from the spec: a rule is an immutable match predicate over the
    message attributes; an omitted field matches every message. -/
structure Rule where
  iface : Option Nat
  member : Option Nat
  path : Option Nat
  sender : Option Nat
deriving DecidableEq

/-- Modelled from the spec: one optional rule field against one attribute. -/
def fieldMatches (o : Option Nat) (v : Nat) : Bool :=
  match o with
  | none => true
  | some w => w == v

/-- Modelled from the spec: a rule matches a message when every one of its
    set fields equals the message's corresponding attribute. -/
def ruleMatches (r : Rule) (m : MsgAttrs) : Bool :=
  fieldMatches r.iface m.iface && fieldMatches r.member m.member &&
    fieldMatches r.path m.path && fieldMatches r.sender m.sender

/-- AddRule: the table is a multimap from endpoint identity to rules,
    modelled as an association list. -/
def AddRule (t : List (Nat × Rule)) (ep : Nat) (r : Rule) : List (Nat × Rule) :=
  (ep, r) :: t

/-- RemoveAllRules: drop every rule registered for the endpoint. -/
def RemoveAllRules (t : List (Nat × Rule)) (ep : Nat) : List (Nat × Rule) :=
  t.filter (fun pr => !(pr.1 == ep))

/-- Modelled from the spec: OkToSend iterates the endpoint's rule subset and
    returns true when some registered rule matches the message. -/
def OkToSend (m : MsgAttrs) (ep : Nat) (t : List (Nat × Rule)) : Bool :=
  t.any (fun pr => pr.1 == ep && ruleMatches pr.2 m)

/-- C8: OkToSend returns true iff at least one rule registered for the
    endpoint matches the message; it returns false when no rules are
    registered for the endpoint (default-deny), and after RemoveAllRules on
    that endpoint it returns false for every message. -/
theorem C8_okToSend_matches (t : List (Nat × Rule)) (m : MsgAttrs) (ep : Nat) :
    (OkToSend m ep t = true ↔
      ∃ r : Rule, (ep, r) ∈ t ∧ ruleMatches r m = true) ∧
    ((∀ r : Rule, (ep, r) ∉ t) → OkToSend m ep t = false) ∧
    OkToSend m ep (RemoveAllRules t ep) = false := by
  have hiff : OkToSend m ep t = true ↔
      ∃ r : Rule, (ep, r) ∈ t ∧ ruleMatches r m = true := by
    unfold OkToSend
    rw [List.any_eq_true]
    constructor
    · rintro ⟨⟨a, b⟩, hmem, hb⟩
      rw [Bool.and_eq_true, beq_iff_eq] at hb
      exact ⟨b, by rw [← hb.1]; exact hmem, hb.2⟩
    · rintro ⟨r, hmem, hr⟩
      exact ⟨(ep, r), hmem, by rw [Bool.and_eq_true, beq_iff_eq]; exact ⟨rfl, hr⟩⟩
  refine ⟨hiff, ?_, ?_⟩
  · intro hnone
    cases hok : OkToSend m ep t with
    | false => rfl
    | true =>
      obtain ⟨r, hmem, _⟩ := hiff.mp hok
      exact absurd hmem (hnone r)
  · cases hok : OkToSend m ep (RemoveAllRules t ep) with
    | false => rfl
    | true =>
      exfalso
      unfold OkToSend RemoveAllRules at hok
      rw [List.any_eq_true] at hok
      obtain ⟨pr, hmem, hb⟩ := hok
      rw [List.mem_filter] at hmem
      rw [Bool.and_eq_true] at hb
      rw [hb.1] at hmem
      simp at hmem

theorem C8_witness :
    OkToSend ⟨10, 0, 0, 0⟩ 1
      (RemoveAllRules (AddRule [] 1 ⟨some 10, none, none, none⟩) 1) = false :=
  (C8_okToSend_matches (AddRule [] 1 ⟨some 10, none, none, none⟩)
    ⟨10, 0, 0, 0⟩ 1).2.2
